import Mathlib

/-!
RSA-Cryptography: number theory and RSA primitives.

A shallow embedding of numtheory.c, rsa.c and the option checks of keygen.c, and the
properties of the specification that hold or fail on it.

Conventions of the embedding:

* An mpz_t is an Int.  The GMP function mpz_mod is the operator % on Int (its result
  is never negative), mpz_fdiv_q is Int.fdiv and mpz_cdiv_q is mpz_cdiv_q below.  GMP
  aborts on a division by zero; every division of the embedded code is either guarded
  by its loop condition or has a divisor that the stated theorems keep away from zero.
* A uint64_t or size_t is a Nat, reduced modulo 2 ^ 64 where it is stored or where a
  subtraction can wrap.
* The random state is a tape: the list of the raw values the generator is going to hand
  out.  mpz_urandomb (p, state, bits) takes the next value modulo 2 ^ bits and
  mpz_urandomm (rand, state, m) takes it modulo m.  A function that draws returns the
  rest of the tape with its result, and none when the tape ends before it returns.
  The C library function random has a tape of its own and takes the next value modulo
  2 ^ 31.
* A loop is a recursive function on the loop state.
* An input file is the list of its bytes; a file of ciphertext lines is the list of
  the integers on its lines; a key file is the list of its characters, written and read
  by the conversions of gmp_fprintf and gmp_fscanf.
* A definition whose name starts with spec_ follows the words of the specification; it
  is there to be compared with the definition made from the code.
-/

namespace RSA

set_option linter.unusedVariables false

/-! ## GMP primitives -/

/-- The GMP function `mpz_cdiv_q`: the quotient rounded towards plus infinity. -/
def mpz_cdiv_q (a b : Int) : Int := -((-a).fdiv b)

/-- The GMP call `mpz_sizeinbase (x, 2)`: the number of bits of `|x|`, and 1 when `x`
is 0. -/
def mpz_sizeinbase2 (x : Int) : Nat := if x = 0 then 1 else Nat.size x.natAbs

/-- The GMP call `mpz_import (m, count, 1, sizeof (char), 1, 0, block)`: the integer
whose bytes, most significant first, are the `count` bytes given. -/
def mpz_import (bytes : List Nat) : Int := ((Nat.ofDigits 256 bytes.reverse : Nat) : Int)

/-- The GMP call `mpz_export (block, &j, 1, sizeof (char), 1, 0, m)`: the bytes of
`|m|`, most significant first, without leading zero bytes; `j` is their number, 0 for
`m = 0`. -/
def mpz_export (m : Int) : List Nat := (Nat.digits 256 m.natAbs).reverse

/-! ## numtheory.c -/

/-- The function `gcd`: the loop `while (b != 0) { temp = b; b = a mod b; a = temp; }`
on the copies of `a` and `b`; the output is the final `a`. -/
def gcd (a b : Int) : Int :=
  if b ≠ 0 then gcd b (a % b) else a
termination_by b.natAbs
decreasing_by
  rename_i h
  have h1 := Int.emod_lt a h
  have h2 := Int.emod_nonneg a h
  rw [Int.abs_eq_natAbs] at h1
  omega

/-- The loop of `mod_inverse` on the state `(r1, r2, t1, t2)`; returns the final
`(r1, t1)`. -/
def mod_inverse_loop (r1 r2 t1 t2 : Int) : Int × Int :=
  if r2 ≠ 0 then
    let q := r1.fdiv r2
    mod_inverse_loop r2 (r1 - q * r2) t2 (t1 - q * t2)
  else (r1, t1)
termination_by r2.natAbs
decreasing_by
  rename_i h
  show (r1 - r1.fdiv r2 * r2).natAbs < r2.natAbs
  rcases lt_or_gt_of_ne h with hb | hb
  · obtain ⟨n, rfl⟩ : ∃ n : Nat, r2 = Int.negSucc n := by
      rcases r2 with b | n
      · exact absurd hb (by simp)
      · exact ⟨n, rfl⟩
    rcases r1 with (_ | m) | m
    · simp [Int.fdiv]
    · show ((Int.ofNat (m+1)) - (Int.negSucc (m / n.succ)) * Int.negSucc n).natAbs < _
      have h1 := Nat.div_add_mod m (n+1)
      have h2 := Nat.mod_lt m (Nat.succ_pos n)
      simp only [Int.negSucc_eq, Int.ofNat_eq_coe, Nat.succ_eq_add_one] at *
      set q := m / (n+1)
      set r := m % (n+1)
      have h3 : ((m : Int) + 1 : Int) = (n+1) * q + r + 1 := by
        have h4 := congrArg (Nat.cast : Nat → Int) h1
        push_cast at h4
        linarith
      push_cast
      rw [h3]
      have : ((n:Int) + 1) * q + r + 1 - -(q + 1) * -(n + 1) = r - n := by ring
      rw [this]
      omega
    · show ((Int.negSucc m) - (Int.ofNat (m.succ / n.succ)) * Int.negSucc n).natAbs < _
      have h1 := Nat.div_add_mod (m+1) (n+1)
      have h2 := Nat.mod_lt (m+1) (Nat.succ_pos n)
      simp only [Int.negSucc_eq, Int.ofNat_eq_coe, Nat.succ_eq_add_one] at *
      set q := (m+1) / (n+1)
      set r := (m+1) % (n+1)
      have h3 : ((m : Int) + 1 : Int) = (n+1) * q + r := by
        have h4 := congrArg (Nat.cast : Nat → Int) h1
        push_cast at h4
        linarith
      rw [h3]
      have : -(((n:Int) + 1) * q + r) - q * -(n + 1) = - r := by ring
      rw [this]
      omega
  · have h1 := Int.fmod_lt_of_pos r1 hb
    have h0 := Int.fmod_eq_emod r1 hb.le
    have h2 := Int.emod_nonneg r1 h
    rw [Int.fmod_def] at h1 h0
    have : r1 - r1.fdiv r2 * r2 = r1 - r2 * r1.fdiv r2 := by ring
    rw [this]
    omega

/-- The function `mod_inverse`: the extended Euclidean loop started at `(n, a, 0, 1)`;
the output is 0 when the final `r` exceeds 1, else the final `t`, with `n` added when it
is negative. -/
def mod_inverse (a n : Int) : Int :=
  let rt := mod_inverse_loop n a 0 1
  if rt.1 > 1 then 0
  else if rt.2 < 0 then rt.2 + n
  else rt.2

/-- The loop of `pow_mod` on the state `(o, p, d)`: while `d > 0`, multiply `o` by `p`
modulo `n` when `d` is odd, square `p` modulo `n`, halve `d`. -/
def pow_mod_loop (o p d n : Int) : Int :=
  if d > 0 then
    let o1 := if d % 2 = 1 then (o * p) % n else o
    pow_mod_loop o1 ((p * p) % n) (d.fdiv 2) n
  else o
termination_by d.toNat
decreasing_by
  rename_i h
  rw [Int.fdiv_eq_ediv d (by norm_num : (0 : Int) ≤ 2)]
  omega

/-- The function `pow_mod`: square and multiply, starting from `o = 1` and `p = a`. -/
def pow_mod (a d n : Int) : Int := pow_mod_loop 1 a d n

/-- The loop of `is_prime` that searches the exponent: starting from `s`, it stops at
the first `s` where the floor and the ceiling of `start / 2 ^ s` differ, and returns
that `s`.  The caller has left with `false` when `n` is 0 or 1, so `start = n - 1` is
not 0. -/
def is_prime_find_s (start : Int) (hstart : start ≠ 0) (s : Nat) : Nat :=
  if h : start.fdiv (1 * 2 ^ s) ≠ mpz_cdiv_q start (1 * 2 ^ s) then s
  else is_prime_find_s start hstart (s + 1)
termination_by start.natAbs - s
decreasing_by
  simp only [mpz_cdiv_q, one_mul, ne_eq, not_not] at h
  have hpos : (0 : Int) < 2 ^ s := by positivity
  rw [Int.fdiv_eq_ediv _ hpos.le, Int.fdiv_eq_ediv _ hpos.le] at h
  have hdvd : (2 : Int) ^ s ∣ start := by
    by_contra hnd
    have hm : start % 2 ^ s ≠ 0 := fun h0 => hnd (Int.dvd_of_emod_eq_zero h0)
    have hm0 := Int.emod_nonneg start hpos.ne'
    have hm1 := Int.emod_lt_of_pos start hpos
    have hsplit := Int.emod_add_ediv start (2 ^ s)
    have hq : (-start) / 2 ^ s = -(start / 2 ^ s) - 1 := by
      have := (Int.ediv_emod_unique (a := -start) (r := 2 ^ s - start % 2 ^ s)
        (q := -(start / 2 ^ s) - 1) hpos).mpr
        ⟨by linarith [(by ring : 2 ^ s - start % 2 ^ s + 2 ^ s * (-(start / 2 ^ s) - 1)
            = -(start % 2 ^ s + 2 ^ s * (start / 2 ^ s)))], by omega, by omega⟩
      exact this.1
    rw [hq] at h
    omega
  have hle : (2 : Int) ^ s ≤ |start| := by
    have := Int.le_of_dvd (abs_pos.mpr hstart) ((dvd_abs _ _).mpr hdvd)
    exact this
  have hlt : (s : Int) < 2 ^ s := by exact_mod_cast Nat.lt_two_pow s
  rw [Int.abs_eq_natAbs] at hle
  omega

/-- The witness loop of `is_prime`: `mpz_urandomm (rand, state, start)` until
`rand > 1`.  Returns the witness and the rest of the tape. -/
def is_prime_draw (start : Int) : List Nat → Option (Int × List Nat)
  | [] => none
  | x :: tape =>
    let rand := (x : Int) % start
    if rand > 1 then some (rand, tape) else is_prime_draw start tape

/-- The squaring loop of one round, from `j` and `y`:
`while (j <= s - 1 && y != start) { y = pow_mod (y, 2, n); if (y == 1) return false; j += 1; }`.
`none` is the `return false` inside the loop, `some y` the value of `y` at the exit. -/
def is_prime_square_loop (n start : Int) (s j : Nat) (y : Int) : Option Int :=
  if (j : Int) ≤ (s : Int) - 1 ∧ y ≠ start then
    let y2 := pow_mod y 2 n
    if y2 = 1 then none else is_prime_square_loop n start s (j + 1) y2
  else some y
termination_by s - j
decreasing_by
  rename_i h
  omega

/-- The rounds of `is_prime`: `for (i = 1; i < iters; i++)` runs the body `iters - 1`
times; the first argument counts the rounds that are left. -/
def is_prime_rounds (n start r : Int) (s : Nat) : Nat → List Nat → Option (Bool × List Nat)
  | 0, tape => some (true, tape)
  | k + 1, tape =>
    match is_prime_draw start tape with
    | none => none
    | some (rand, tape1) =>
      let y := pow_mod rand r n
      if y ≠ 1 ∧ y ≠ start then
        match is_prime_square_loop n start s 1 y with
        | none => some (false, tape1)
        | some y1 =>
          if y1 ≠ start then some (false, tape1)
          else is_prime_rounds n start r s k tape1
      else is_prime_rounds n start r s k tape1

/-- The function `is_prime`: the Miller-Rabin test of `n` with `iters - 1` rounds.  The
result is the returned boolean and the rest of the tape. -/
def is_prime (n : Int) (iters : Nat) (tape : List Nat) : Option (Bool × List Nat) :=
  if h : n = 0 ∨ n = 1 then some (false, tape)
  else if n = 3 then some (true, tape)
  else
    let start := n - 1
    let s := is_prime_find_s start (by omega) 0 - 1
    let right : Int := 1 * 2 ^ s
    let r := start.fdiv right
    is_prime_rounds n start r s (iters - 1) tape

/-- The trial division of `make_prime`: `for (i = 3; i < 542; i += 2)` sets `cont`
when `p` is divisible by `i` and is not `i`. -/
def make_prime_cont (p : Int) : Bool :=
  (List.range 270).any fun t => decide (p % (3 + 2 * (t : Int)) = 0 ∧ p ≠ 3 + 2 * (t : Int))

/-- The function `make_prime`: draw `bits` random bits until a draw has exactly `bits`
bits, is not set aside by the trial division once forced odd, and passes `is_prime`. -/
def make_prime (bits iters : Nat) : List Nat → Option (Int × List Nat)
  | [] => none
  | x :: tape =>
    let p0 : Int := ((x % 2 ^ bits : Nat) : Int)
    if mpz_sizeinbase2 p0 = bits then
      let p := if p0 % 2 = 0 then p0 + 1 else p0
      if make_prime_cont p = true then make_prime bits iters tape
      else
        match h : is_prime p iters tape with
        | none => none
        | some (true, tape1) => some (p, tape1)
        | some (false, tape1) => make_prime bits iters tape1
    else make_prime bits iters tape
termination_by tape => tape.length
decreasing_by
  · simp
  · have hdraw : ∀ (start : Int) (t : List Nat) (w : Int) (t1 : List Nat),
        is_prime_draw start t = some (w, t1) → t1.length ≤ t.length := by
      intro start t
      induction t with
      | nil => intro w t1 h; simp [is_prime_draw] at h
      | cons x t ih =>
        intro w t1 h
        simp only [is_prime_draw] at h
        split at h
        · simp only [Option.some.injEq, Prod.mk.injEq] at h
          obtain ⟨-, rfl⟩ := h
          simp
        · have := ih _ _ h
          simp only [List.length_cons]
          omega
    have hrounds : ∀ (n start r : Int) (s k : Nat) (t : List Nat) (b : Bool) (t1 : List Nat),
        is_prime_rounds n start r s k t = some (b, t1) → t1.length ≤ t.length := by
      intro n start r s k
      induction k with
      | zero =>
        intro t b t1 h
        simp only [is_prime_rounds, Option.some.injEq, Prod.mk.injEq] at h
        obtain ⟨-, rfl⟩ := h
        exact le_rfl
      | succ k ih =>
        intro t b t1 h
        simp only [is_prime_rounds] at h
        split at h
        · simp at h
        · rename_i rand tape1 hd
          have h1 := hdraw _ _ _ _ hd
          split at h
          · split at h
            · simp only [Option.some.injEq, Prod.mk.injEq] at h
              obtain ⟨-, rfl⟩ := h
              exact h1
            · split at h
              · simp only [Option.some.injEq, Prod.mk.injEq] at h
                obtain ⟨-, rfl⟩ := h
                exact h1
              · exact (ih _ _ _ h).trans h1
          · exact (ih _ _ _ h).trans h1
    have hlen : tape1.length ≤ tape.length := by
      unfold is_prime at h
      split at h
      · simp only [Option.some.injEq, Prod.mk.injEq] at h
        obtain ⟨-, rfl⟩ := h
        exact le_rfl
      · split at h
        · simp at h
        · exact hrounds _ _ _ _ _ _ _ _ h
    simp only [List.length_cons]
    omega

/-! ## rsa.c -/

/-- The function `rsa_make_priv`: `lambda = (p - 1) (q - 1) / gcd (p - 1, q - 1)` and
`d = mod_inverse (e, lambda)`. -/
def rsa_make_priv (e p q : Int) : Int :=
  let pminus1 := p - 1
  let qminus1 := q - 1
  let phi := pminus1 * qminus1
  let gcd2 := gcd pminus1 qminus1
  let lambda := phi.fdiv gcd2
  mod_inverse e lambda

/-- The function `rsa_encrypt`: `c = pow_mod (m, e, n)`. -/
def rsa_encrypt (m e n : Int) : Int := pow_mod m e n

/-- The size of the block, in bytes: `uint64_t k = (mpz_sizeinbase (n, 2) - 1) / 8`. -/
def rsa_block_size (n : Int) : Nat := (mpz_sizeinbase2 n - 1) / 8 % 2 ^ 64

/-- The loop of `rsa_encrypt_file` for a block of `k >= 1` bytes, on the bytes of
`infile` not yet read and its end-of-file flag (`feof` is 1 once it is set); returns the
lines written to `outfile`, one integer per `"%Zx\n"`.  `fread` takes up to `k - 1`
bytes and sets the flag when fewer were left. -/
def rsa_encrypt_file_loop (k : Nat) (n e : Int) (infile : List Nat) (eof : Bool) : List Int :=
  if eof = true then []
  else
    if (infile.take (k - 1)).length = 0 then []
    else
      let chunk := infile.take (k - 1)
      let m := mpz_import (0xFF :: chunk)
      let eof1 := decide (chunk.length < k - 1)
      if m = 0 ∨ m = 1 then rsa_encrypt_file_loop k n e (infile.drop (k - 1)) eof1
      else rsa_encrypt m e n :: rsa_encrypt_file_loop k n e (infile.drop (k - 1)) eof1
termination_by infile.length
decreasing_by
  all_goals
    rename_i h1 h2
    simp only [List.length_take, List.length_drop] at *
    omega

/-- The function `rsa_encrypt_file`: `infile` is the list of its bytes, the result the
list of the lines written.  With `k = 0` the store `block[0] = 0xFF` is outside the
block allocated by `malloc (0)`: the result is `none`. -/
def rsa_encrypt_file (infile : List Nat) (n e : Int) : Option (List Int) :=
  let k := rsa_block_size n
  if k = 0 then none
  else some (rsa_encrypt_file_loop k n e infile false)

/-- The function `rsa_decrypt`: `m = pow_mod (c, d, n)`. -/
def rsa_decrypt (c d n : Int) : Int := pow_mod c d n

/-- The body of the loop of `rsa_decrypt_file` after the scan, for the value `c`: the
bytes written to `outfile`.  `mpz_export` stores `j` bytes in the block of `k` bytes and
`fwrite` reads `j - 1` bytes (a `size_t`, so `2 ^ 64 - 1` when `j = 0`) from `block + 1`;
the result is `none` when either leaves the block. -/
def rsa_decrypt_file_block (k : Nat) (c d n : Int) : Option (List Nat) :=
  let m := rsa_decrypt c d n
  let bytes := mpz_export m
  let j := bytes.length
  if j > k then none
  else
    let count := (j + 2 ^ 64 - 1) % 2 ^ 64
    if 1 + count > k then none
    else some ((bytes.drop 1).take count)

/-- The loop of `rsa_decrypt_file` on the lines of `infile` not yet read, the current
value of `c` and the end-of-file flag.  `gmp_fscanf (infile, "%Zx\n", c)` on no line
leaves `c` as it is and sets the flag; on a line it stores the value and, skipping the
white space after it, sets the flag when that was the last line. -/
def rsa_decrypt_file_loop (k : Nat) (n d : Int) : List Int → Int → Bool → Option (List Nat)
  | _, _, true => some []
  | [], c, false => rsa_decrypt_file_block k c d n
  | x :: lines, _, false =>
    match rsa_decrypt_file_block k x d n with
    | none => none
    | some out =>
      match rsa_decrypt_file_loop k n d lines x lines.isEmpty with
      | none => none
      | some outs => some (out ++ outs)

/-- The function `rsa_decrypt_file`: `infile` is the list of the integers on its lines,
the result the bytes written to `outfile`; `c` starts as the 0 of `mpz_inits`. -/
def rsa_decrypt_file (infile : List Int) (n d : Int) : Option (List Nat) :=
  let k := rsa_block_size n
  rsa_decrypt_file_loop k n d infile 0 false

/-- The function `rsa_sign`: `s = pow_mod (m, d, n)`. -/
def rsa_sign (m d n : Int) : Int := pow_mod m d n

/-- The function `rsa_verify`: `t = pow_mod (s, e, n)`, and true exactly when `t` equals
`m`. -/
def rsa_verify (m s e n : Int) : Bool :=
  let t := pow_mod s e n
  if t = m then true else false

/-! ## rsa.c: rsa_make_pub -/

/-- The loop of `rsa_make_pub` that draws `pbits`: `rand = random () % upper` until
`rand >= lower`.  The function `random` has its own tape and hands out the next value
modulo `2 ^ 31`. -/
def rsa_make_pub_pbits (lower upper : Nat) : List Nat → Option (Nat × List Nat)
  | [] => none
  | x :: rtape =>
    let rand := (x % 2 ^ 31) % upper
    if rand < lower then rsa_make_pub_pbits lower upper rtape else some (rand, rtape)

/-- The loop of `rsa_make_pub` that draws the public exponent: `nbits` random bits until
a draw has exactly `nbits` bits and `gcd (e, rand2, lambda)` stores 1; then `e` is set
to the draw. -/
def rsa_make_pub_e (nbits : Nat) (lambda : Int) : List Nat → Option (Int × List Nat)
  | [] => none
  | x :: tape =>
    let rand2 : Int := ((x % 2 ^ nbits : Nat) : Int)
    if mpz_sizeinbase2 rand2 = nbits then
      let e := gcd rand2 lambda
      if e = 1 then some (rand2, tape) else rsa_make_pub_e nbits lambda tape
    else rsa_make_pub_e nbits lambda tape

/-- The function `rsa_make_pub`: the result is `(p, q, n, e)` with the rest of the tape
of `random` and the rest of the tape of the GMP generator.  `upper = (nbits * 3) / 4` is
computed on `uint64_t`; with `upper = 0` the remainder `random () % upper` is a
division by zero and the result is `none`. -/
def rsa_make_pub (nbits iters : Nat) (rtape tape : List Nat) :
    Option ((Int × Int × Int × Int) × List Nat × List Nat) :=
  let lower := nbits / 4
  let upper := (nbits * 3) % 2 ^ 64 / 4
  if upper = 0 then none
  else
    match rsa_make_pub_pbits lower upper rtape with
    | none => none
    | some (rand, rtape1) =>
      let pbits := rand
      let qbits := nbits - pbits
      match make_prime pbits iters tape with
      | none => none
      | some (p, tape1) =>
        match make_prime qbits iters tape1 with
        | none => none
        | some (q, tape2) =>
          let n := p * q
          let pminus1 := p - 1
          let qminus1 := q - 1
          let phi := pminus1 * qminus1
          let den := gcd pminus1 qminus1
          let lambda := phi.fdiv den
          match rsa_make_pub_e nbits lambda tape2 with
          | none => none
          | some (e, tape3) => some ((p, q, n, e), rtape1, tape3)

/-! ## rsa.c: the key files -/

/-- The white space of the C library (`isspace`): space, `\t`, `\n`, `\v`, `\f`, `\r`. -/
def c_isspace (c : Char) : Bool :=
  c.toNat = 32 || (9 ≤ c.toNat && c.toNat ≤ 13)

/-- The digit `d < 16` as the conversion `%Zx` prints it. -/
def hex_digit_char (d : Nat) : Char :=
  if d < 10 then Char.ofNat (48 + d) else Char.ofNat (87 + d)

/-- The value of a hexadecimal digit, lower or upper case; `none` for any other
character. -/
def hex_digit_value (c : Char) : Option Nat :=
  if 48 ≤ c.toNat ∧ c.toNat ≤ 57 then some (c.toNat - 48)
  else if 97 ≤ c.toNat ∧ c.toNat ≤ 102 then some (c.toNat - 87)
  else if 65 ≤ c.toNat ∧ c.toNat ≤ 70 then some (c.toNat - 55)
  else none

/-- The conversion `%Zx` of `gmp_fprintf`: a minus sign for a negative value, then the
hexadecimal digits of the magnitude, most significant first, `0` for zero. -/
def gmp_printf_Zx (x : Int) : List Char :=
  (if x < 0 then ['-'] else []) ++
    (if x = 0 then ['0'] else ((Nat.digits 16 x.natAbs).reverse.map hex_digit_char))

/-- The conversion `%Zx` of `gmp_fscanf`: skip white space, take an optional minus
sign and the longest run of hexadecimal digits; `none` when there is no digit.  Returns
the value and the rest of the input. -/
def gmp_scanf_Zx (input : List Char) : Option (Int × List Char) :=
  let input1 := input.dropWhile c_isspace
  let neg := input1.head? = some '-'
  let input2 := if neg then input1.tail else input1
  let digits := input2.takeWhile fun c => (hex_digit_value c).isSome
  if digits = [] then none
  else
    let v : Nat := digits.foldl (fun acc c => acc * 16 + (hex_digit_value c).getD 0) 0
    some (if neg then -(v : Int) else (v : Int),
      input2.dropWhile fun c => (hex_digit_value c).isSome)

/-- The conversion `%s` of `fscanf`: skip white space and take the longest run of
characters that are not white space; `none` at the end of the input. -/
def scanf_s (input : List Char) : Option (List Char × List Char) :=
  let input1 := input.dropWhile c_isspace
  let word := input1.takeWhile fun c => !c_isspace c
  if word = [] then none
  else some (word, input1.dropWhile fun c => !c_isspace c)

/-- The function `rsa_write_pub`: the text `gmp_fprintf` writes with the format
`"%Zx\n%Zx\n%Zx\n%s\n"`. -/
def rsa_write_pub (n e s : Int) (username : List Char) : List Char :=
  gmp_printf_Zx n ++ ['\n'] ++ gmp_printf_Zx e ++ ['\n'] ++ gmp_printf_Zx s ++ ['\n']
    ++ username ++ ['\n']

/-- The function `rsa_read_pub`: `gmp_fscanf` with the format `"%Zx\n%Zx\n%Zx\n%s\n"` on
the text of the file.  The arguments `n`, `e`, `s`, `username` are the values the
caller's variables hold before the call; the scan stops at the first conversion that
fails and leaves the later variables as they are.  A `\n` of the format skips white
space.  The buffer of the caller is taken to be large enough for the word read. -/
def rsa_read_pub (pbfile : List Char) (n e s : Int) (username : List Char) :
    Int × Int × Int × List Char :=
  match gmp_scanf_Zx pbfile with
  | none => (n, e, s, username)
  | some (n1, f1) =>
    match gmp_scanf_Zx (f1.dropWhile c_isspace) with
    | none => (n1, e, s, username)
    | some (e1, f2) =>
      match gmp_scanf_Zx (f2.dropWhile c_isspace) with
      | none => (n1, e1, s, username)
      | some (s1, f3) =>
        match scanf_s (f3.dropWhile c_isspace) with
        | none => (n1, e1, s1, username)
        | some (username1, _) => (n1, e1, s1, username1)

/-- The function `rsa_write_priv`: the text `gmp_fprintf` writes with the format
`"%Zx\n%Zx\n"`. -/
def rsa_write_priv (n d : Int) : List Char :=
  gmp_printf_Zx n ++ ['\n'] ++ gmp_printf_Zx d ++ ['\n']

/-- The function `rsa_read_priv`: `gmp_fscanf` with the format `"%Zx\n%Zx\n"`; `n` and
`d` are the values of the caller's variables before the call. -/
def rsa_read_priv (pvfile : List Char) (n d : Int) : Int × Int :=
  match gmp_scanf_Zx pvfile with
  | none => (n, d)
  | some (n1, f1) =>
    match gmp_scanf_Zx (f1.dropWhile c_isspace) with
    | none => (n1, d)
    | some (d1, _) => (n1, d1)

/-! ## keygen.c -/

/-- Case `b` of the option loop of `main` in keygen.c: `none` is the error message
followed by `return 1`, `some nbits` the new number of bits. -/
def keygen_case_b (optarg : Nat) : Option Nat :=
  let nbits := optarg
  if nbits < 50 ∨ nbits > 4096 then none else some nbits

/-- Case `i` of the option loop of `main` in keygen.c, for the current value of `nbits`
and the value `strtoul` reads from the argument: `none` is the error message followed
by `return 1`, `some mr_iters` the new iteration count. -/
def keygen_case_i (nbits optarg : Nat) : Option Nat :=
  let mr_iters := optarg
  if mr_iters < 1 ∨ nbits > 500 then none else some mr_iters

/-! ## The strong probable prime test -/

/-- The strong probable prime test of the specification for the base `a`, with
`n - 1 = 2 ^ s * r`: `a ^ r mod n = 1`, or `a ^ (2 ^ j * r) mod n = n - 1` for some `j`
with `0 <= j < s`. -/
def spec_strong_probable_prime (n s r a : Nat) : Prop :=
  a ^ r % n = 1 ∨ ∃ j, j < s ∧ a ^ (2 ^ j * r) % n = n - 1

instance (n s r a : Nat) : Decidable (spec_strong_probable_prime n s r a) := by
  unfold spec_strong_probable_prime
  infer_instance

/-- What one round of `is_prime` accepts: the test of the specification, or
`a ^ r mod n = n - 1`. -/
def is_prime_round_passes (n s r a : Nat) : Prop :=
  spec_strong_probable_prime n s r a ∨ a ^ r % n = n - 1

instance (n s r a : Nat) : Decidable (is_prime_round_passes n s r a) := by
  unfold is_prime_round_passes
  infer_instance

/-! ## make_prime without the trial division -/

/-- The loop of `make_prime` with the trial division left out, the comparison the
specification makes: a draw of exactly `bits` bits, forced odd, goes straight to
`is_prime`. -/
def spec_make_prime_unfiltered (bits iters : Nat) : List Nat → Option (Int × List Nat)
  | [] => none
  | x :: tape =>
    let p0 : Int := ((x % 2 ^ bits : Nat) : Int)
    if mpz_sizeinbase2 p0 = bits then
      let p := if p0 % 2 = 0 then p0 + 1 else p0
      match h : is_prime p iters tape with
      | none => none
      | some (true, tape1) => some (p, tape1)
      | some (false, tape1) => spec_make_prime_unfiltered bits iters tape1
    else spec_make_prime_unfiltered bits iters tape
termination_by tape => tape.length
decreasing_by
  · have hdraw : ∀ (start : Int) (t : List Nat) (w : Int) (t1 : List Nat),
        is_prime_draw start t = some (w, t1) → t1.length ≤ t.length := by
      intro start t
      induction t with
      | nil => intro w t1 h; simp [is_prime_draw] at h
      | cons x t ih =>
        intro w t1 h
        simp only [is_prime_draw] at h
        split at h
        · simp only [Option.some.injEq, Prod.mk.injEq] at h
          obtain ⟨-, rfl⟩ := h
          simp
        · have := ih _ _ h
          simp only [List.length_cons]
          omega
    have hrounds : ∀ (n start r : Int) (s k : Nat) (t : List Nat) (b : Bool) (t1 : List Nat),
        is_prime_rounds n start r s k t = some (b, t1) → t1.length ≤ t.length := by
      intro n start r s k
      induction k with
      | zero =>
        intro t b t1 h
        simp only [is_prime_rounds, Option.some.injEq, Prod.mk.injEq] at h
        obtain ⟨-, rfl⟩ := h
        exact le_rfl
      | succ k ih =>
        intro t b t1 h
        simp only [is_prime_rounds] at h
        split at h
        · simp at h
        · rename_i rand tape1 hd
          have h1 := hdraw _ _ _ _ hd
          split at h
          · split at h
            · simp only [Option.some.injEq, Prod.mk.injEq] at h
              obtain ⟨-, rfl⟩ := h
              exact h1
            · split at h
              · simp only [Option.some.injEq, Prod.mk.injEq] at h
                obtain ⟨-, rfl⟩ := h
                exact h1
              · exact (ih _ _ _ h).trans h1
          · exact (ih _ _ _ h).trans h1
    have hlen : tape1.length ≤ tape.length := by
      unfold is_prime at h
      split at h
      · simp only [Option.some.injEq, Prod.mk.injEq] at h
        obtain ⟨-, rfl⟩ := h
        exact le_rfl
      · split at h
        · simp at h
        · exact hrounds _ _ _ _ _ _ _ _ h
    simp only [List.length_cons]
    omega
  · simp

/-! ## Invariants used in the proofs -/

/-- The invariant of the extended Euclidean loop for the modulus `n` and the operand `a`. -/
structure ModInvInv (n a r1 r2 t1 t2 : Int) : Prop where
  r1_pos : 0 < r1
  r2_nonneg : 0 ≤ r2
  sign : t1 * t2 ≤ 0
  det : r1 * |t2| + r2 * |t1| = n
  bez1 : t1 * a ≡ r1 [ZMOD n]
  bez2 : t2 * a ≡ r2 [ZMOD n]
  bound : |t1| < n
  gcd_eq : Int.gcd r1 r2 = Int.gcd n a

/-! ## gcd -/

theorem gcd_zero_right (a : Int) : gcd a 0 = a := by
  rw [gcd]; simp

theorem gcd_step (a b : Int) (hb : b ≠ 0) : gcd a b = gcd b (a % b) := by
  rw [gcd]; simp [hb]

theorem gcd_natCast (a b : Nat) : gcd (a : Int) (b : Int) = ((Nat.gcd a b : Nat) : Int) := by
  induction b using Nat.strong_induction_on generalizing a with
  | _ b ih =>
    rcases Nat.eq_zero_or_pos b with hb | hb
    · subst hb
      simp [gcd_zero_right]
    · rw [gcd_step _ _ (by exact_mod_cast hb.ne'), ← Int.natCast_mod,
        ih (a % b) (Nat.mod_lt _ hb) b]
      rw [Nat.gcd_comm a b, Nat.gcd_rec b a, Nat.gcd_comm]

/-! ## pow_mod -/

theorem pow_mod_loop_nonpos (o p d n : Int) (hd : d ≤ 0) : pow_mod_loop o p d n = o := by
  rw [pow_mod_loop]; simp [not_lt.mpr hd]

theorem pow_mod_loop_pos (o p d n : Int) (hd : 0 < d) :
    pow_mod_loop o p d n
      = pow_mod_loop (if d % 2 = 1 then (o * p) % n else o) ((p * p) % n) (d / 2) n := by
  rw [pow_mod_loop]
  simp [hd, Int.fdiv_eq_ediv d (by norm_num : (0 : Int) ≤ 2)]

theorem pow_mod_loop_eq (n : Int) (d : Nat) (hd : 0 < d) (o p : Int) :
    pow_mod_loop o p d n = (o * p ^ d) % n := by
  induction d using Nat.strong_induction_on generalizing o p with
  | _ d ih =>
    rw [pow_mod_loop_pos _ _ _ _ (by exact_mod_cast hd)]
    have hsplit : d = 2 * (d / 2) + d % 2 := (Nat.div_add_mod d 2).symm
    have hcast : ((d : Int) / 2) = ((d / 2 : Nat) : Int) := by norm_cast
    rw [hcast]
    have hsq : ∀ k : Nat, ((p * p % n) ^ k) % n = (p ^ (2 * k)) % n := by
      intro k
      rw [pow_mul, ← sq]
      exact (Int.ModEq.pow k (Int.mod_modEq (p ^ 2) n))
    rcases Nat.eq_zero_or_pos (d / 2) with h0 | hpos
    · have hd1 : d = 1 := by omega
      subst hd1
      simp [pow_mod_loop_nonpos]
    · rw [ih (d / 2) (by omega) hpos]
      rcases Nat.mod_two_eq_zero_or_one d with hpar | hpar
      · have : ((d : Int) % 2 = 1) = False := by
          simp; omega
        simp only [this, if_false]
        conv_rhs => rw [hsplit, hpar, add_zero]
        rw [Int.mul_emod, hsq, ← Int.mul_emod]
      · have : ((d : Int) % 2 = 1) = True := by
          simp; omega
        simp only [this, if_true]
        conv_rhs => rw [hsplit, hpar, pow_add, pow_one]
        rw [Int.mul_emod, hsq, Int.emod_emod_of_dvd _ (dvd_refl n), ← Int.mul_emod]
        congr 1
        ring

theorem pow_mod_pos (a n : Int) (d : Nat) (hd : 0 < d) : pow_mod a d n = a ^ d % n := by
  rw [pow_mod, pow_mod_loop_eq n d hd, one_mul]

theorem pow_mod_zero (a n : Int) : pow_mod a 0 n = 1 := by
  rw [pow_mod, pow_mod_loop_nonpos _ _ _ _ le_rfl]

theorem pow_mod_natCast (a d n : Nat) (h : 1 < n ∨ 0 < d) :
    pow_mod (a : Int) (d : Int) (n : Int) = ((a ^ d % n : Nat) : Int) := by
  rcases Nat.eq_zero_or_pos d with hd | hd
  · subst hd
    have hn : 1 < n := by omega
    simp [pow_mod_zero, Nat.mod_eq_of_lt hn]
  · rw [pow_mod_pos _ _ _ hd]; push_cast; rfl

theorem pow_mod_two (y n : Int) : pow_mod y 2 n = y ^ 2 % n := by
  have := pow_mod_pos y n 2 (by norm_num)
  simpa using this

/-! ## mod_inverse -/

theorem mod_inverse_loop_done (r1 t1 t2 : Int) : mod_inverse_loop r1 0 t1 t2 = (r1, t1) := by
  rw [mod_inverse_loop]; simp

theorem mod_inverse_loop_step (r1 r2 t1 t2 : Int) (h : 0 < r2) :
    mod_inverse_loop r1 r2 t1 t2
      = mod_inverse_loop r2 (r1 % r2) t2 (t1 - r1 / r2 * t2) := by
  rw [mod_inverse_loop]
  simp only [ne_eq, h.ne', not_false_eq_true, if_true, Int.fdiv_eq_ediv r1 h.le]
  have : r1 - r1 / r2 * r2 = r1 % r2 := by
    have := Int.emod_add_ediv r1 r2
    linarith
  rw [this]

theorem ModInvInv.init (n a : Int) (hn : 1 < n) (ha : 0 ≤ a) : ModInvInv n a n a 0 1 where
  r1_pos := by omega
  r2_nonneg := ha
  sign := by simp
  det := by simp
  bez1 := by simp [Int.ModEq]
  bez2 := by simp
  bound := by simp; omega
  gcd_eq := rfl

theorem ModInvInv.step {n a r1 r2 t1 t2 : Int} (hn : 1 < n) (h : ModInvInv n a r1 r2 t1 t2)
    (hr2 : 0 < r2) : ModInvInv n a r2 (r1 % r2) t2 (t1 - r1 / r2 * t2) := by
  have hq : 0 ≤ r1 / r2 := Int.ediv_nonneg h.r1_pos.le hr2.le
  have hmod : r1 % r2 = r1 - r1 / r2 * r2 := by
    have := Int.emod_add_ediv r1 r2
    linarith
  have habs : |t1 - r1 / r2 * t2| = |t1| + r1 / r2 * |t2| := by
    rcases le_total 0 t1 with h1 | h1
    · have h2 : t2 ≤ 0 ∨ t1 = 0 := by
        rcases lt_or_eq_of_le h1 with h1' | h1'
        · left
          by_contra hc
          push_neg at hc
          have := mul_pos h1' hc
          have := h.sign
          omega
        · right; exact h1'.symm
      rcases h2 with h2 | h2
      · rw [abs_of_nonneg h1, abs_of_nonpos h2, abs_of_nonneg (by nlinarith)]
        ring
      · subst h2
        simp [abs_mul, abs_of_nonneg hq]
    · have h2 : 0 ≤ t2 ∨ t1 = 0 := by
        rcases lt_or_eq_of_le h1 with h1' | h1'
        · left
          by_contra hc
          push_neg at hc
          have := mul_pos_of_neg_of_neg h1' hc
          have := h.sign
          omega
        · right; exact h1'
      rcases h2 with h2 | h2
      · rw [abs_of_nonpos h1, abs_of_nonneg h2, abs_of_nonpos (by nlinarith)]
        ring
      · subst h2
        simp [abs_mul, abs_of_nonneg hq]
  refine ⟨hr2, Int.emod_nonneg _ hr2.ne', ?_, ?_, h.bez2, ?_, ?_, ?_⟩
  · have := h.sign
    nlinarith [mul_nonneg hq (mul_self_nonneg t2)]
  · rw [habs, hmod]
    have := h.det
    linarith [this, (by ring : r2 * (|t1| + r1 / r2 * |t2|) + (r1 - r1 / r2 * r2) * |t2|
      = r1 * |t2| + r2 * |t1|)]
  · rw [hmod]
    have e1 : (t1 - r1 / r2 * t2) * a = t1 * a - r1 / r2 * (t2 * a) := by ring
    rw [e1]
    exact Int.ModEq.sub h.bez1 (Int.ModEq.mul_left _ h.bez2)
  · have hdet := h.det
    have ht1 : 0 ≤ |t1| := abs_nonneg t1
    have ht2 : 0 ≤ |t2| := abs_nonneg t2
    rcases lt_or_eq_of_le (Int.add_one_le_of_lt h.r1_pos) with hlt | heq
    · have : 2 * |t2| ≤ r1 * |t2| := by nlinarith
      have : 0 ≤ r2 * |t1| := by positivity
      omega
    · have hr1 : r1 = 1 := by omega
      rcases eq_or_ne t1 0 with h0 | h0
      · exfalso
        have hb := h.bez1
        rw [h0, hr1, zero_mul] at hb
        have hdvd : n ∣ 1 - 0 := Int.ModEq.dvd hb
        have := Int.le_of_dvd (by norm_num) hdvd
        omega
      · have : 1 ≤ |t1| := Int.one_le_abs h0
        have : 1 ≤ r2 * |t1| := by nlinarith
        rw [hr1] at hdet
        omega
  · rw [← h.gcd_eq]
    obtain ⟨x, rfl⟩ := Int.eq_ofNat_of_zero_le h.r1_pos.le
    obtain ⟨y, rfl⟩ := Int.eq_ofNat_of_zero_le hr2.le
    rw [← Int.natCast_mod, Int.gcd_natCast_natCast, Int.gcd_natCast_natCast,
      Nat.gcd_comm x y, Nat.gcd_rec y x, Nat.gcd_comm]

theorem mod_inverse_loop_spec (n a : Int) (hn : 1 < n) (k : Nat) :
    ∀ r1 r2 t1 t2 : Int, r2.toNat = k → ModInvInv n a r1 r2 t1 t2 →
      (mod_inverse_loop r1 r2 t1 t2).1 = (Int.gcd n a : Int) ∧
      (mod_inverse_loop r1 r2 t1 t2).2 * a ≡ (mod_inverse_loop r1 r2 t1 t2).1 [ZMOD n] ∧
      |(mod_inverse_loop r1 r2 t1 t2).2| < n := by
  induction k using Nat.strong_induction_on with
  | _ k ih =>
    intro r1 r2 t1 t2 hk h
    rcases eq_or_lt_of_le h.r2_nonneg with h0 | hpos
    · subst h0
      rw [mod_inverse_loop_done]
      refine ⟨?_, h.bez1, h.bound⟩
      have hg := h.gcd_eq
      rw [Int.gcd_zero_right] at hg
      rw [← hg, Int.natCast_natAbs, abs_of_pos h.r1_pos]
    · rw [mod_inverse_loop_step _ _ _ _ hpos]
      have hlt : (r1 % r2).toNat < k := by
        have h1 := Int.emod_lt_of_pos r1 hpos
        have h2 := Int.emod_nonneg r1 hpos.ne'
        omega
      exact ih _ hlt _ _ _ _ rfl (h.step hn hpos)

theorem mod_inverse_coprime (a n : Int) (hn : 1 < n) (ha : 0 ≤ a) (hg : Int.gcd n a = 1) :
    0 ≤ mod_inverse a n ∧ mod_inverse a n < n ∧ (a * mod_inverse a n) % n = 1 := by
  obtain ⟨h1, h2, h3⟩ :=
    mod_inverse_loop_spec n a hn _ n a 0 1 rfl (ModInvInv.init n a hn ha)
  rw [hg, Nat.cast_one] at h1
  rw [h1] at h2
  have h1mod : (1 : Int) % n = 1 := Int.emod_eq_of_lt (by norm_num) hn
  have hb := abs_lt.mp h3
  unfold mod_inverse
  simp only [h1, gt_iff_lt, lt_self_iff_false, if_false]
  split_ifs with hneg
  · refine ⟨by omega, by omega, ?_⟩
    have : a * ((mod_inverse_loop n a 0 1).2 + n) ≡ 1 [ZMOD n] := by
      have e : a * ((mod_inverse_loop n a 0 1).2 + n)
          = (mod_inverse_loop n a 0 1).2 * a + n * a := by ring
      rw [e]
      simpa using h2.add (Int.ModEq.refl (n * a)) |>.trans (by
        show (1 + n * a) % n = 1 % n
        simp)
    rw [Int.ModEq] at this
    rw [this, h1mod]
  · refine ⟨by omega, by omega, ?_⟩
    rw [mul_comm]
    rw [Int.ModEq] at h2
    rw [h2, h1mod]

theorem mod_inverse_not_coprime (a n : Int) (hn : 1 < n) (ha : 0 ≤ a)
    (hg : 1 < Int.gcd n a) : mod_inverse a n = 0 := by
  obtain ⟨h1, -, -⟩ :=
    mod_inverse_loop_spec n a hn _ n a 0 1 rfl (ModInvInv.init n a hn ha)
  unfold mod_inverse
  have : (mod_inverse_loop n a 0 1).1 > 1 := by rw [h1]; exact_mod_cast hg
  simp [this]

theorem mod_inverse_natCast (e lam : Nat) (hlam : 1 < lam) (hcop : Nat.gcd e lam = 1) :
    ∃ d : Nat, mod_inverse (e : Int) (lam : Int) = (d : Int) ∧ d < lam ∧ e * d % lam = 1 := by
  have hg : Int.gcd (lam : Int) (e : Int) = 1 := by
    rw [Int.gcd_natCast_natCast, Nat.gcd_comm]; exact hcop
  obtain ⟨h0, h1, h2⟩ := mod_inverse_coprime (e : Int) (lam : Int) (by exact_mod_cast hlam)
    (Int.natCast_nonneg _) hg
  obtain ⟨d, hd⟩ := Int.eq_ofNat_of_zero_le h0
  refine ⟨d, hd, ?_, ?_⟩
  · rw [hd] at h1; exact_mod_cast h1
  · rw [hd] at h2; exact_mod_cast h2

/-! ## The key pair -/

theorem rsa_make_priv_natCast (e p q : Nat) (hp : 1 ≤ p) (hq : 1 ≤ q) :
    rsa_make_priv (e : Int) (p : Int) (q : Int)
      = mod_inverse (e : Int) ((Nat.lcm (p - 1) (q - 1) : Nat) : Int) := by
  unfold rsa_make_priv
  have e1 : (p : Int) - 1 = ((p - 1 : Nat) : Int) := by omega
  have e2 : (q : Int) - 1 = ((q - 1 : Nat) : Int) := by omega
  simp only [e1, e2, gcd_natCast]
  rw [Int.fdiv_eq_ediv _ (Int.natCast_nonneg _)]
  norm_cast

theorem fermat_pow (p : Nat) (hp : p.Prime) (m j : Nat) :
    m ^ (1 + (p - 1) * j) ≡ m [MOD p] := by
  haveI : Fact p.Prime := ⟨hp⟩
  rw [← ZMod.eq_iff_modEq_nat]
  push_cast
  rcases eq_or_ne (m : ZMod p) 0 with h0 | h0
  · rw [h0]; simp
  · rw [pow_add, pow_mul, ZMod.pow_card_sub_one_eq_one h0]; simp

theorem rsa_pow_modEq (p q : Nat) (hp : p.Prime) (hq : q.Prime) (hpq : p ≠ q) (k m : Nat)
    (hk : k % Nat.lcm (p - 1) (q - 1) = 1) : m ^ k ≡ m [MOD p * q] := by
  have hsplit := Nat.div_add_mod k (Nat.lcm (p - 1) (q - 1))
  rw [hk] at hsplit
  obtain ⟨u, hu⟩ := Nat.dvd_lcm_left (p - 1) (q - 1)
  obtain ⟨v, hv⟩ := Nat.dvd_lcm_right (p - 1) (q - 1)
  have hcop : Nat.Coprime p q := (Nat.coprime_primes hp hq).mpr hpq
  rw [← Nat.modEq_and_modEq_iff_modEq_mul hcop]
  constructor
  · have : k = 1 + (p - 1) * (u * (k / Nat.lcm (p - 1) (q - 1))) := by
      rw [← mul_assoc, ← hu]; omega
    rw [this]
    exact fermat_pow p hp m _
  · have : k = 1 + (q - 1) * (v * (k / Nat.lcm (p - 1) (q - 1))) := by
      rw [← mul_assoc, ← hv]; omega
    rw [this]
    exact fermat_pow q hq m _

theorem one_lt_lcm_pred (p q : Nat) (hp : p.Prime) (hq : q.Prime) (hpq : p ≠ q) :
    1 < Nat.lcm (p - 1) (q - 1) := by
  have h2p := hp.two_le
  have h2q := hq.two_le
  have hpos : 0 < Nat.lcm (p - 1) (q - 1) := Nat.lcm_pos (by omega) (by omega)
  have h1 := Nat.le_of_dvd hpos (Nat.dvd_lcm_left (p - 1) (q - 1))
  have h2 := Nat.le_of_dvd hpos (Nat.dvd_lcm_right (p - 1) (q - 1))
  omega

theorem rsa_key_exists (p q e : Nat) (hp : p.Prime) (hq : q.Prime) (hpq : p ≠ q)
    (hcop : Nat.gcd e ((p - 1) * (q - 1) / Nat.gcd (p - 1) (q - 1)) = 1) :
    ∃ d : Nat, rsa_make_priv (e : Int) (p : Int) (q : Int) = (d : Int) ∧ 0 < d ∧
      ∀ m : Nat, m ^ (e * d) ≡ m [MOD p * q] := by
  have hlam := one_lt_lcm_pred p q hp hq hpq
  obtain ⟨d, hd, -, hed⟩ := mod_inverse_natCast e (Nat.lcm (p - 1) (q - 1)) hlam hcop
  refine ⟨d, ?_, ?_, fun m => rsa_pow_modEq p q hp hq hpq _ m hed⟩
  · rw [rsa_make_priv_natCast e p q hp.one_le hq.one_le, hd]
  · rcases Nat.eq_zero_or_pos d with h0 | h0
    · rw [h0, mul_zero, Nat.zero_mod] at hed
      exact absurd hed (by norm_num)
    · exact h0

theorem one_lt_mul_primes (p q : Nat) (hp : p.Prime) (hq : q.Prime) : 1 < p * q := by
  have := hp.two_le
  have := hq.two_le
  nlinarith

theorem rsa_round_trip_aux (p q e m : Nat) (hp : p.Prime) (hq : q.Prime) (hpq : p ≠ q)
    (hcop : Nat.gcd e ((p - 1) * (q - 1) / Nat.gcd (p - 1) (q - 1)) = 1) (hmn : m < p * q) :
    rsa_decrypt (rsa_encrypt (m : Int) (e : Int) ((p : Int) * (q : Int)))
      (rsa_make_priv (e : Int) (p : Int) (q : Int)) ((p : Int) * (q : Int)) = (m : Int) := by
  obtain ⟨d, hd, hdpos, hkey⟩ := rsa_key_exists p q e hp hq hpq hcop
  have hn := one_lt_mul_primes p q hp hq
  have hcast : (p : Int) * (q : Int) = ((p * q : Nat) : Int) := by push_cast; rfl
  rw [hd, hcast, rsa_encrypt, rsa_decrypt, pow_mod_natCast m e (p * q) (Or.inl hn),
    pow_mod_natCast _ d (p * q) (Or.inl hn)]
  congr 1
  rw [← Nat.pow_mod, ← pow_mul]
  have := hkey m
  rw [Nat.ModEq, Nat.mod_eq_of_lt hmn] at this
  exact this

/-! ## is_prime -/

theorem floor_ne_ceil_iff (start : Int) (s : Nat) :
    start.fdiv (1 * 2 ^ s) ≠ mpz_cdiv_q start (1 * 2 ^ s) ↔ ¬ (2 : Int) ^ s ∣ start := by
  have hpos : (0 : Int) < 2 ^ s := by positivity
  simp only [mpz_cdiv_q, one_mul, ne_eq]
  rw [Int.fdiv_eq_ediv _ hpos.le, Int.fdiv_eq_ediv _ hpos.le]
  constructor
  · intro h hd
    apply h
    rw [Int.neg_ediv_of_dvd hd]
    ring
  · intro hnd h
    have hm : start % 2 ^ s ≠ 0 := fun h0 => hnd (Int.dvd_of_emod_eq_zero h0)
    have hm0 := Int.emod_nonneg start hpos.ne'
    have hm1 := Int.emod_lt_of_pos start hpos
    have hsplit := Int.emod_add_ediv start (2 ^ s)
    have hq : (-start) / 2 ^ s = -(start / 2 ^ s) - 1 := by
      have := (Int.ediv_emod_unique (a := -start) (r := 2 ^ s - start % 2 ^ s)
        (q := -(start / 2 ^ s) - 1) hpos).mpr
        ⟨by linarith [(by ring : 2 ^ s - start % 2 ^ s + 2 ^ s * (-(start / 2 ^ s) - 1)
            = -(start % 2 ^ s + 2 ^ s * (start / 2 ^ s)))], by omega, by omega⟩
      exact this.1
    rw [hq] at h
    omega

theorem is_prime_find_s_eq (start : Int) (hstart : start ≠ 0) (s : Nat) :
    is_prime_find_s start hstart s
      = if (2 : Int) ^ s ∣ start then is_prime_find_s start hstart (s + 1) else s := by
  rw [is_prime_find_s]
  by_cases hd : (2 : Int) ^ s ∣ start
  · have := (floor_ne_ceil_iff start s).not.mpr (not_not.mpr hd)
    rw [dif_neg this, if_pos hd]
  · have := (floor_ne_ceil_iff start s).mpr hd
    rw [dif_pos this, if_neg hd]

theorem is_prime_find_s_spec (start : Int) (hstart : start ≠ 0) (m : Nat) :
    ∀ s : Nat, start.natAbs - s = m →
      s ≤ is_prime_find_s start hstart s ∧
      (∀ u, s ≤ u → u < is_prime_find_s start hstart s → (2 : Int) ^ u ∣ start) ∧
      ¬ (2 : Int) ^ (is_prime_find_s start hstart s) ∣ start := by
  induction m using Nat.strong_induction_on with
  | _ m ih =>
    intro s hm
    rw [is_prime_find_s_eq]
    by_cases hd : (2 : Int) ^ s ∣ start
    · rw [if_pos hd]
      have hle : (2 : Int) ^ s ≤ |start| :=
        Int.le_of_dvd (abs_pos.mpr hstart) ((dvd_abs _ _).mpr hd)
      have hlt : (s : Int) < 2 ^ s := by exact_mod_cast Nat.lt_two_pow s
      rw [Int.abs_eq_natAbs] at hle
      obtain ⟨h1, h2, h3⟩ := ih (start.natAbs - (s + 1)) (by omega) (s + 1) rfl
      refine ⟨by omega, ?_, h3⟩
      intro u hu1 hu2
      rcases Nat.eq_or_lt_of_le hu1 with he | hl
      · rw [← he]; exact hd
      · exact h2 u hl hu2
    · rw [if_neg hd]
      exact ⟨le_rfl, fun u h1 h2 => absurd h2 (by omega), hd⟩

theorem is_prime_draw_spec (start : Int) (tape : List Nat) (rand : Int) (rest : List Nat)
    (h : is_prime_draw start tape = some (rand, rest)) :
    1 < rand ∧ ∃ x : Nat, rand = (x : Int) % start := by
  induction tape with
  | nil => simp [is_prime_draw] at h
  | cons x t ih =>
    simp only [is_prime_draw] at h
    split at h
    · rename_i hgt
      simp only [Option.some.injEq, Prod.mk.injEq] at h
      obtain ⟨rfl, -⟩ := h
      exact ⟨hgt, x, rfl⟩
    · exact ih h

theorem is_prime_draw_one (tape : List Nat) : is_prime_draw 1 tape = none := by
  induction tape with
  | nil => rfl
  | cons x t ih => simp [is_prime_draw, ih]

theorem is_prime_square_loop_eq (n start : Int) (s j : Nat) (y : Int) :
    is_prime_square_loop n start s j y
      = if (j : Int) ≤ (s : Int) - 1 ∧ y ≠ start then
          (if pow_mod y 2 n = 1 then none
           else is_prime_square_loop n start s (j + 1) (pow_mod y 2 n))
        else some y := by
  rw [is_prime_square_loop]

theorem eq_pred_of_sq_eq_one (n : Nat) (hn : n.Prime) (y : Int) (h0 : 0 ≤ y) (hlt : y < n)
    (hsq : ((y : Int) : ZMod n) ^ 2 = 1) (hne : ((y : Int) : ZMod n) ≠ 1) :
    y = (n : Int) - 1 := by
  haveI : Fact n.Prime := ⟨hn⟩
  have h2 : ((y : Int) : ZMod n) = -1 := (sq_eq_one_iff.mp hsq).resolve_left hne
  have h3 : ((y : Int) : ZMod n) = (((n : Int) - 1 : Int) : ZMod n) := by
    rw [h2]; push_cast; simp
  rw [ZMod.intCast_eq_intCast_iff'] at h3
  have h1 := hn.one_lt
  rw [Int.emod_eq_of_lt h0 hlt, Int.emod_eq_of_lt (by omega) (by omega)] at h3
  exact h3

theorem intCast_ne_one (n : Nat) (hn : 1 < n) (y : Int) (h0 : 0 ≤ y) (hlt : y < n)
    (hne : y ≠ 1) : ((y : Int) : ZMod n) ≠ 1 := by
  intro h
  have h3 : ((y : Int) : ZMod n) = ((1 : Int) : ZMod n) := by rw [h]; simp
  rw [ZMod.intCast_eq_intCast_iff'] at h3
  rw [Int.emod_eq_of_lt h0 hlt, Int.emod_eq_of_lt (by omega) (by omega)] at h3
  exact hne h3

theorem is_prime_square_loop_prime (n : Nat) (hn : n.Prime) (s : Nat) (k : Nat) :
    ∀ (j : Nat) (y : Int), s - j = k → 1 ≤ j → j ≤ s → 0 ≤ y → y < n →
      ((y : Int) : ZMod n) ≠ 1 → ((y : Int) : ZMod n) ^ (2 ^ (s + 1 - j)) = 1 →
      is_prime_square_loop n ((n : Int) - 1) s j y = some ((n : Int) - 1) := by
  have hn0 : (0 : Int) < n := by exact_mod_cast hn.pos
  induction k with
  | zero =>
    intro j y hk hj1 hjs h0 hlt hne hpow
    have hj : j = s := by omega
    subst hj
    rw [is_prime_square_loop_eq]
    have hexp : j + 1 - j = 1 := by omega
    rw [hexp, pow_one] at hpow
    have hy := eq_pred_of_sq_eq_one n hn y h0 hlt hpow hne
    simp [hy]
  | succ k ih =>
    intro j y hk hj1 hjs h0 hlt hne hpow
    rw [is_prime_square_loop_eq]
    by_cases hy : y = (n : Int) - 1
    · simp [hy]
    · have hcond : (j : Int) ≤ (s : Int) - 1 ∧ y ≠ (n : Int) - 1 := ⟨by omega, hy⟩
      rw [if_pos hcond, pow_mod_two]
      have hexp : 2 ^ (s + 1 - j) = 2 * 2 ^ (s + 1 - (j + 1)) := by
        rw [← pow_succ']; congr 1; omega
      have hcast : (((y ^ 2 % (n : Int) : Int)) : ZMod n) = ((y : Int) : ZMod n) ^ 2 := by
        rw [ZMod.intCast_mod]; push_cast; rfl
      have hsqne : ((y : Int) : ZMod n) ^ 2 ≠ 1 := by
        intro hsq
        exact hy (eq_pred_of_sq_eq_one n hn y h0 hlt hsq hne)
      have hne1 : y ^ 2 % (n : Int) ≠ 1 := by
        intro h1
        apply hsqne
        rw [← hcast, h1]; simp
      rw [if_neg hne1]
      apply ih (j + 1) _ (by omega) (by omega) (by omega) (Int.emod_nonneg _ hn0.ne')
        (Int.emod_lt_of_pos _ hn0)
      · rw [hcast]; exact hsqne
      · rw [hcast, ← pow_mul, ← hexp]; exact hpow

/-- One round never answers `false` on a prime, and the next round starts. -/
theorem is_prime_rounds_prime (n : Nat) (hn : n.Prime) (s rn : Nat) (hs : 1 ≤ s)
    (hsr : 2 ^ s * rn = n - 1) (k : Nat) :
    ∀ tape : List Nat,
      (∀ rest, is_prime_rounds n ((n : Int) - 1) rn s k tape ≠ some (false, rest)) ∧
      ((∀ w ∈ tape, 2 ≤ w ∧ w ≤ n - 2) → k ≤ tape.length →
        is_prime_rounds n ((n : Int) - 1) rn s k tape = some (true, tape.drop k)) := by
  haveI : Fact n.Prime := ⟨hn⟩
  have hn1 := hn.one_lt
  have hn0 : (0 : Int) < n := by exact_mod_cast hn.pos
  have hrn : 0 < rn := by
    rcases Nat.eq_zero_or_pos rn with h | h
    · rw [h, mul_zero] at hsr; omega
    · exact h
  -- the round body on an accepted witness
  have hround : ∀ rand : Int, 1 < rand → rand < (n : Int) - 1 →
      ∀ y, y = pow_mod rand rn n → (y ≠ 1 ∧ y ≠ (n : Int) - 1) →
        is_prime_square_loop n ((n : Int) - 1) s 1 y = some ((n : Int) - 1) := by
    intro rand h1 h2 y hy hcond
    rw [pow_mod_pos _ _ _ hrn] at hy
    have hy0 : 0 ≤ y := by rw [hy]; exact Int.emod_nonneg _ hn0.ne'
    have hylt : y < n := by rw [hy]; exact Int.emod_lt_of_pos _ hn0
    have hcast : ((y : Int) : ZMod n) = ((rand : Int) : ZMod n) ^ rn := by
      rw [hy, ZMod.intCast_mod]; push_cast; rfl
    have hrand0 : ((rand : Int) : ZMod n) ≠ 0 := by
      rw [Ne, ZMod.intCast_zmod_eq_zero_iff_dvd]
      intro hd
      have := Int.le_of_dvd (by omega) hd
      omega
    apply is_prime_square_loop_prime n hn s (s - 1) 1 y rfl le_rfl hs hy0 hylt
      (intCast_ne_one n hn1 y hy0 hylt hcond.1)
    rw [hcast, ← pow_mul, show s + 1 - 1 = s by omega, mul_comm, hsr]
    exact ZMod.pow_card_sub_one_eq_one hrand0
  induction k with
  | zero =>
    intro tape
    simp [is_prime_rounds]
  | succ k ih =>
    intro tape
    have hstep : ∀ rand tape1, is_prime_draw ((n : Int) - 1) tape = some (rand, tape1) →
        is_prime_rounds n ((n : Int) - 1) rn s (k + 1) tape
          = is_prime_rounds n ((n : Int) - 1) rn s k tape1 := by
      intro rand tape1 hd
      obtain ⟨hgt, x, hx⟩ := is_prime_draw_spec _ _ _ _ hd
      have hlt : rand < (n : Int) - 1 := by
        rw [hx]; exact Int.emod_lt_of_pos _ (by omega)
      simp only [is_prime_rounds, hd]
      split_ifs with hc
      · rw [hround rand hgt hlt _ rfl hc]
        simp
      · rfl
    constructor
    · intro rest
      cases hd : is_prime_draw ((n : Int) - 1) tape with
      | none => simp [is_prime_rounds, hd]
      | some p =>
        obtain ⟨rand, tape1⟩ := p
        rw [hstep rand tape1 hd]
        exact (ih tape1).1 rest
    · intro hw hlen
      cases tape with
      | nil => simp at hlen
      | cons x t =>
        have hx := hw x (List.mem_cons_self _ _)
        have hd : is_prime_draw ((n : Int) - 1) (x :: t) = some ((x : Int), t) := by
          have hmod : (x : Int) % ((n : Int) - 1) = x := Int.emod_eq_of_lt (by omega) (by omega)
          simp only [is_prime_draw, hmod]
          rw [if_pos (by omega)]
        rw [hstep _ _ hd]
        simp only [List.drop_succ_cons]
        exact (ih t).2 (fun w hwt => hw w (List.mem_cons_of_mem _ hwt))
          (by simpa using hlen)

theorem is_prime_unfold (n : Int) (h01 : ¬ (n = 0 ∨ n = 1)) (h3 : n ≠ 3) (hstart : n - 1 ≠ 0)
    (iters : Nat) (tape : List Nat) :
    is_prime n iters tape
      = is_prime_rounds n (n - 1)
          ((n - 1).fdiv (1 * 2 ^ (is_prime_find_s (n - 1) hstart 0 - 1)))
          (is_prime_find_s (n - 1) hstart 0 - 1) (iters - 1) tape := by
  unfold is_prime
  rw [dif_neg h01, if_neg h3]

/-- The exponent search on `start = n - 1` for `n >= 2`: with `s` the value after
`s -= 1` and `r = start / 2 ^ s`, `n - 1 = 2 ^ s * r` and `r` is odd. -/
theorem is_prime_decomposition (n : Nat) (hn : 2 ≤ n) (hstart : (n : Int) - 1 ≠ 0) :
    ∃ rn : Nat,
      ((n : Int) - 1).fdiv (1 * 2 ^ (is_prime_find_s ((n : Int) - 1) hstart 0 - 1)) = (rn : Int) ∧
      2 ^ (is_prime_find_s ((n : Int) - 1) hstart 0 - 1) * rn = n - 1 ∧ rn % 2 = 1 ∧
      1 ≤ is_prime_find_s ((n : Int) - 1) hstart 0 := by
  obtain ⟨-, h2, h3⟩ := is_prime_find_s_spec ((n : Int) - 1) hstart _ 0 rfl
  set t := is_prime_find_s ((n : Int) - 1) hstart 0 with ht
  have ht1 : 1 ≤ t := by
    rcases Nat.eq_zero_or_pos t with h0 | h0
    · rw [h0] at h3; simp at h3
    · exact h0
  have hcast : (n : Int) - 1 = ((n - 1 : Nat) : Int) := by omega
  have hd : (2 : Int) ^ (t - 1) ∣ (n : Int) - 1 := h2 (t - 1) (Nat.zero_le _) (by omega)
  rw [hcast] at hd h3 ⊢
  have hd' : 2 ^ (t - 1) ∣ n - 1 := by exact_mod_cast hd
  have h3' : ¬ 2 ^ t ∣ n - 1 := by
    intro h; apply h3; exact_mod_cast h
  obtain ⟨rn, hrn⟩ := hd'
  refine ⟨rn, ?_, hrn.symm, ?_, ht1⟩
  · rw [one_mul, Int.fdiv_eq_ediv _ (by positivity), hrn]
    push_cast
    rw [Int.mul_ediv_cancel_left _ (by positivity)]
  · by_contra hodd
    have hev : rn % 2 = 0 := by omega
    apply h3'
    obtain ⟨c, hc⟩ := Nat.dvd_of_mod_eq_zero hev
    refine ⟨c, ?_⟩
    rw [hrn, hc, ← mul_assoc, ← pow_succ]
    congr 2; omega

/-! ## make_prime -/

theorem sizeinbase2_eq (n k : Nat) (h1 : 2 ^ k ≤ n) (h2 : n < 2 ^ (k + 1)) :
    mpz_sizeinbase2 (n : Int) = k + 1 := by
  unfold mpz_sizeinbase2
  have hpos : 0 < n := lt_of_lt_of_le (by positivity) h1
  rw [if_neg (by omega), Int.natAbs_ofNat]
  have ha : Nat.size n ≤ k + 1 := Nat.size_le.mpr h2
  have hb : k < Nat.size n := Nat.lt_size.mpr h1
  omega

/-- Adding 1 to an even value keeps `mpz_sizeinbase (·, 2)`. -/
theorem sizeinbase2_succ_of_even (x : Nat) (hx : x % 2 = 0) :
    mpz_sizeinbase2 ((x : Int) + 1) = mpz_sizeinbase2 (x : Int) := by
  unfold mpz_sizeinbase2
  have h1 : ((x : Int) + 1) ≠ 0 := by omega
  have hnat : ((x : Int) + 1).natAbs = x + 1 := by omega
  rw [if_neg h1, hnat]
  rcases Nat.eq_zero_or_pos x with h0 | h0
  · subst h0; simp
  · have h2 : (x : Int) ≠ 0 := by omega
    rw [if_neg h2, Int.natAbs_ofNat]
    apply le_antisymm
    · rw [Nat.size_le]
      have hlt := Nat.lt_size_self x
      have hpos : 0 < Nat.size x := Nat.size_pos.mpr h0
      obtain ⟨c, hc⟩ : ∃ c, Nat.size x = c + 1 := ⟨Nat.size x - 1, by omega⟩
      rw [hc, pow_succ] at hlt ⊢
      omega
    · exact Nat.size_le_size (Nat.le_succ x)

theorem make_prime_cons_skip (bits iters x : Nat) (tape : List Nat)
    (hsize : mpz_sizeinbase2 ((x % 2 ^ bits : Nat) : Int) ≠ bits) :
    make_prime bits iters (x :: tape) = make_prime bits iters tape := by
  rw [make_prime]
  dsimp only
  rw [if_neg hsize]

theorem make_prime_cons_true (bits iters x : Nat) (tape tape1 : List Nat) (c : Int)
    (hsize : mpz_sizeinbase2 ((x % 2 ^ bits : Nat) : Int) = bits)
    (hc : (if ((x % 2 ^ bits : Nat) : Int) % 2 = 0 then ((x % 2 ^ bits : Nat) : Int) + 1
      else ((x % 2 ^ bits : Nat) : Int)) = c)
    (hcont : make_prime_cont c = false) (hp : is_prime c iters tape = some (true, tape1)) :
    make_prime bits iters (x :: tape) = some (c, tape1) := by
  rw [make_prime]
  dsimp only
  rw [if_pos hsize, hc, if_neg (by simp [hcont])]
  split
  · rename_i heq; rw [hp] at heq; exact absurd heq (by simp)
  · rename_i t1 heq
    rw [hp] at heq
    simp only [Option.some.injEq, Prod.mk.injEq, true_and] at heq
    rw [heq]
  · rename_i heq; rw [hp] at heq; exact absurd heq (by simp)

theorem make_prime_spec (bits iters : Nat) (tape : List Nat) :
    ∀ (q : Int) (rest : List Nat), make_prime bits iters tape = some (q, rest) →
      mpz_sizeinbase2 q = bits ∧ q % 2 = 1 ∧ make_prime_cont q = false ∧
      ∃ t : List Nat, is_prime q iters t = some (true, rest) := by
  induction tape using make_prime.induct bits iters with
  | case1 =>
    intro q rest h
    rw [make_prime] at h
    exact absurd h (by simp)
  | case2 x tape p0 hsize p hcont ih =>
    intro q rest h
    rw [make_prime] at h
    dsimp only at h
    rw [if_pos hsize] at h
    set c : Int := (if ((x % 2 ^ bits : Nat) : Int) % 2 = 0 then ((x % 2 ^ bits : Nat) : Int) + 1
      else ((x % 2 ^ bits : Nat) : Int)) with hc
    have hcont1 : make_prime_cont c = true := hcont
    rw [if_pos hcont1] at h
    exact ih q rest h
  | case3 x tape p0 hsize p hcont hnone =>
    intro q rest h
    rw [make_prime] at h
    dsimp only at h
    rw [if_pos hsize] at h
    set c : Int := (if ((x % 2 ^ bits : Nat) : Int) % 2 = 0 then ((x % 2 ^ bits : Nat) : Int) + 1
      else ((x % 2 ^ bits : Nat) : Int)) with hc
    have hcont1 : ¬ make_prime_cont c = true := hcont
    have hnone1 : is_prime c iters tape = none := hnone
    rw [if_neg hcont1] at h
    split at h
    · exact absurd h (by simp)
    · rename_i heq; rw [hnone1] at heq; exact absurd heq (by simp)
    · rename_i heq; rw [hnone1] at heq; exact absurd heq (by simp)
  | case4 x tape p0 hsize p hcont tape1 htrue =>
    intro q rest h
    rw [make_prime] at h
    dsimp only at h
    rw [if_pos hsize] at h
    set c : Int := (if ((x % 2 ^ bits : Nat) : Int) % 2 = 0 then ((x % 2 ^ bits : Nat) : Int) + 1
      else ((x % 2 ^ bits : Nat) : Int)) with hc
    have hcont1 : ¬ make_prime_cont c = true := hcont
    have htrue1 : is_prime c iters tape = some (true, tape1) := htrue
    rw [if_neg hcont1] at h
    split at h
    · exact absurd h (by simp)
    · rename_i t1 heq
      rw [htrue1] at heq
      simp only [Option.some.injEq, Prod.mk.injEq, true_and] at heq
      simp only [Option.some.injEq, Prod.mk.injEq] at h
      obtain ⟨hq, hrest⟩ := h
      subst heq
      subst hrest
      have hcodd : c % 2 = 1 := by
        rw [hc]
        split_ifs with hpar
        · omega
        · omega
      have hcsize : mpz_sizeinbase2 c = bits := by
        rw [hc]
        split_ifs with hpar
        · exact (sizeinbase2_succ_of_even (x % 2 ^ bits) (by omega)).trans hsize
        · exact hsize
      rw [← hq]
      exact ⟨hcsize, hcodd, by simpa using hcont1, tape, htrue1⟩
    · rename_i heq; rw [htrue1] at heq; exact absurd heq (by simp)
  | case5 x tape p0 hsize p hcont tape1 hfalse ih =>
    intro q rest h
    rw [make_prime] at h
    dsimp only at h
    rw [if_pos hsize] at h
    set c : Int := (if ((x % 2 ^ bits : Nat) : Int) % 2 = 0 then ((x % 2 ^ bits : Nat) : Int) + 1
      else ((x % 2 ^ bits : Nat) : Int)) with hc
    have hcont1 : ¬ make_prime_cont c = true := hcont
    have hfalse1 : is_prime c iters tape = some (false, tape1) := hfalse
    rw [if_neg hcont1] at h
    split at h
    · exact absurd h (by simp)
    · rename_i heq; rw [hfalse1] at heq; exact absurd heq (by simp)
    · rename_i t1 heq
      rw [hfalse1] at heq
      simp only [Option.some.injEq, Prod.mk.injEq, true_and] at heq
      subst heq
      exact ih q rest h
  | case6 x tape p0 hsize ih =>
    intro q rest h
    rw [make_prime] at h
    dsimp only at h
    rw [if_neg hsize] at h
    exact ih q rest h

/-! ## rsa_encrypt_file and rsa_decrypt_file -/

theorem mpz_export_import (chunk : List Nat) (hb : ∀ b ∈ chunk, b < 256) :
    mpz_export (mpz_import (0xFF :: chunk)) = 0xFF :: chunk := by
  unfold mpz_export mpz_import
  rw [Int.natAbs_ofNat, List.reverse_cons,
    Nat.digits_ofDigits 256 (by norm_num) (chunk.reverse ++ [0xFF])]
  · simp
  · intro l hl
    rcases List.mem_append.mp hl with h | h
    · exact hb l (List.mem_reverse.mp h)
    · rw [List.mem_singleton.mp h]; norm_num
  · intro _
    simp

theorem mpz_import_bounds (chunk : List Nat) (hb : ∀ b ∈ chunk, b < 256) :
    ∃ m : Nat, mpz_import (0xFF :: chunk) = (m : Int) ∧ 0xFF * 256 ^ chunk.length ≤ m ∧
      m < 256 ^ (chunk.length + 1) := by
  refine ⟨Nat.ofDigits 256 (0xFF :: chunk).reverse, rfl, ?_, ?_⟩
  · rw [List.reverse_cons, Nat.ofDigits_append, Nat.ofDigits_singleton, List.length_reverse]
    have := Nat.zero_le (Nat.ofDigits 256 chunk.reverse)
    rw [mul_comm]
    omega
  · have h := Nat.ofDigits_lt_base_pow_length (b := 256) (l := (0xFF :: chunk).reverse)
      (by norm_num) (by
        intro x hx
        rcases List.mem_cons.mp (List.mem_reverse.mp hx) with h | h
        · rw [h]; norm_num
        · exact hb x h)
    simpa using h

theorem rsa_block_size_lt (n : Int) : rsa_block_size n < 2 ^ 64 :=
  Nat.mod_lt _ (by norm_num)

/-- With `k = (mpz_sizeinbase (n, 2) - 1) / 8`, `256 ^ k <= n`. -/
theorem block_capacity_le (n : Nat) (hn : 1 ≤ n) :
    256 ^ rsa_block_size (n : Int) ≤ n := by
  refine le_trans (Nat.pow_le_pow_right (by norm_num) (Nat.mod_le _ _)) ?_
  unfold mpz_sizeinbase2
  rw [if_neg (by omega), Int.natAbs_ofNat]
  have h1 : 0 < Nat.size n := Nat.size_pos.mpr hn
  have h2 : 2 ^ (Nat.size n - 1) ≤ n := Nat.lt_size.mp (by omega)
  calc 256 ^ ((Nat.size n - 1) / 8) = 2 ^ (8 * ((Nat.size n - 1) / 8)) := by
        rw [pow_mul]; norm_num
    _ ≤ 2 ^ (Nat.size n - 1) := Nat.pow_le_pow_right (by norm_num) (Nat.mul_div_le _ _)
    _ ≤ n := h2

theorem rsa_encrypt_file_loop_eq (k : Nat) (n e : Int) (infile : List Nat) (eof : Bool) :
    rsa_encrypt_file_loop k n e infile eof
      = if eof = true then []
        else if (infile.take (k - 1)).length = 0 then []
        else if mpz_import (0xFF :: infile.take (k - 1)) = 0
            ∨ mpz_import (0xFF :: infile.take (k - 1)) = 1 then
          rsa_encrypt_file_loop k n e (infile.drop (k - 1))
            (decide ((infile.take (k - 1)).length < k - 1))
        else rsa_encrypt (mpz_import (0xFF :: infile.take (k - 1))) e n ::
          rsa_encrypt_file_loop k n e (infile.drop (k - 1))
            (decide ((infile.take (k - 1)).length < k - 1)) := by
  rw [rsa_encrypt_file_loop]

theorem rsa_decrypt_file_block_framed (p q e k : Nat) (hp : p.Prime) (hq : q.Prime)
    (hpq : p ≠ q)
    (hcop : Nat.gcd e ((p - 1) * (q - 1) / Nat.gcd (p - 1) (q - 1)) = 1)
    (hk : 256 ^ k ≤ p * q) (chunk : List Nat) (hb : ∀ b ∈ chunk, b < 256)
    (hlen : chunk.length + 1 ≤ k) (hk64 : k < 2 ^ 64) :
    rsa_decrypt_file_block k
      (rsa_encrypt (mpz_import (0xFF :: chunk)) (e : Int) ((p : Int) * (q : Int)))
      (rsa_make_priv (e : Int) (p : Int) (q : Int)) ((p : Int) * (q : Int)) = some chunk := by
  obtain ⟨m, hm, -, hmlt⟩ := mpz_import_bounds chunk hb
  have hmn : m < p * q :=
    lt_of_lt_of_le hmlt ((Nat.pow_le_pow_right (by norm_num) hlen).trans hk)
  unfold rsa_decrypt_file_block
  simp only []
  rw [hm, rsa_round_trip_aux p q e m hp hq hpq hcop hmn, ← hm, mpz_export_import chunk hb]
  have hj : (0xFF :: chunk).length = chunk.length + 1 := rfl
  have hcount : (chunk.length + 1 + 2 ^ 64 - 1) % 2 ^ 64 = chunk.length := by
    have : chunk.length + 1 + 2 ^ 64 - 1 = chunk.length + 2 ^ 64 := by omega
    rw [this, Nat.add_mod_right, Nat.mod_eq_of_lt (by omega)]
  rw [hj, hcount, if_neg (by omega), if_neg (by omega)]
  simp

theorem rsa_stream_loop_round_trip (p q e k : Nat) (hp : p.Prime) (hq : q.Prime)
    (hpq : p ≠ q)
    (hcop : Nat.gcd e ((p - 1) * (q - 1) / Nat.gcd (p - 1) (q - 1)) = 1)
    (hk : 256 ^ k ≤ p * q) (hk2 : 2 ≤ k) (hk64 : k < 2 ^ 64) (len : Nat) :
    ∀ (input : List Nat) (eof : Bool) (x : Int), input.length = len →
      (∀ b ∈ input, b < 256) → (eof = true → input = []) →
      rsa_decrypt_file_loop k ((p : Int) * (q : Int))
        (rsa_make_priv (e : Int) (p : Int) (q : Int))
        (rsa_encrypt_file_loop k ((p : Int) * (q : Int)) (e : Int) input eof) x
        (rsa_encrypt_file_loop k ((p : Int) * (q : Int)) (e : Int) input eof).isEmpty
        = some input := by
  induction len using Nat.strong_induction_on with
  | _ len ih =>
    intro input eof x hlen hb heof
    rw [rsa_encrypt_file_loop_eq]
    by_cases he : eof = true
    · rw [if_pos he, heof he]
      simp [rsa_decrypt_file_loop]
    · rw [if_neg he]
      by_cases h0 : (input.take (k - 1)).length = 0
      · rw [if_pos h0]
        have hnil : input = [] := by
          rw [List.length_take] at h0
          have : input.length = 0 := by omega
          exact List.length_eq_zero.mp this
        rw [hnil]
        simp [rsa_decrypt_file_loop]
      · rw [if_neg h0]
        have hbc : ∀ b ∈ input.take (k - 1), b < 256 :=
          fun b hbm => hb b (List.mem_of_mem_take hbm)
        obtain ⟨m, hm, hmge, -⟩ := mpz_import_bounds (input.take (k - 1)) hbc
        have hm1 : ¬ (mpz_import (0xFF :: input.take (k - 1)) = 0
            ∨ mpz_import (0xFF :: input.take (k - 1)) = 1) := by
          rw [hm]
          have : 1 ≤ 256 ^ (input.take (k - 1)).length := Nat.one_le_two_pow.trans
            (Nat.pow_le_pow_left (by norm_num) _)
          omega
        rw [if_neg hm1]
        have hclen : (input.take (k - 1)).length + 1 ≤ k := by
          rw [List.length_take]; omega
        have hblock := rsa_decrypt_file_block_framed p q e k hp hq hpq hcop hk
          (input.take (k - 1)) hbc hclen hk64
        have hrec := ih (input.drop (k - 1)).length (by
            rw [List.length_drop]
            rw [List.length_take] at h0
            omega)
          (input.drop (k - 1)) (decide ((input.take (k - 1)).length < k - 1))
          (rsa_encrypt (mpz_import (0xFF :: input.take (k - 1))) (e : Int)
            ((p : Int) * (q : Int))) rfl
          (fun b hbm => hb b (List.mem_of_mem_drop hbm))
          (by
            intro hd
            have hlt := of_decide_eq_true hd
            rw [List.length_take] at hlt
            apply List.length_eq_zero.mp
            rw [List.length_drop]
            omega)
        simp only [List.isEmpty_cons, rsa_decrypt_file_loop, hblock, hrec,
          List.take_append_drop]

/-- On an empty ciphertext the scan fails on the first pass, `c` is 0, the decrypted
value is 0, `mpz_export` sets `j = 0` and `fwrite` is asked for `2 ^ 64 - 1` bytes. -/
theorem rsa_decrypt_file_nil (n : Int) (d : Nat) (hd : 0 < d) :
    rsa_decrypt_file [] n (d : Int) = none := by
  have hk := rsa_block_size_lt n
  unfold rsa_decrypt_file
  simp only [rsa_decrypt_file_loop, rsa_decrypt_file_block, rsa_decrypt]
  rw [pow_mod_pos 0 n d hd, zero_pow hd.ne', Int.zero_emod]
  have hex : mpz_export 0 = [] := by simp [mpz_export]
  rw [hex, List.length_nil]
  split_ifs with h1 h2
  · rfl
  · rfl
  · exfalso; omega

/-! ## rsa_verify and rsa_make_priv on a small key -/

theorem rsa_verify_iff (m s e n : Int) : rsa_verify m s e n = true ↔ pow_mod s e n = m := by
  unfold rsa_verify
  simp

theorem rsa_make_priv_5_17_19 : rsa_make_priv 5 17 19 = 29 := by
  have h := rsa_make_priv_natCast 5 17 19 (by decide) (by decide)
  have hl : Nat.lcm (17 - 1) (19 - 1) = 144 := by decide
  rw [hl] at h
  have h2 : mod_inverse ((5 : Nat) : Int) ((144 : Nat) : Int) = 29 := by
    simp [mod_inverse, mod_inverse_loop, Int.fdiv]
  rw [h2] at h
  exact_mod_cast h

/-! ## The block capacity -/

theorem block_capacity_le_plain (n : Nat) (hn : 1 ≤ n) :
    256 ^ ((mpz_sizeinbase2 (n : Int) - 1) / 8) ≤ n := by
  unfold mpz_sizeinbase2
  rw [if_neg (by omega), Int.natAbs_ofNat]
  have h1 : 0 < Nat.size n := Nat.size_pos.mpr hn
  have h2 : 2 ^ (Nat.size n - 1) ≤ n := Nat.lt_size.mp (by omega)
  calc 256 ^ ((Nat.size n - 1) / 8) = 2 ^ (8 * ((Nat.size n - 1) / 8)) := by
        rw [pow_mul]; norm_num
    _ ≤ 2 ^ (Nat.size n - 1) := Nat.pow_le_pow_right (by norm_num) (Nat.mul_div_le _ _)
    _ ≤ n := h2

theorem mpz_import_lt (bytes : List Nat) (hb : ∀ b ∈ bytes, b < 256) :
    ∃ v : Nat, mpz_import bytes = (v : Int) ∧ v < 256 ^ bytes.length := by
  refine ⟨Nat.ofDigits 256 bytes.reverse, rfl, ?_⟩
  have h := Nat.ofDigits_lt_base_pow_length (b := 256) (l := bytes.reverse) (by norm_num)
    (fun x hx => hb x (List.mem_reverse.mp hx))
  simpa using h

/-! ## The rounds of is_prime on a tape of witnesses -/

theorem is_prime_draw_accepts (n x : Nat) (t : List Nat) (hx : 2 ≤ x ∧ x ≤ n - 2) :
    is_prime_draw ((n : Int) - 1) (x :: t) = some ((x : Int), t) := by
  have hmod : (x : Int) % ((n : Int) - 1) = x := Int.emod_eq_of_lt (by omega) (by omega)
  simp only [is_prime_draw, hmod]
  rw [if_pos (by omega)]

theorem is_prime_rounds_consumed (n : Nat) (r : Int) (s k : Nat) :
    ∀ (ws : List Nat) (b : Bool) (rest : List Nat), (∀ w ∈ ws, 2 ≤ w ∧ w ≤ n - 2) →
      is_prime_rounds n ((n : Int) - 1) r s k ws = some (b, rest) →
      ∃ c, c ≤ k ∧ rest = ws.drop c ∧ (b = true → c = k) := by
  induction k with
  | zero =>
    intro ws b rest _ h
    simp only [is_prime_rounds, Option.some.injEq, Prod.mk.injEq] at h
    exact ⟨0, le_rfl, by simp [h.2], fun _ => rfl⟩
  | succ k ih =>
    intro ws b rest hws h
    cases ws with
    | nil => simp [is_prime_rounds, is_prime_draw] at h
    | cons x t =>
      have hd := is_prime_draw_accepts n x t (hws x (List.mem_cons_self _ _))
      have ht : ∀ w ∈ t, 2 ≤ w ∧ w ≤ n - 2 :=
        fun w hw => hws w (List.mem_cons_of_mem _ hw)
      simp only [is_prime_rounds, hd] at h
      have hnext : is_prime_rounds n ((n : Int) - 1) r s k t = some (b, rest) →
          ∃ c, c ≤ k + 1 ∧ rest = (x :: t).drop c ∧ (b = true → c = k + 1) := by
        intro h2
        obtain ⟨c, hc, hr, hb⟩ := ih t b rest ht h2
        exact ⟨c + 1, by omega, by simpa using hr, fun hbt => by rw [hb hbt]⟩
      have hfalse : some (false, t) = some (b, rest) →
          ∃ c, c ≤ k + 1 ∧ rest = (x :: t).drop c ∧ (b = true → c = k + 1) := by
        intro h2
        simp only [Option.some.injEq, Prod.mk.injEq] at h2
        refine ⟨1, by omega, by simp [h2.2], fun hbt => ?_⟩
        rw [← h2.1] at hbt
        exact absurd hbt (by simp)
      split at h
      · split at h
        · exact hfalse h
        · split at h
          · exact hfalse h
          · exact hnext h
      · exact hnext h

theorem two_adic_unique (s : Nat) : ∀ (s1 r r1 : Nat), 2 ^ s * r = 2 ^ s1 * r1 →
    r % 2 = 1 → r1 % 2 = 1 → s = s1 ∧ r = r1 := by
  induction s with
  | zero =>
    intro s1 r r1 h hr hr1
    cases s1 with
    | zero => simpa using h
    | succ t =>
      rw [pow_zero, one_mul, pow_succ] at h
      have h2 : r = 2 * (2 ^ t * r1) := by rw [h]; ring
      omega
  | succ s ih =>
    intro s1 r r1 h hr hr1
    cases s1 with
    | zero =>
      rw [pow_zero, one_mul, pow_succ] at h
      have h2 : r1 = 2 * (2 ^ s * r) := by rw [← h]; ring
      omega
    | succ t =>
      rw [pow_succ, pow_succ, mul_assoc, mul_assoc] at h
      have h2 : 2 ^ s * (2 * r) = 2 ^ t * (2 * r1) := h
      have h3 : 2 ^ s * r = 2 ^ t * r1 := by
        have : 2 * (2 ^ s * r) = 2 * (2 ^ t * r1) := by linarith
        omega
      obtain ⟨e1, e2⟩ := ih t r r1 h3 hr hr1
      exact ⟨by omega, e2⟩

theorem sq_pow_emod (y n i : Nat) : y ^ 2 ^ (i + 1) % n = (y ^ 2 % n) ^ 2 ^ i % n := by
  rw [← Nat.pow_mod, ← pow_mul, pow_succ, mul_comm]

theorem is_prime_square_loop_iff (n : Nat) (hn : 2 < n) (s k : Nat) :
    ∀ (j y : Nat), s - j = k → y < n →
      (is_prime_square_loop n ((n : Int) - 1) s j (y : Int) = some ((n : Int) - 1) ↔
        y = n - 1 ∨ ∃ i, 1 ≤ i ∧ j + i ≤ s ∧ y ^ 2 ^ i % n = n - 1) := by
  induction k with
  | zero =>
    intro j y hk hy
    rw [is_prime_square_loop_eq, if_neg (by omega)]
    simp only [Option.some.injEq]
    constructor
    · intro h; left; omega
    · rintro (h | ⟨i, h1, h2, -⟩)
      · omega
      · omega
  | succ k ih =>
    intro j y hk hy
    rw [is_prime_square_loop_eq]
    by_cases hy1 : y = n - 1
    · rw [if_neg (by omega)]
      simp only [Option.some.injEq]
      exact ⟨fun _ => Or.inl hy1, fun _ => by omega⟩
    · rw [if_pos ⟨by omega, by omega⟩]
      have hp2 : pow_mod (y : Int) 2 (n : Int) = ((y ^ 2 % n : Nat) : Int) := by
        have := pow_mod_natCast y 2 n (Or.inl (by omega))
        simpa using this
      rw [hp2]
      by_cases h1 : y ^ 2 % n = 1
      · rw [if_pos (by exact_mod_cast h1)]
        constructor
        · intro h; exact absurd h (by simp)
        · rintro (h | ⟨i, hi1, -, hi3⟩)
          · exact absurd h hy1
          · obtain ⟨i0, rfl⟩ : ∃ i0, i = i0 + 1 := ⟨i - 1, by omega⟩
            rw [sq_pow_emod, h1, one_pow, Nat.mod_eq_of_lt (by omega)] at hi3
            omega
      · rw [if_neg (by exact_mod_cast h1)]
        rw [ih (j + 1) (y ^ 2 % n) (by omega) (Nat.mod_lt _ (by omega))]
        constructor
        · rintro (h | ⟨i, hi1, hi2, hi3⟩)
          · right
            exact ⟨1, le_rfl, by omega, by simpa using h⟩
          · right
            exact ⟨i + 1, by omega, by omega, by rw [sq_pow_emod]; exact hi3⟩
        · rintro (h | ⟨i, hi1, hi2, hi3⟩)
          · exact absurd h hy1
          · obtain ⟨i0, rfl⟩ : ∃ i0, i = i0 + 1 := ⟨i - 1, by omega⟩
            rcases Nat.eq_zero_or_pos i0 with h0 | h0
            · left
              subst h0
              simpa using hi3
            · right
              exact ⟨i0, h0, by omega, by rw [← sq_pow_emod]; exact hi3⟩

theorem is_prime_round_passes_iff (n s r a : Nat) :
    is_prime_round_passes n s r a ↔
      a ^ r % n = 1 ∨ a ^ r % n = n - 1 ∨
        ∃ i, 1 ≤ i ∧ 1 + i ≤ s ∧ (a ^ r % n) ^ 2 ^ i % n = n - 1 := by
  have hpow : ∀ i, (a ^ r % n) ^ 2 ^ i % n = a ^ (2 ^ i * r) % n := by
    intro i
    rw [← Nat.pow_mod, ← pow_mul, mul_comm]
  unfold is_prime_round_passes spec_strong_probable_prime
  constructor
  · rintro ((h | ⟨j, hj, h⟩) | h)
    · exact Or.inl h
    · rcases Nat.eq_zero_or_pos j with h0 | h0
      · subst h0
        right; left
        simpa using h
      · right; right
        exact ⟨j, h0, by omega, by rw [hpow]; exact h⟩
    · exact Or.inr (Or.inl h)
  · rintro (h | h | ⟨i, hi1, hi2, h⟩)
    · exact Or.inl (Or.inl h)
    · exact Or.inr h
    · left; right
      exact ⟨i, by omega, by rw [← hpow]; exact h⟩

theorem is_prime_rounds_cons (n s r k x : Nat) (t : List Nat) (h3 : 3 < n)
    (hx : 2 ≤ x ∧ x ≤ n - 2) :
    is_prime_rounds n ((n : Int) - 1) (r : Int) s (k + 1) (x :: t)
      = if is_prime_round_passes n s r x then
          is_prime_rounds n ((n : Int) - 1) (r : Int) s k t
        else some (false, t) := by
  have hd := is_prime_draw_accepts n x t hx
  have hpm : pow_mod (x : Int) (r : Int) (n : Int) = ((x ^ r % n : Nat) : Int) :=
    pow_mod_natCast x r n (Or.inl (by omega))
  have hylt : x ^ r % n < n := Nat.mod_lt _ (by omega)
  have hloop := is_prime_square_loop_iff n (by omega) s (s - 1) 1 (x ^ r % n) rfl hylt
  simp only [is_prime_rounds, hd, hpm]
  have hiff := is_prime_round_passes_iff n s r x
  by_cases h1 : x ^ r % n = 1
  · rw [if_neg (by rintro ⟨ha, -⟩; exact ha (by exact_mod_cast h1)),
      if_pos (hiff.mpr (Or.inl h1))]
  · by_cases h2 : x ^ r % n = n - 1
    · rw [if_neg (by
        rintro ⟨-, hb⟩
        apply hb
        rw [h2]
        omega), if_pos (hiff.mpr (Or.inr (Or.inl h2)))]
    · rw [if_pos ⟨by exact_mod_cast h1, by
        intro hb
        apply h2
        have : ((x ^ r % n : Nat) : Int) = ((n - 1 : Nat) : Int) := by rw [hb]; omega
        exact_mod_cast this⟩]
      by_cases hpass : ∃ i, 1 ≤ i ∧ 1 + i ≤ s ∧ (x ^ r % n) ^ 2 ^ i % n = n - 1
      · have hl := hloop.mpr (Or.inr hpass)
        rw [hl, if_pos (hiff.mpr (Or.inr (Or.inr hpass)))]
        simp
      · have hl : is_prime_square_loop n ((n : Int) - 1) s 1 ((x ^ r % n : Nat) : Int)
            ≠ some ((n : Int) - 1) := by
          intro hc
          rcases hloop.mp hc with h | h
          · exact h2 h
          · exact hpass h
        rw [if_neg (by
          intro hp
          rcases hiff.mp hp with h | h | h
          · exact h1 h
          · exact h2 h
          · exact hpass h)]
        cases hres : is_prime_square_loop n ((n : Int) - 1) s 1 ((x ^ r % n : Nat) : Int) with
        | none => rfl
        | some y1 =>
          have hne : y1 ≠ (n : Int) - 1 := by
            intro hc
            apply hl
            rw [hres, hc]
          simp [hne]

theorem is_prime_rounds_true_iff (n s r : Nat) (h3 : 3 < n) (k : Nat) :
    ∀ ws : List Nat, (∀ w ∈ ws, 2 ≤ w ∧ w ≤ n - 2) → k ≤ ws.length →
      (is_prime_rounds n ((n : Int) - 1) (r : Int) s k ws = some (true, ws.drop k) ↔
        ∀ a ∈ ws.take k, is_prime_round_passes n s r a) := by
  induction k with
  | zero =>
    intro ws _ _
    simp [is_prime_rounds]
  | succ k ih =>
    intro ws hws hlen
    cases ws with
    | nil => simp at hlen
    | cons x t =>
      rw [is_prime_rounds_cons n s r k x t h3 (hws x (List.mem_cons_self _ _))]
      have ht : ∀ w ∈ t, 2 ≤ w ∧ w ≤ n - 2 :=
        fun w hw => hws w (List.mem_cons_of_mem _ hw)
      have hk : k ≤ t.length := by simpa using hlen
      simp only [List.drop_succ_cons, List.take_succ_cons, List.mem_cons, forall_eq_or_imp]
      by_cases hp : is_prime_round_passes n s r x
      · rw [if_pos hp, ih t ht hk]
        exact ⟨fun h => ⟨hp, h⟩, fun h => h.2⟩
      · rw [if_neg hp]
        constructor
        · intro h; exact absurd h (by simp)
        · intro h; exact absurd h.1 hp

theorem is_prime_rounds_first_failure (n s r : Nat) (h3 : 3 < n) (pre : List Nat) :
    ∀ (k a : Nat) (post : List Nat), pre.length < k →
      (∀ w ∈ pre ++ a :: post, 2 ≤ w ∧ w ≤ n - 2) →
      (∀ b ∈ pre, is_prime_round_passes n s r b) → ¬ is_prime_round_passes n s r a →
      is_prime_rounds n ((n : Int) - 1) (r : Int) s k (pre ++ a :: post)
        = some (false, post) := by
  induction pre with
  | nil =>
    intro k a post hk hws _ hfail
    obtain ⟨k0, rfl⟩ : ∃ k0, k = k0 + 1 := ⟨k - 1, by simp at hk; omega⟩
    rw [List.nil_append, is_prime_rounds_cons n s r k0 a post h3
      (hws a (by simp)), if_neg hfail]
  | cons b pre ih =>
    intro k a post hk hws hpass hfail
    obtain ⟨k0, rfl⟩ : ∃ k0, k = k0 + 1 := ⟨k - 1, by simp at hk; omega⟩
    rw [List.cons_append, is_prime_rounds_cons n s r k0 b _ h3
      (hws b (by simp)), if_pos (hpass b (List.mem_cons_self _ _))]
    exact ih k0 a post (by simp at hk; omega)
      (fun w hw => hws w (by
        rw [List.cons_append]
        exact List.mem_cons_of_mem _ hw))
      (fun c hc => hpass c (List.mem_cons_of_mem _ hc)) hfail

theorem is_prime_unfold_decomposition (n s r : Nat) (h3 : 3 < n) (hdec : n - 1 = 2 ^ s * r)
    (hodd : r % 2 = 1) (iters : Nat) (tape : List Nat) :
    is_prime (n : Int) iters tape
      = is_prime_rounds n ((n : Int) - 1) (r : Int) s (iters - 1) tape := by
  have hstart : (n : Int) - 1 ≠ 0 := by omega
  obtain ⟨rn, hr, hsr, hrodd, -⟩ := is_prime_decomposition n (by omega) hstart
  obtain ⟨e1, e2⟩ := two_adic_unique _ s rn r (hsr.trans hdec) hrodd hodd
  rw [is_prime_unfold (n : Int) (by omega) (by omega) hstart, hr, e1, e2]

theorem is_prime_iters_one (n : Int) (h01 : ¬ (n = 0 ∨ n = 1)) (h3 : n ≠ 3)
    (tape : List Nat) : is_prime n 1 tape = some (true, tape) := by
  rw [is_prime_unfold n h01 h3 (by omega)]
  rfl

/-! ## rsa_make_pub -/

theorem make_prime_cons_cont (bits iters x : Nat) (tape : List Nat)
    (hsize : mpz_sizeinbase2 ((x % 2 ^ bits : Nat) : Int) = bits)
    (hcont : make_prime_cont (if ((x % 2 ^ bits : Nat) : Int) % 2 = 0
      then ((x % 2 ^ bits : Nat) : Int) + 1 else ((x % 2 ^ bits : Nat) : Int)) = true) :
    make_prime bits iters (x :: tape) = make_prime bits iters tape := by
  rw [make_prime]
  dsimp only
  rw [if_pos hsize, if_pos hcont]

theorem make_prime_cons_none (bits iters x : Nat) (tape : List Nat) (c : Int)
    (hsize : mpz_sizeinbase2 ((x % 2 ^ bits : Nat) : Int) = bits)
    (hc : (if ((x % 2 ^ bits : Nat) : Int) % 2 = 0 then ((x % 2 ^ bits : Nat) : Int) + 1
      else ((x % 2 ^ bits : Nat) : Int)) = c)
    (hcont : make_prime_cont c = false) (hp : is_prime c iters tape = none) :
    make_prime bits iters (x :: tape) = none := by
  rw [make_prime]
  dsimp only
  rw [if_pos hsize, hc, if_neg (by simp [hcont])]
  split
  · rfl
  · rename_i heq; rw [hp] at heq; exact absurd heq (by simp)
  · rename_i heq; rw [hp] at heq; exact absurd heq (by simp)

theorem make_prime_cons_false (bits iters x : Nat) (tape tape1 : List Nat) (c : Int)
    (hsize : mpz_sizeinbase2 ((x % 2 ^ bits : Nat) : Int) = bits)
    (hc : (if ((x % 2 ^ bits : Nat) : Int) % 2 = 0 then ((x % 2 ^ bits : Nat) : Int) + 1
      else ((x % 2 ^ bits : Nat) : Int)) = c)
    (hcont : make_prime_cont c = false) (hp : is_prime c iters tape = some (false, tape1)) :
    make_prime bits iters (x :: tape) = make_prime bits iters tape1 := by
  rw [make_prime]
  dsimp only
  rw [if_pos hsize, hc, if_neg (by simp [hcont])]
  split
  · rename_i heq; rw [hp] at heq; exact absurd heq (by simp)
  · rename_i heq; rw [hp] at heq; exact absurd heq (by simp)
  · rename_i t1 heq
    rw [hp] at heq
    simp only [Option.some.injEq, Prod.mk.injEq, true_and] at heq
    rw [heq]

theorem make_prime_natCast (bits iters : Nat) (tape : List Nat) :
    ∀ (q : Int) (rest : List Nat), make_prime bits iters tape = some (q, rest) →
      ∃ v : Nat, q = (v : Int) := by
  induction tape using make_prime.induct bits iters with
  | case1 =>
    intro q rest h
    rw [make_prime] at h
    exact absurd h (by simp)
  | case2 x tape p0 hsize p hcont ih =>
    intro q rest h
    rw [make_prime_cons_cont bits iters x tape hsize hcont] at h
    exact ih q rest h
  | case3 x tape p0 hsize p hcont hnone =>
    intro q rest h
    rw [make_prime_cons_none bits iters x tape _ hsize rfl (Bool.eq_false_iff.mpr hcont) hnone] at h
    exact absurd h (by simp)
  | case4 x tape p0 hsize p hcont tape1 htrue =>
    intro q rest h
    rw [make_prime_cons_true bits iters x tape tape1 _ hsize rfl (Bool.eq_false_iff.mpr hcont)
      htrue]
      at h
    simp only [Option.some.injEq, Prod.mk.injEq] at h
    rw [← h.1]
    split_ifs
    · exact ⟨x % 2 ^ bits + 1, by push_cast; rfl⟩
    · exact ⟨x % 2 ^ bits, rfl⟩
  | case5 x tape p0 hsize p hcont tape1 hfalse ih =>
    intro q rest h
    rw [make_prime_cons_false bits iters x tape tape1 _ hsize rfl (Bool.eq_false_iff.mpr hcont)
      hfalse]
      at h
    exact ih q rest h
  | case6 x tape p0 hsize ih =>
    intro q rest h
    rw [make_prime_cons_skip bits iters x tape hsize] at h
    exact ih q rest h

theorem rsa_make_pub_e_spec (nbits : Nat) (lambda : Int) (tape : List Nat) :
    ∀ (e : Int) (rest : List Nat), rsa_make_pub_e nbits lambda tape = some (e, rest) →
      mpz_sizeinbase2 e = nbits ∧ gcd e lambda = 1 ∧ ∃ x : Nat, e = (x : Int) := by
  induction tape with
  | nil => intro e rest h; simp [rsa_make_pub_e] at h
  | cons x t ih =>
    intro e rest h
    simp only [rsa_make_pub_e] at h
    split_ifs at h with h1 h2
    · simp only [Option.some.injEq, Prod.mk.injEq] at h
      rw [← h.1]
      exact ⟨h1, h2, _, rfl⟩
    · exact ih e rest h
    · exact ih e rest h

theorem rsa_make_pub_eq (nbits iters : Nat) (rtape tape rtape1 tape1 tape2 tape3 : List Nat)
    (pbits : Nat) (p q e : Int) (hupper : (nbits * 3) % 2 ^ 64 / 4 ≠ 0)
    (hpb : rsa_make_pub_pbits (nbits / 4) ((nbits * 3) % 2 ^ 64 / 4) rtape = some (pbits, rtape1))
    (hp : make_prime pbits iters tape = some (p, tape1))
    (hq : make_prime (nbits - pbits) iters tape1 = some (q, tape2))
    (he : rsa_make_pub_e nbits (((p - 1) * (q - 1)).fdiv (gcd (p - 1) (q - 1))) tape2
      = some (e, tape3)) :
    rsa_make_pub nbits iters rtape tape = some ((p, q, p * q, e), rtape1, tape3) := by
  unfold rsa_make_pub
  simp only [if_neg hupper, hpb, hp, hq, he]

theorem rsa_make_pub_inv (nbits iters : Nat) (rtape tape rtape1 tape3 : List Nat)
    (p q n e : Int)
    (h : rsa_make_pub nbits iters rtape tape = some ((p, q, n, e), rtape1, tape3)) :
    ∃ (pbits : Nat) (tape1 tape2 : List Nat),
      (nbits * 3) % 2 ^ 64 / 4 ≠ 0 ∧
      rsa_make_pub_pbits (nbits / 4) ((nbits * 3) % 2 ^ 64 / 4) rtape = some (pbits, rtape1) ∧
      make_prime pbits iters tape = some (p, tape1) ∧
      make_prime (nbits - pbits) iters tape1 = some (q, tape2) ∧
      n = p * q ∧
      rsa_make_pub_e nbits (((p - 1) * (q - 1)).fdiv (gcd (p - 1) (q - 1))) tape2
        = some (e, tape3) := by
  unfold rsa_make_pub at h
  simp only [] at h
  split_ifs at h with hupper
  split at h
  · exact absurd h (by simp)
  · rename_i rand rt1 hpb
    split at h
    · exact absurd h (by simp)
    · rename_i p1 t1 hp
      split at h
      · exact absurd h (by simp)
      · rename_i q1 t2 hq
        split at h
        · exact absurd h (by simp)
        · rename_i e1 t3 he
          simp only [Option.some.injEq, Prod.mk.injEq] at h
          obtain ⟨⟨rfl, rfl, rfl, rfl⟩, rfl, rfl⟩ := h
          exact ⟨rand, t1, t2, hupper, hpb, hp, hq, rfl, he⟩

set_option maxRecDepth 100000 in
theorem make_prime_25_first (tape : List Nat) :
    make_prime 25 1 (16777259 :: tape) = some (16777259, tape) := by
  have hx : (16777259 % 2 ^ 25 : Nat) = 16777259 := by norm_num
  refine make_prime_cons_true 25 1 16777259 tape tape 16777259 ?_ ?_ (by decide)
    (is_prime_iters_one _ (by decide) (by decide) tape)
  · rw [hx]; exact sizeinbase2_eq 16777259 24 (by norm_num) (by norm_num)
  · rw [hx]; norm_num

set_option maxRecDepth 100000 in
theorem make_prime_25_second (tape : List Nat) :
    make_prime 25 1 (16777289 :: tape) = some (16777289, tape) := by
  have hx : (16777289 % 2 ^ 25 : Nat) = 16777289 := by norm_num
  refine make_prime_cons_true 25 1 16777289 tape tape 16777289 ?_ ?_ (by decide)
    (is_prime_iters_one _ (by decide) (by decide) tape)
  · rw [hx]; exact sizeinbase2_eq 16777289 24 (by norm_num) (by norm_num)
  · rw [hx]; norm_num

theorem rsa_make_pub_run_50 :
    rsa_make_pub 50 1 [25] [16777259, 16777289, 562949953421313]
      = some ((16777259, 16777289, 16777259 * 16777289, 562949953421313), [], []) := by
  refine rsa_make_pub_eq 50 1 [25] _ [] _ _ [] 25 16777259 16777289 562949953421313
    (by norm_num) (by decide) (make_prime_25_first _) (make_prime_25_second _) ?_
  have hlam : (((16777259 : Int) - 1) * (16777289 - 1)).fdiv (gcd (16777259 - 1) (16777289 - 1))
      = ((140738444658152 : Nat) : Int) := by
    have e1 : (16777259 : Int) - 1 = ((16777258 : Nat) : Int) := by norm_num
    have e2 : (16777289 : Int) - 1 = ((16777288 : Nat) : Int) := by norm_num
    rw [e1, e2, gcd_natCast, Int.fdiv_eq_ediv _ (Int.natCast_nonneg _)]
    norm_num
  rw [hlam]
  have hx : (562949953421313 % 2 ^ 50 : Nat) = 562949953421313 := by norm_num
  have hs : mpz_sizeinbase2 ((562949953421313 : Nat) : Int) = 50 :=
    sizeinbase2_eq 562949953421313 49 (by norm_num) (by norm_num)
  have hg : gcd ((562949953421313 : Nat) : Int) ((140738444658152 : Nat) : Int) = 1 := by
    rw [gcd_natCast]; norm_num
  simp only [rsa_make_pub_e, hx, hs, hg, if_true]
  rfl

/-! ## The key files -/

theorem hex_digit_value_char (d : Nat) (hd : d < 16) :
    hex_digit_value (hex_digit_char d) = some d ∧ c_isspace (hex_digit_char d) = false ∧
      hex_digit_char d ≠ '-' := by
  interval_cases d <;> decide

theorem hex_foldl_digits (L : List Nat) (hL : ∀ d ∈ L, d < 16) :
    (L.reverse.map hex_digit_char).foldl
        (fun acc c => acc * 16 + (hex_digit_value c).getD 0) 0
      = Nat.ofDigits 16 L := by
  induction L with
  | nil => rfl
  | cons d t ih =>
    rw [List.reverse_cons, List.map_append, List.foldl_append, ih
      (fun x hx => hL x (List.mem_cons_of_mem _ hx))]
    simp only [List.map_cons, List.map_nil, List.foldl_cons, List.foldl_nil,
      (hex_digit_value_char d (hL d (List.mem_cons_self _ _))).1, Option.getD_some,
      Nat.ofDigits_cons]
    ring

/-- The text of a non-negative value: not empty, hexadecimal digits only, and its
digits give the value back. -/
theorem gmp_printf_Zx_natCast (x : Nat) :
    gmp_printf_Zx (x : Int) ≠ [] ∧
    (∀ c ∈ gmp_printf_Zx (x : Int), (hex_digit_value c).isSome = true ∧ c_isspace c = false
      ∧ c ≠ '-') ∧
    (gmp_printf_Zx (x : Int)).foldl (fun acc c => acc * 16 + (hex_digit_value c).getD 0) 0
      = x := by
  unfold gmp_printf_Zx
  rw [if_neg (by omega), List.nil_append]
  rcases Nat.eq_zero_or_pos x with h0 | h0
  · subst h0
    simp only [Nat.cast_zero, if_true]
    refine ⟨by simp, ?_, by decide⟩
    intro c hc
    rw [List.mem_singleton.mp hc]
    decide
  · rw [if_neg (by omega), Int.natAbs_ofNat]
    have hdig : ∀ d ∈ Nat.digits 16 x, d < 16 := fun d hd => Nat.digits_lt_base (by norm_num) hd
    refine ⟨?_, ?_, ?_⟩
    · intro h
      have h1 : Nat.digits 16 x = [] := by simpa using h
      exact absurd (Nat.digits_eq_nil_iff_eq_zero.mp h1) (by omega)
    · intro c hc
      obtain ⟨d, hd, rfl⟩ := List.mem_map.mp hc
      have := hex_digit_value_char d (hdig d (List.mem_reverse.mp hd))
      exact ⟨by rw [this.1]; rfl, this.2.1, this.2.2⟩
    · rw [hex_foldl_digits _ hdig, Nat.ofDigits_digits]

theorem takeWhile_append_stop {α : Type} (p : α → Bool) (l : List α) (c : α) (rest : List α)
    (hl : ∀ a ∈ l, p a = true) (hc : p c = false) :
    (l ++ c :: rest).takeWhile p = l ∧ (l ++ c :: rest).dropWhile p = c :: rest := by
  induction l with
  | nil => simp [List.takeWhile, List.dropWhile, hc]
  | cons a t ih =>
    have ha := hl a (List.mem_cons_self _ _)
    have := ih (fun b hb => hl b (List.mem_cons_of_mem _ hb))
    simp [List.takeWhile, List.dropWhile, ha, this.1, this.2]

theorem dropWhile_of_head {α : Type} (p : α → Bool) (l : List α)
    (h : ∀ a, l.head? = some a → p a = false) : l.dropWhile p = l := by
  cases l with
  | nil => rfl
  | cons a t => simp [List.dropWhile, h a rfl]

theorem gmp_scanf_Zx_printf (x : Nat) (rest : List Char) :
    gmp_scanf_Zx (gmp_printf_Zx (x : Int) ++ '\n' :: rest) = some ((x : Int), '\n' :: rest) := by
  obtain ⟨hne, hall, hval⟩ := gmp_printf_Zx_natCast x
  obtain ⟨c0, t0, hct⟩ : ∃ c0 t0, gmp_printf_Zx (x : Int) = c0 :: t0 := by
    cases h : gmp_printf_Zx (x : Int) with
    | nil => exact absurd h hne
    | cons a t => exact ⟨a, t, rfl⟩
  have hc0 := hall c0 (by rw [hct]; exact List.mem_cons_self _ _)
  have hskip : (gmp_printf_Zx (x : Int) ++ '\n' :: rest).dropWhile c_isspace
      = gmp_printf_Zx (x : Int) ++ '\n' :: rest := by
    apply dropWhile_of_head
    intro a ha
    rw [hct] at ha
    simp only [List.cons_append, List.head?_cons, Option.some.injEq] at ha
    rw [← ha]; exact hc0.2.1
  have hneg : ¬ ((gmp_printf_Zx (x : Int) ++ '\n' :: rest).head? = some '-') := by
    rw [hct]
    simp only [List.cons_append, List.head?_cons, Option.some.injEq]
    exact hc0.2.2
  have htd := takeWhile_append_stop (fun c => (hex_digit_value c).isSome)
    (gmp_printf_Zx (x : Int)) '\n' rest (fun a ha => (hall a ha).1) (by decide)
  unfold gmp_scanf_Zx
  simp only [hskip, hneg, decide_False, if_false, htd.1, htd.2, hval, Bool.false_eq_true]
  rw [if_neg hne]

theorem scanf_s_word (word rest : List Char) (hne : word ≠ [])
    (hw : ∀ c ∈ word, c_isspace c = false) :
    scanf_s (word ++ '\n' :: rest) = some (word, '\n' :: rest) := by
  obtain ⟨c0, t0, hct⟩ : ∃ c0 t0, word = c0 :: t0 := by
    cases h : word with
    | nil => exact absurd h hne
    | cons a t => exact ⟨a, t, rfl⟩
  have hskip : (word ++ '\n' :: rest).dropWhile c_isspace = word ++ '\n' :: rest := by
    apply dropWhile_of_head
    intro a ha
    rw [hct] at ha
    simp only [List.cons_append, List.head?_cons, Option.some.injEq] at ha
    rw [← ha]; exact hw c0 (by rw [hct]; exact List.mem_cons_self _ _)
  have htd := takeWhile_append_stop (fun c => !c_isspace c) word '\n' rest
    (fun a ha => by simp [hw a ha]) (by decide)
  unfold scanf_s
  simp only [hskip, htd.1, htd.2]
  rw [if_neg hne]

theorem dropWhile_newline (l : List Char) (h : ∀ a, l.head? = some a → c_isspace a = false) :
    ('\n' :: l).dropWhile c_isspace = l := by
  have : c_isspace '\n' = true := by decide
  simp only [List.dropWhile, this]
  exact dropWhile_of_head _ _ h

theorem dropWhile_newline_append (w rest : List Char) (hne : w ≠ [])
    (hw : ∀ c ∈ w, c_isspace c = false) :
    ('\n' :: (w ++ rest)).dropWhile c_isspace = w ++ rest := by
  apply dropWhile_newline
  intro a ha
  cases w with
  | nil => exact absurd rfl hne
  | cons c t =>
    simp only [List.cons_append, List.head?_cons, Option.some.injEq] at ha
    rw [← ha]
    exact hw c (List.mem_cons_self _ _)

theorem dropWhile_newline_printf (x : Nat) (rest : List Char) :
    ('\n' :: (gmp_printf_Zx (x : Int) ++ rest)).dropWhile c_isspace
      = gmp_printf_Zx (x : Int) ++ rest :=
  dropWhile_newline_append _ rest (gmp_printf_Zx_natCast x).1
    (fun c hc => ((gmp_printf_Zx_natCast x).2.1 c hc).2.1)

/-! ## The sentinel framing of a block -/

theorem mpz_import_sentinel_inj (c1 c2 : List Nat) (h1 : ∀ b ∈ c1, b < 256)
    (h2 : ∀ b ∈ c2, b < 256) (h : mpz_import (0xFF :: c1) = mpz_import (0xFF :: c2)) :
    c1 = c2 := by
  have e := congrArg mpz_export h
  rw [mpz_export_import c1 h1, mpz_export_import c2 h2] at e
  exact (List.cons.inj e).2

/-- The count `j - 1` of `fwrite`, computed on `size_t`, for `j = len + 1`. -/
theorem fwrite_count (len : Nat) (hlen : len + 1 < 2 ^ 64) :
    (len + 1 + 2 ^ 64 - 1) % 2 ^ 64 = len := by
  have : len + 1 + 2 ^ 64 - 1 = len + 2 ^ 64 := by omega
  rw [this, Nat.add_mod_right, Nat.mod_eq_of_lt (by omega)]

theorem rsa_decrypt_file_block_of_import (k : Nat) (hk64 : k < 2 ^ 64) (chunk : List Nat)
    (hb : ∀ b ∈ chunk, b < 256) (hlen : chunk.length + 1 ≤ k) (c d n : Int)
    (hm : rsa_decrypt c d n = mpz_import (0xFF :: chunk)) :
    rsa_decrypt_file_block k c d n = some chunk := by
  unfold rsa_decrypt_file_block
  simp only []
  rw [hm, mpz_export_import chunk hb]
  have hj : (0xFF :: chunk).length = chunk.length + 1 := rfl
  rw [hj, fwrite_count chunk.length (by omega), if_neg (by omega), if_neg (by omega)]
  simp

theorem mpz_import_sentinel_ge (chunk : List Nat) :
    ((0xFF * 256 ^ chunk.length : Nat) : Int) ≤ mpz_import (0xFF :: chunk) := by
  unfold mpz_import
  rw [List.reverse_cons, Nat.ofDigits_append, Nat.ofDigits_singleton, List.length_reverse]
  have h : 255 * 256 ^ chunk.length
      ≤ Nat.ofDigits 256 chunk.reverse + 256 ^ chunk.length * 255 := by
    rw [mul_comm]; omega
  exact_mod_cast h

theorem mpz_import_sentinel_gt_one (chunk : List Nat) :
    ¬ (mpz_import (0xFF :: chunk) = 0 ∨ mpz_import (0xFF :: chunk) = 1) := by
  have h := mpz_import_sentinel_ge chunk
  have h1 : 1 ≤ 256 ^ chunk.length := Nat.one_le_pow _ _ (by norm_num)
  have h2 : ((255 : Nat) : Int) ≤ ((0xFF * 256 ^ chunk.length : Nat) : Int) := by
    exact_mod_cast (by omega : 255 ≤ 255 * 256 ^ chunk.length)
  omega

/-- The loop of `rsa_encrypt_file` never takes the branch of a block of value 0 or 1. -/
theorem rsa_encrypt_file_loop_no_skip (k : Nat) (n e : Int) (infile : List Nat) (eof : Bool) :
    rsa_encrypt_file_loop k n e infile eof
      = if eof = true then []
        else if (infile.take (k - 1)).length = 0 then []
        else rsa_encrypt (mpz_import (0xFF :: infile.take (k - 1))) e n ::
          rsa_encrypt_file_loop k n e (infile.drop (k - 1))
            (decide ((infile.take (k - 1)).length < k - 1)) := by
  rw [rsa_encrypt_file_loop_eq, if_neg (mpz_import_sentinel_gt_one _)]

/-- The number of lines written: one for every chunk of up to `k - 1` bytes. -/
theorem rsa_encrypt_file_loop_length (k : Nat) (hk : 2 ≤ k) (n e : Int) (len : Nat) :
    ∀ infile : List Nat, infile.length = len →
      (rsa_encrypt_file_loop k n e infile false).length = (len + (k - 2)) / (k - 1) := by
  induction len using Nat.strong_induction_on with
  | _ len ih =>
    intro infile hlen
    rw [rsa_encrypt_file_loop_no_skip]
    simp only [Bool.false_eq_true, if_false, List.length_take]
    by_cases h0 : min (k - 1) infile.length = 0
    · rw [if_pos h0]
      have : len = 0 := by omega
      subst this
      simp only [List.length_nil]
      symm
      apply Nat.div_eq_of_lt
      omega
    · rw [if_neg h0, List.length_cons]
      by_cases hshort : min (k - 1) infile.length < k - 1
      · rw [decide_eq_true hshort, rsa_encrypt_file_loop_no_skip]
        simp only [if_true, List.length_nil]
        have hl : len < k - 1 := by omega
        have : (len + (k - 2)) / (k - 1) = 1 := by
          apply Nat.div_eq_of_lt_le <;> omega
        omega
      · rw [decide_eq_false hshort]
        have hge : k - 1 ≤ len := by omega
        rw [ih (len - (k - 1)) (by omega) _ (by rw [List.length_drop]; omega)]
        have : len + (k - 2) = (len - (k - 1) + (k - 2)) + (k - 1) := by omega
        rw [this, Nat.add_div_right _ (by omega)]

theorem rsa_block_size_17_bits (x : Int) (h : mpz_sizeinbase2 x = 17) :
    rsa_block_size x = 2 := by
  unfold rsa_block_size
  rw [h]
  norm_num

theorem rsa_block_size_65536 : rsa_block_size 65536 = 2 := by
  have h : mpz_sizeinbase2 ((65536 : Nat) : Int) = 17 :=
    sizeinbase2_eq 65536 16 (by norm_num) (by norm_num)
  rw [Nat.cast_ofNat] at h
  exact rsa_block_size_17_bits 65536 h

/-! ## The trial division of make_prime -/

/-- The candidate of a draw, forced odd, is odd and at least 1. -/
theorem make_prime_candidate_pos (bits x : Nat) :
    1 ≤ (if ((x % 2 ^ bits : Nat) : Int) % 2 = 0 then ((x % 2 ^ bits : Nat) : Int) + 1
      else ((x % 2 ^ bits : Nat) : Int)) ∧
    (if ((x % 2 ^ bits : Nat) : Int) % 2 = 0 then ((x % 2 ^ bits : Nat) : Int) + 1
      else ((x % 2 ^ bits : Nat) : Int)) % 2 = 1 := by
  split_ifs with h <;> omega

/-- A positive `p` that the trial division sets aside is a product `i * k` with `i` odd,
`3 <= i <= 541`, and `k >= 2`. -/
theorem make_prime_cont_factors (p : Int) (hp : 1 ≤ p) (h : make_prime_cont p = true) :
    ∃ i k : Nat, 3 ≤ i ∧ i ≤ 541 ∧ i % 2 = 1 ∧ 2 ≤ k ∧ p = ((i * k : Nat) : Int) := by
  unfold make_prime_cont at h
  rw [List.any_eq_true] at h
  obtain ⟨t, ht, hd⟩ := h
  rw [List.mem_range] at ht
  rw [decide_eq_true_iff] at hd
  obtain ⟨hmod, hne⟩ := hd
  obtain ⟨v, rfl⟩ := Int.eq_ofNat_of_zero_le (by omega : 0 ≤ p)
  have hmod1 : v % (3 + 2 * t) = 0 := by exact_mod_cast hmod
  have hne1 : v ≠ 3 + 2 * t := by
    intro hv; apply hne; rw [hv]; push_cast; ring
  obtain ⟨k, hk⟩ := Nat.dvd_of_mod_eq_zero hmod1
  refine ⟨3 + 2 * t, k, by omega, by omega, by omega, ?_, by rw [hk]⟩
  rcases k with _ | _ | k
  · rw [hk] at hp; simp at hp
  · rw [hk] at hne1; simp at hne1
  · omega

theorem make_prime_cont_prime (p : Nat) (hp : p.Prime) : make_prime_cont (p : Int) = false := by
  rw [← Bool.not_eq_true]
  intro h
  obtain ⟨i, k, hi, -, -, hk, hpk⟩ :=
    make_prime_cont_factors (p : Int) (by exact_mod_cast hp.one_lt.le) h
  have hpk1 : p = i * k := by exact_mod_cast hpk
  rcases (Nat.dvd_prime hp).mp ⟨k, hpk1⟩ with h1 | h1
  · omega
  · rw [h1] at hpk1
    have : i * 1 < i * k := Nat.mul_lt_mul_of_pos_left (by omega) (by omega)
    omega

theorem is_prime_three (iters : Nat) (tape : List Nat) :
    is_prime 3 iters tape = some (true, tape) := by
  unfold is_prime
  rw [dif_neg (by decide), if_pos rfl]

/-- The exponent `s` that `is_prime` finds for an odd `n > 3` is at least 1. -/
theorem is_prime_decomposition_odd (n : Nat) (h3 : 3 < n) (hodd : n % 2 = 1) :
    ∃ s rn : Nat, 1 ≤ s ∧ 2 ^ s * rn = n - 1 ∧ rn % 2 = 1 ∧
      ∀ (iters : Nat) (tape : List Nat), is_prime (n : Int) iters tape
        = is_prime_rounds n ((n : Int) - 1) (rn : Int) s (iters - 1) tape := by
  have hstart : (n : Int) - 1 ≠ 0 := by omega
  obtain ⟨rn, hr, hsr, hrodd, ht1⟩ := is_prime_decomposition n (by omega) hstart
  refine ⟨is_prime_find_s ((n : Int) - 1) hstart 0 - 1, rn, ?_, hsr, hrodd, ?_⟩
  · by_contra hlt
    have h0 : is_prime_find_s ((n : Int) - 1) hstart 0 - 1 = 0 := by omega
    rw [h0, pow_zero, one_mul] at hsr
    omega
  · intro iters tape
    exact is_prime_unfold_decomposition n _ rn h3 hsr.symm hrodd iters tape

/-- On an odd prime `is_prime` never returns false, whatever is drawn. -/
theorem is_prime_odd_prime_not_false (n : Nat) (hn : n.Prime) (hodd : n % 2 = 1) (iters : Nat)
    (tape rest : List Nat) : is_prime (n : Int) iters tape ≠ some (false, rest) := by
  have h2 := hn.two_le
  rcases Nat.lt_or_ge 3 n with h3 | h3
  · obtain ⟨s, rn, hs, hsr, -, hunf⟩ := is_prime_decomposition_odd n h3 hodd
    rw [hunf]
    exact (is_prime_rounds_prime n hn s rn hs hsr (iters - 1) tape).1 rest
  · have : n = 3 := by omega
    subst this
    have := is_prime_three iters tape
    norm_num at this ⊢
    rw [this]
    simp

theorem is_prime_rounds_prime_leading (n : Nat) (hn : n.Prime) (h3 : 3 < n) (s rn : Nat)
    (hs : 1 ≤ s) (hsr : 2 ^ s * rn = n - 1) (rest : List Nat) :
    ∀ ws : List Nat, (∀ w ∈ ws, 2 ≤ w ∧ w ≤ n - 2) →
      is_prime_rounds n ((n : Int) - 1) rn s ws.length (ws ++ rest) = some (true, rest) := by
  intro ws
  induction ws with
  | nil => intro _; rfl
  | cons x t ih =>
    intro hws
    rw [List.length_cons, List.cons_append,
      is_prime_rounds_cons n s rn t.length x (t ++ rest) h3 (hws x (List.mem_cons_self _ _))]
    have hnf := (is_prime_rounds_prime n hn s rn hs hsr (t.length + 1) (x :: (t ++ rest))).1
      (t ++ rest)
    rw [is_prime_rounds_cons n s rn t.length x (t ++ rest) h3
      (hws x (List.mem_cons_self _ _))] at hnf
    by_cases hpass : is_prime_round_passes n s rn x
    · rw [if_pos hpass]
      exact ih fun w hw => hws w (List.mem_cons_of_mem _ hw)
    · rw [if_neg hpass] at hnf
      exact absurd rfl hnf

/-- On a prime `n > 3`, `is_prime` returns true after `iters - 1` witnesses in
`[2, n - 2]`, and leaves the rest of the tape. -/
theorem is_prime_prime_leading (n : Nat) (hn : n.Prime) (h3 : 3 < n) (iters : Nat)
    (ws rest : List Nat) (hws : ∀ w ∈ ws, 2 ≤ w ∧ w ≤ n - 2) (hlen : ws.length = iters - 1) :
    is_prime (n : Int) iters (ws ++ rest) = some (true, rest) := by
  have hodd : n % 2 = 1 := by
    rcases hn.eq_two_or_odd with h | h
    · omega
    · exact h
  obtain ⟨s, rn, hs, hsr, -, hunf⟩ := is_prime_decomposition_odd n h3 hodd
  rw [hunf, ← hlen]
  exact is_prime_rounds_prime_leading n hn h3 s rn hs hsr rest ws hws

theorem spec_make_prime_unfiltered_cons (bits iters x : Nat) (tape : List Nat) (c : Int)
    (hsize : mpz_sizeinbase2 ((x % 2 ^ bits : Nat) : Int) = bits)
    (hc : (if ((x % 2 ^ bits : Nat) : Int) % 2 = 0 then ((x % 2 ^ bits : Nat) : Int) + 1
      else ((x % 2 ^ bits : Nat) : Int)) = c)
    (hnf : ∀ rest, is_prime c iters tape ≠ some (false, rest)) :
    spec_make_prime_unfiltered bits iters (x :: tape)
      = (is_prime c iters tape).map fun bt => (c, bt.2) := by
  rw [spec_make_prime_unfiltered]
  dsimp only
  rw [if_pos hsize, hc]
  split
  · rename_i heq; rw [heq]; rfl
  · rename_i t1 heq; rw [heq]; rfl
  · rename_i t1 heq; exact absurd heq (hnf t1)

theorem make_prime_cons (bits iters x : Nat) (tape : List Nat) (c : Int)
    (hsize : mpz_sizeinbase2 ((x % 2 ^ bits : Nat) : Int) = bits)
    (hc : (if ((x % 2 ^ bits : Nat) : Int) % 2 = 0 then ((x % 2 ^ bits : Nat) : Int) + 1
      else ((x % 2 ^ bits : Nat) : Int)) = c)
    (hcont : make_prime_cont c = false)
    (hnf : ∀ rest, is_prime c iters tape ≠ some (false, rest)) :
    make_prime bits iters (x :: tape) = (is_prime c iters tape).map fun bt => (c, bt.2) := by
  rcases hp : is_prime c iters tape with _ | ⟨b, t1⟩
  · rw [make_prime_cons_none bits iters x tape c hsize hc hcont hp]; rfl
  · cases b
    · exact absurd hp (hnf t1)
    · rw [make_prime_cons_true bits iters x tape t1 c hsize hc hcont hp]; rfl

/-- On a composite candidate the two loops can differ: with `iters = 1` no round of
`is_prime` runs, and the candidate 9 is returned once the trial division is left out. -/
theorem spec_make_prime_unfiltered_nine :
    spec_make_prime_unfiltered 4 1 [9] = some (9, []) ∧ make_prime 4 1 [9] = none := by
  have hx : (9 % 2 ^ 4 : Nat) = 9 := by norm_num
  have hs : mpz_sizeinbase2 ((9 % 2 ^ 4 : Nat) : Int) = 4 := by
    rw [hx]; exact sizeinbase2_eq 9 3 (by norm_num) (by norm_num)
  constructor
  · rw [spec_make_prime_unfiltered_cons 4 1 9 [] 9 hs (by rw [hx]; norm_num)
      (by intro rest; rw [is_prime_iters_one 9 (by decide) (by decide)]; simp),
      is_prime_iters_one 9 (by decide) (by decide)]
    rfl
  · rw [make_prime_cons_cont 4 1 9 [] hs (by rw [hx]; decide), make_prime]

theorem make_prime_replicate_short (bits iters w : Nat)
    (hsize : mpz_sizeinbase2 ((w % 2 ^ bits : Nat) : Int) ≠ bits) (k : Nat) :
    make_prime bits iters (List.replicate k w) = none := by
  induction k with
  | zero => rw [List.replicate_zero, make_prime]
  | succ k ih => rw [List.replicate_succ, make_prime_cons_skip bits iters w _ hsize, ih]

/-- The base 7 is a strong liar for 25: the loop without the trial division returns the
composite 25 when the generator gives 7 for every witness, while `make_prime` sets 25
aside. -/
theorem spec_make_prime_unfiltered_liar :
    spec_make_prime_unfiltered 5 50 (25 :: List.replicate 49 7) = some (25, []) ∧
    make_prime 5 50 (25 :: List.replicate 49 7) = none := by
  have hx : (25 % 2 ^ 5 : Nat) = 25 := by norm_num
  have hs : mpz_sizeinbase2 ((25 % 2 ^ 5 : Nat) : Int) = 5 := by
    rw [hx]; exact sizeinbase2_eq 25 4 (by norm_num) (by norm_num)
  have hws : ∀ w ∈ List.replicate 49 7, 2 ≤ w ∧ w ≤ 25 - 2 := by
    intro w hw
    rw [List.eq_of_mem_replicate hw]
    norm_num
  have hpass : ∀ a ∈ (List.replicate 49 7).take 49, is_prime_round_passes 25 3 3 a := by
    intro a ha
    rw [List.eq_of_mem_replicate (List.mem_of_mem_take ha)]
    decide
  have hprime : is_prime ((25 : Nat) : Int) 50 (List.replicate 49 7) = some (true, []) := by
    rw [is_prime_unfold_decomposition 25 3 3 (by norm_num) (by norm_num) (by norm_num)]
    have h := (is_prime_rounds_true_iff 25 3 3 (by norm_num) 49 (List.replicate 49 7) hws
      (by simp)).mpr hpass
    rw [h]
    simp
  constructor
  · rw [spec_make_prime_unfiltered_cons 5 50 25 _ ((25 : Nat) : Int) hs (by rw [hx]; norm_num)
      (by intro rest; rw [hprime]; simp), hprime]
    rfl
  · rw [make_prime_cons_cont 5 50 25 _ hs (by rw [hx]; decide)]
    exact make_prime_replicate_short 5 50 7
      (by
        have h7 : mpz_sizeinbase2 ((7 : Nat) : Int) = 3 :=
          sizeinbase2_eq 7 2 (by norm_num) (by norm_num)
        have hx7 : (7 % 2 ^ 5 : Nat) = 7 := by norm_num
        rw [hx7, h7]; norm_num) 49

/-! ## rsa_make_pub: the sizes of the primes, and equal primes -/

theorem rsa_make_pub_pbits_spec (lower upper : Nat) (rtape : List Nat) :
    ∀ (pbits : Nat) (rtape1 : List Nat),
      rsa_make_pub_pbits lower upper rtape = some (pbits, rtape1) →
      lower ≤ pbits ∧ (0 < upper → pbits < upper) ∧ pbits < 2 ^ 31 ∧
      ∃ x ∈ rtape, pbits = (x % 2 ^ 31) % upper := by
  induction rtape with
  | nil => intro pbits rtape1 h; simp [rsa_make_pub_pbits] at h
  | cons x t ih =>
    intro pbits rtape1 h
    simp only [rsa_make_pub_pbits] at h
    split_ifs at h with hlt
    · obtain ⟨h1, h2, h3, y, hy, h4⟩ := ih pbits rtape1 h
      exact ⟨h1, h2, h3, y, List.mem_cons_of_mem _ hy, h4⟩
    · simp only [Option.some.injEq, Prod.mk.injEq] at h
      rw [← h.1]
      refine ⟨by omega, fun hu => Nat.mod_lt _ hu, ?_, x, List.mem_cons_self _ _, rfl⟩
      exact lt_of_le_of_lt (Nat.mod_le _ _) (Nat.mod_lt _ (by norm_num))

/-- The `lambda` that `rsa_make_pub` and `rsa_make_priv` compute for `q = p`. -/
theorem rsa_lambda_equal_primes (p : Nat) (hp : 2 ≤ p) :
    ((((p : Int) - 1) * ((p : Int) - 1)).fdiv (gcd ((p : Int) - 1) ((p : Int) - 1)))
      = (p : Int) - 1 := by
  have e1 : (p : Int) - 1 = ((p - 1 : Nat) : Int) := by omega
  rw [e1, gcd_natCast, Nat.gcd_self, Int.fdiv_eq_ediv _ (Int.natCast_nonneg _)]
  exact Int.mul_ediv_cancel _ (by omega)

theorem rsa_make_priv_equal_primes (p e : Nat) (hp : 3 ≤ p) (hcop : Nat.gcd e (p - 1) = 1) :
    ∃ d : Nat, rsa_make_priv (e : Int) (p : Int) (p : Int) = (d : Int) ∧ 1 ≤ d ∧ d < p - 1 ∧
      e * d % (p - 1) = 1 := by
  rw [rsa_make_priv_natCast e p p (by omega) (by omega), Nat.lcm_self]
  obtain ⟨d, h1, h2, h3⟩ := mod_inverse_natCast e (p - 1) (by omega) hcop
  refine ⟨d, h1, ?_, h2, h3⟩
  rcases Nat.eq_zero_or_pos d with h0 | h0
  · rw [h0] at h3; simp at h3
  · exact h0

theorem rsa_encrypt_prime_square (p e : Nat) (hp : 2 ≤ p) (he : 2 ≤ e) :
    rsa_encrypt (p : Int) (e : Int) ((p : Int) * (p : Int)) = 0 := by
  unfold rsa_encrypt
  have h := pow_mod_natCast p e (p * p) (Or.inr (by omega))
  push_cast at h
  rw [h]
  have hd : p * p ∣ p ^ e := by
    rw [← pow_two]
    exact pow_dvd_pow p he
  exact_mod_cast Nat.mod_eq_zero_of_dvd hd

theorem rsa_decrypt_zero (d : Nat) (hd : 1 ≤ d) (n : Int) : rsa_decrypt 0 (d : Int) n = 0 := by
  unfold rsa_decrypt
  rw [pow_mod_pos 0 n d (by omega), zero_pow (by omega)]
  simp

/-- The function `make_prime` on a draw of the prime 16777259 followed by `iters - 1`
witnesses. -/
theorem make_prime_25_rounds (iters : Nat) (ws rest : List Nat)
    (hws : ∀ w ∈ ws, 2 ≤ w ∧ w ≤ 16777259 - 2) (hlen : ws.length = iters - 1) :
    make_prime 25 iters (16777259 :: (ws ++ rest)) = some (16777259, rest) := by
  have hx : (16777259 % 2 ^ 25 : Nat) = 16777259 := by norm_num
  have hprime : Nat.Prime 16777259 := by norm_num
  refine make_prime_cons_true 25 iters 16777259 (ws ++ rest) rest ((16777259 : Nat) : Int) ?_ ?_
    (make_prime_cont_prime 16777259 hprime)
    (is_prime_prime_leading 16777259 hprime (by norm_num) iters ws rest hws hlen)
  · rw [hx]; exact sizeinbase2_eq 16777259 24 (by norm_num) (by norm_num)
  · rw [hx]; norm_num

/-- A run of `rsa_make_pub (50, 50)` that returns `p = q`: `random` gives 25, and the
generator gives 16777259 and 49 witnesses 2 to each call of `make_prime`. -/
theorem rsa_make_pub_run_equal_primes :
    rsa_make_pub 50 50 [25]
      (16777259 :: (List.replicate 49 2 ++
        (16777259 :: (List.replicate 49 2 ++ [562949953421313]))))
      = some ((16777259, 16777259, 16777259 * 16777259, 562949953421313), [], []) := by
  have hws : ∀ w ∈ List.replicate 49 2, 2 ≤ w ∧ w ≤ 16777259 - 2 := by
    intro w hw
    rw [List.eq_of_mem_replicate hw]
    norm_num
  refine rsa_make_pub_eq 50 50 [25] _ [] _ _ [] 25 16777259 16777259 562949953421313
    (by norm_num) (by decide) (make_prime_25_rounds 50 _ _ hws (by simp))
    (make_prime_25_rounds 50 _ _ hws (by simp)) ?_
  have hlam : (((16777259 : Int) - 1) * (16777259 - 1)).fdiv (gcd (16777259 - 1) (16777259 - 1))
      = ((16777258 : Nat) : Int) := by
    have e1 : (16777259 : Int) - 1 = ((16777258 : Nat) : Int) := by norm_num
    rw [e1, gcd_natCast, Int.fdiv_eq_ediv _ (Int.natCast_nonneg _)]
    norm_num
  rw [hlam]
  have hx : (562949953421313 % 2 ^ 50 : Nat) = 562949953421313 := by norm_num
  have hs : mpz_sizeinbase2 ((562949953421313 : Nat) : Int) = 50 :=
    sizeinbase2_eq 562949953421313 49 (by norm_num) (by norm_num)
  have hg : gcd ((562949953421313 : Nat) : Int) ((16777258 : Nat) : Int) = 1 := by
    rw [gcd_natCast]; norm_num
  simp only [rsa_make_pub_e, hx, hs, hg, if_true]
  rfl

/-! ## rsa_verify on an altered key -/

/-- The signature of `m` under a generated key pair, as a natural number: `m ^ d mod n`
for the `d` that `rsa_make_priv` returns, with `x ^ (e * d) = x` modulo `n` for every `x`. -/
theorem rsa_sign_natCast (p q e m : Nat) (hp : p.Prime) (hq : q.Prime) (hpq : p ≠ q)
    (hcop : Nat.gcd e ((p - 1) * (q - 1) / Nat.gcd (p - 1) (q - 1)) = 1) :
    ∃ d : Nat, 0 < d ∧ (∀ x : Nat, x ^ (e * d) ≡ x [MOD p * q]) ∧
      rsa_sign (m : Int) (rsa_make_priv (e : Int) (p : Int) (q : Int)) ((p : Int) * (q : Int))
        = ((m ^ d % (p * q) : Nat) : Int) := by
  obtain ⟨d, hd, hdpos, hkey⟩ := rsa_key_exists p q e hp hq hpq hcop
  have hn := one_lt_mul_primes p q hp hq
  have hcast : (p : Int) * (q : Int) = ((p * q : Nat) : Int) := by push_cast; rfl
  refine ⟨d, hdpos, hkey, ?_⟩
  rw [hd, hcast, rsa_sign, pow_mod_natCast m d (p * q) (Or.inl hn)]

/-- With the modulus `n` of the key pair, the exponent `e1` verifies the signature of
`m` exactly when `m ^ e1` and `m ^ e` are equal modulo `n`. -/
theorem rsa_verify_exponent_iff (p q e m : Nat) (hp : p.Prime) (hq : q.Prime) (hpq : p ≠ q)
    (hcop : Nat.gcd e ((p - 1) * (q - 1) / Nat.gcd (p - 1) (q - 1)) = 1)
    (hmn : m < p * q) (e1 : Nat) :
    rsa_verify (m : Int)
      (rsa_sign (m : Int) (rsa_make_priv (e : Int) (p : Int) (q : Int)) ((p : Int) * (q : Int)))
      (e1 : Int) ((p : Int) * (q : Int)) = true ↔
    m ^ e1 % (p * q) = m ^ e % (p * q) := by
  obtain ⟨d, hdpos, hkey, hs⟩ := rsa_sign_natCast p q e m hp hq hpq hcop
  have hn := one_lt_mul_primes p q hp hq
  have hcast : (p : Int) * (q : Int) = ((p * q : Nat) : Int) := by push_cast; rfl
  rw [rsa_verify_iff, hs, hcast, pow_mod_natCast _ e1 (p * q) (Or.inl hn), Nat.cast_inj,
    ← Nat.pow_mod, ← pow_mul]
  have hmm : m % (p * q) = m := Nat.mod_eq_of_lt hmn
  constructor
  · intro h
    have h1 : m ^ (d * e1) ≡ m [MOD p * q] := by
      rw [Nat.ModEq, h, hmm]
    have h2 : (m ^ (d * e1)) ^ e ≡ m ^ e [MOD p * q] := h1.pow e
    have h3 : (m ^ e1) ^ (e * d) ≡ m ^ e1 [MOD p * q] := hkey (m ^ e1)
    have h4 : (m ^ (d * e1)) ^ e = (m ^ e1) ^ (e * d) := by
      rw [← pow_mul, ← pow_mul]; congr 1; ring
    rw [h4] at h2
    exact (h3.symm.trans h2)
  · intro h
    have h1 : m ^ e1 ≡ m ^ e [MOD p * q] := h
    have h2 : (m ^ e1) ^ d ≡ (m ^ e) ^ d [MOD p * q] := h1.pow d
    have h3 : (m ^ e) ^ d ≡ m [MOD p * q] := by
      rw [← pow_mul]; exact hkey m
    have h4 : m ^ (d * e1) = (m ^ e1) ^ d := by
      rw [← pow_mul, mul_comm]
    rw [h4]
    have := h2.trans h3
    rw [Nat.ModEq, hmm] at this
    exact this

/-- With the exponent `e` of the key pair, a modulus `n1` that divides `n` verifies the
signature of `m` exactly when `m < n1`. -/
theorem rsa_verify_divisor_iff (p q e m : Nat) (hp : p.Prime) (hq : q.Prime) (hpq : p ≠ q)
    (he : 1 ≤ e) (hcop : Nat.gcd e ((p - 1) * (q - 1) / Nat.gcd (p - 1) (q - 1)) = 1)
    (n1 : Nat) (hdvd : n1 ∣ p * q) :
    rsa_verify (m : Int)
      (rsa_sign (m : Int) (rsa_make_priv (e : Int) (p : Int) (q : Int)) ((p : Int) * (q : Int)))
      (e : Int) (n1 : Int) = true ↔ m < n1 := by
  obtain ⟨d, hdpos, hkey, hs⟩ := rsa_sign_natCast p q e m hp hq hpq hcop
  have hn := one_lt_mul_primes p q hp hq
  have hn1 : n1 ≠ 0 := by
    rintro rfl
    rw [zero_dvd_iff] at hdvd
    omega
  rw [rsa_verify_iff, hs, pow_mod_natCast _ e n1 (Or.inr (by omega)), Nat.cast_inj]
  have h1 : (m ^ d % (p * q)) ^ e ≡ m [MOD p * q] := by
    have : (m ^ d % (p * q)) ^ e ≡ (m ^ d) ^ e [MOD p * q] := (Nat.mod_modEq _ _).pow e
    refine this.trans ?_
    rw [← pow_mul, mul_comm d e]
    exact hkey m
  have h2 : (m ^ d % (p * q)) ^ e % n1 = m % n1 := (Nat.ModEq.of_dvd hdvd h1)
  rw [h2]
  exact Nat.mod_eq_iff_lt hn1

/-- An exponent that is not positive leaves `pow_mod` at 1, so it verifies no `m > 1`. -/
theorem rsa_verify_nonpos_exponent (m s e1 n1 : Int) (hm : 1 < m) (he1 : e1 ≤ 0) :
    rsa_verify m s e1 n1 = false := by
  rw [← Bool.not_eq_true, rsa_verify_iff, pow_mod, pow_mod_loop_nonpos _ _ _ _ he1]
  omega

/-! ## The properties of the specification -/

/-- C1: for distinct primes p and q, n = p * q, a public exponent e >= 1 coprime to
lambda = (p-1)(q-1)/gcd(p-1, q-1) and d = rsa_make_priv(e, p, q), every message m with
1 < m < n satisfies rsa_decrypt(rsa_encrypt(m, e, n), d, n) = m. -/
theorem rsa_key_pair_round_trip (p q e m : Nat) (hp : p.Prime) (hq : q.Prime) (hpq : p ≠ q)
    (he : 1 ≤ e) (hcop : Nat.gcd e ((p - 1) * (q - 1) / Nat.gcd (p - 1) (q - 1)) = 1)
    (hm1 : 1 < m) (hmn : m < p * q) :
    rsa_decrypt (rsa_encrypt (m : Int) (e : Int) ((p : Int) * (q : Int)))
      (rsa_make_priv (e : Int) (p : Int) (q : Int)) ((p : Int) * (q : Int)) = (m : Int) := by
  obtain ⟨d, hd, -, hkey⟩ := rsa_key_exists p q e hp hq hpq hcop
  have hn := one_lt_mul_primes p q hp hq
  have hcast : (p : Int) * (q : Int) = ((p * q : Nat) : Int) := by push_cast; rfl
  rw [hd, hcast, rsa_encrypt, rsa_decrypt, pow_mod_natCast m e (p * q) (Or.inl hn),
    pow_mod_natCast _ d (p * q) (Or.inl hn)]
  congr 1
  rw [← Nat.pow_mod, ← pow_mul]
  have hmod := hkey m
  rw [Nat.ModEq, Nat.mod_eq_of_lt hmn] at hmod
  exact hmod

theorem rsa_key_pair_round_trip_witness :
    rsa_decrypt (rsa_encrypt 2 5 (17 * 19)) (rsa_make_priv 5 17 19) (17 * 19) = 2 := by
  exact_mod_cast rsa_key_pair_round_trip 17 19 5 2 (by norm_num) (by norm_num) (by decide)
    (by decide) (by decide) (by decide) (by decide)

/-- C2 (amended): for a matching key pair whose block size k is at least 2 and a
non-empty input, rsa_decrypt_file on the lines written by rsa_encrypt_file writes
exactly the input bytes. -/
theorem rsa_stream_round_trip (p q e : Nat) (hp : p.Prime) (hq : q.Prime) (hpq : p ≠ q)
    (he : 1 ≤ e) (hcop : Nat.gcd e ((p - 1) * (q - 1) / Nat.gcd (p - 1) (q - 1)) = 1)
    (hk : 2 ≤ rsa_block_size ((p : Int) * (q : Int)))
    (input : List Nat) (hb : ∀ b ∈ input, b < 256) (hne : input ≠ []) :
    ∃ lines : List Int,
      rsa_encrypt_file input ((p : Int) * (q : Int)) (e : Int) = some lines ∧
      rsa_decrypt_file lines ((p : Int) * (q : Int))
        (rsa_make_priv (e : Int) (p : Int) (q : Int)) = some input := by
  have hcast : (p : Int) * (q : Int) = ((p * q : Nat) : Int) := by push_cast; rfl
  have hcap : 256 ^ rsa_block_size ((p : Int) * (q : Int)) ≤ p * q := by
    rw [hcast]
    exact block_capacity_le (p * q) (one_lt_mul_primes p q hp hq).le
  have hloop := rsa_stream_loop_round_trip p q e _ hp hq hpq hcop hcap hk
    (rsa_block_size_lt _) input.length input false 0 rfl hb (by simp)
  refine ⟨rsa_encrypt_file_loop (rsa_block_size ((p : Int) * (q : Int))) ((p : Int) * (q : Int))
    (e : Int) input false, ?_, ?_⟩
  · unfold rsa_encrypt_file
    simp only []
    rw [if_neg (by omega)]
  · unfold rsa_decrypt_file
    simp only []
    cases hemp : (rsa_encrypt_file_loop (rsa_block_size ((p : Int) * (q : Int)))
        ((p : Int) * (q : Int)) (e : Int) input false).isEmpty with
    | true =>
      rw [hemp] at hloop
      simp only [rsa_decrypt_file_loop, Option.some.injEq] at hloop
      exact absurd hloop.symm hne
    | false =>
      rw [hemp] at hloop
      exact hloop

theorem rsa_stream_round_trip_witness :
    ∃ lines : List Int,
      rsa_encrypt_file [65, 0, 66] (257 * 263) 3 = some lines ∧
      rsa_decrypt_file lines (257 * 263) (rsa_make_priv 3 257 263) = some [65, 0, 66] := by
  have hk : 2 ≤ rsa_block_size (((257 : Nat) : Int) * ((263 : Nat) : Int)) := by
    have h : mpz_sizeinbase2 (((257 * 263 : Nat)) : Int) = 16 + 1 :=
      sizeinbase2_eq (257 * 263) 16 (by norm_num) (by norm_num)
    have hc : ((257 : Nat) : Int) * ((263 : Nat) : Int) = (((257 * 263 : Nat)) : Int) := by
      norm_num
    rw [hc, rsa_block_size, h]
    norm_num
  exact_mod_cast rsa_stream_round_trip 257 263 3 (by norm_num) (by norm_num) (by decide)
    (by decide) (by decide) hk [65, 0, 66] (by decide) (by decide)

/-- C2 (counterexample): with the key pair of p = 17, q = 19, e = 5 the block size is 1,
rsa_encrypt_file reads 0 bytes and writes no line for the one-byte input [65], so the
byte is lost; with the key pair of p = 257, q = 263, e = 3 (block size 2) and the empty
input, rsa_encrypt_file writes no line, and rsa_decrypt_file on no line still runs its
loop body once with c = 0, exports j = 0 bytes and asks fwrite for 2 ^ 64 - 1 bytes from
block + 1 (the result none) instead of writing nothing. -/
theorem rsa_stream_round_trip_fails :
    (Nat.Prime 17 ∧ Nat.Prime 19 ∧
      Nat.gcd 5 ((17 - 1) * (19 - 1) / Nat.gcd (17 - 1) (19 - 1)) = 1 ∧
      rsa_block_size (17 * 19) = 1 ∧ rsa_encrypt_file [65] (17 * 19) 5 = some [] ∧
      rsa_decrypt_file [] (17 * 19) (rsa_make_priv 5 17 19) = none) ∧
    (Nat.Prime 257 ∧ Nat.Prime 263 ∧
      Nat.gcd 3 ((257 - 1) * (263 - 1) / Nat.gcd (257 - 1) (263 - 1)) = 1 ∧
      rsa_block_size (257 * 263) = 2 ∧
      rsa_encrypt_file [] (257 * 263) 3 = some [] ∧
      rsa_decrypt_file [] (257 * 263) (rsa_make_priv 3 257 263) = none) := by
  have hs1 : rsa_block_size (17 * 19) = 1 := by
    have h : mpz_sizeinbase2 (((17 * 19 : Nat)) : Int) = 8 + 1 :=
      sizeinbase2_eq (17 * 19) 8 (by norm_num) (by norm_num)
    have hc : ((17 : Int) * 19) = (((17 * 19 : Nat)) : Int) := by norm_num
    rw [hc, rsa_block_size, h]
    norm_num
  have hs2 : rsa_block_size (257 * 263) = 2 := by
    have h : mpz_sizeinbase2 (((257 * 263 : Nat)) : Int) = 16 + 1 :=
      sizeinbase2_eq (257 * 263) 16 (by norm_num) (by norm_num)
    have hc : ((257 : Int) * 263) = (((257 * 263 : Nat)) : Int) := by norm_num
    rw [hc, rsa_block_size, h]
    norm_num
  obtain ⟨d1, hd1, hd1pos, -⟩ := rsa_key_exists 17 19 5 (by norm_num) (by norm_num)
    (by decide) (by decide)
  obtain ⟨d2, hd2, hd2pos, -⟩ := rsa_key_exists 257 263 3 (by norm_num) (by norm_num)
    (by decide) (by decide)
  have hd1' : rsa_make_priv 5 17 19 = (d1 : Int) := by exact_mod_cast hd1
  have hd2' : rsa_make_priv 3 257 263 = (d2 : Int) := by exact_mod_cast hd2
  refine ⟨⟨by norm_num, by norm_num, by decide, hs1, ?_, ?_⟩,
    ⟨by norm_num, by norm_num, by decide, hs2, ?_, ?_⟩⟩
  · unfold rsa_encrypt_file
    simp only [hs1]
    rw [rsa_encrypt_file_loop_eq]
    simp
  · rw [hd1', rsa_decrypt_file_nil _ d1 hd1pos]
  · unfold rsa_encrypt_file
    simp only [hs2]
    rw [rsa_encrypt_file_loop_eq]
    simp
  · rw [hd2', rsa_decrypt_file_nil _ d2 hd2pos]

/-- C3: at the modulus 1 and the exponent 0 the loop of pow_mod never runs and the
output is the initial 1, while a ^ 0 mod 1 is 0. -/
theorem pow_mod_exponent_zero_modulus_one (a : Int) :
    pow_mod a 0 1 = 1 ∧ a ^ 0 % 1 = 0 := by
  refine ⟨pow_mod_zero a 1, ?_⟩
  simp

/-- C4: for n > 1 and a non-negative a with gcd(a, n) = 1, a may exceed n, the output o
of mod_inverse(a, n) satisfies (a * o) mod n = 1. -/
theorem mod_inverse_mul_mod (a n : Nat) (hn : 1 < n) (hg : Nat.gcd a n = 1) :
    ((a : Int) * mod_inverse (a : Int) (n : Int)) % (n : Int) = 1 := by
  have hg2 : Int.gcd (n : Int) (a : Int) = 1 := by
    rw [Int.gcd_natCast_natCast, Nat.gcd_comm]; exact hg
  exact (mod_inverse_coprime (a : Int) (n : Int) (by exact_mod_cast hn)
    (Int.natCast_nonneg _) hg2).2.2

theorem mod_inverse_mul_mod_witness : ((7 : Int) * mod_inverse 7 5) % 5 = 1 := by
  exact_mod_cast mod_inverse_mul_mod 7 5 (by decide) (by decide)

/-- C5: for n > 1 and a non-negative a, mod_inverse(a, n) is 0 exactly when
gcd(a, n) > 1, that is when a has no inverse modulo n. -/
theorem mod_inverse_eq_zero_iff (a n : Nat) (hn : 1 < n) :
    mod_inverse (a : Int) (n : Int) = 0 ↔ 1 < Nat.gcd a n := by
  constructor
  · intro h0
    by_contra hle
    have hpos : 0 < Nat.gcd a n := Nat.gcd_pos_of_pos_right a (by omega)
    have hg : Nat.gcd a n = 1 := by omega
    obtain ⟨d, hd, -, hmul⟩ := mod_inverse_natCast a n hn hg
    rw [h0] at hd
    have hd0 : d = 0 := by exact_mod_cast hd.symm
    rw [hd0, mul_zero, Nat.zero_mod] at hmul
    exact absurd hmul (by norm_num)
  · intro hg
    have hg2 : 1 < Int.gcd (n : Int) (a : Int) := by
      rw [Int.gcd_natCast_natCast, Nat.gcd_comm]; exact hg
    exact mod_inverse_not_coprime (a : Int) (n : Int) (by exact_mod_cast hn)
      (Int.natCast_nonneg _) hg2

theorem mod_inverse_eq_zero_iff_witness :
    (mod_inverse 4 6 = 0 ↔ 1 < Nat.gcd 4 6) ∧ (mod_inverse 7 5 = 0 ↔ 1 < Nat.gcd 7 5) :=
  ⟨by exact_mod_cast mod_inverse_eq_zero_iff 4 6 (by decide),
   by exact_mod_cast mod_inverse_eq_zero_iff 7 5 (by decide)⟩

/-- C6: on non-negative a and b, gcd is total, its output is the greatest common
divisor (non-negative, with the same divisors as the common divisors of a and b),
gcd(a, 0) = a, and one loop step keeps the value: gcd(a, b) = gcd(b, a mod b). -/
theorem gcd_is_greatest_common_divisor (a b : Nat) :
    gcd (a : Int) (b : Int) = ((Nat.gcd a b : Nat) : Int) ∧
    0 ≤ gcd (a : Int) (b : Int) ∧
    (∀ c : Int, c ∣ gcd (a : Int) (b : Int) ↔ c ∣ (a : Int) ∧ c ∣ (b : Int)) ∧
    gcd (a : Int) 0 = (a : Int) ∧
    (b ≠ 0 → gcd (a : Int) (b : Int) = gcd (b : Int) ((a : Int) % (b : Int))) := by
  refine ⟨gcd_natCast a b, ?_, ?_, gcd_zero_right _, ?_⟩
  · rw [gcd_natCast]; exact Int.natCast_nonneg _
  · intro c
    rw [gcd_natCast, ← Int.gcd_natCast_natCast]
    constructor
    · intro h
      exact ⟨h.trans (Int.gcd_dvd_left), h.trans (Int.gcd_dvd_right)⟩
    · rintro ⟨h1, h2⟩
      exact Int.dvd_gcd h1 h2
  · intro hb
    exact gcd_step _ _ (by exact_mod_cast hb)

/-- C7: for a prime n > 3 and any iteration count, is_prime never returns false,
whatever is drawn; and when the tape holds at least iters - 1 witnesses, each in
[2, n - 2], is_prime(n, iters) returns true after taking iters - 1 of them. -/
theorem is_prime_no_false_negative (n : Nat) (hn : n.Prime) (h3 : 3 < n) (iters : Nat) :
    (∀ tape rest : List Nat, is_prime (n : Int) iters tape ≠ some (false, rest)) ∧
    (∀ ws : List Nat, (∀ w ∈ ws, 2 ≤ w ∧ w ≤ n - 2) → iters - 1 ≤ ws.length →
      is_prime (n : Int) iters ws = some (true, ws.drop (iters - 1))) := by
  have hstart : (n : Int) - 1 ≠ 0 := by omega
  obtain ⟨rn, hr, hsr, -, ht1⟩ := is_prime_decomposition n (by omega) hstart
  have hs : 1 ≤ is_prime_find_s ((n : Int) - 1) hstart 0 - 1 := by
    by_contra hlt
    have h0 : is_prime_find_s ((n : Int) - 1) hstart 0 - 1 = 0 := by omega
    rw [h0, pow_zero, one_mul] at hsr
    have hodd : n % 2 = 1 := by
      rcases hn.eq_two_or_odd with h | h
      · omega
      · exact h
    obtain ⟨-, -, hnd⟩ := is_prime_find_s_spec ((n : Int) - 1) hstart _ 0 rfl
    have h1 : is_prime_find_s ((n : Int) - 1) hstart 0 = 1 := by omega
    rw [h1] at hnd
    apply hnd
    rw [pow_one]
    omega
  have hunf : ∀ tape, is_prime (n : Int) iters tape
      = is_prime_rounds n ((n : Int) - 1) rn
          (is_prime_find_s ((n : Int) - 1) hstart 0 - 1) (iters - 1) tape := by
    intro tape
    rw [is_prime_unfold (n : Int) (by omega) (by omega) hstart, hr]
  constructor
  · intro tape rest
    rw [hunf]
    exact (is_prime_rounds_prime n hn _ rn hs hsr (iters - 1) tape).1 rest
  · intro ws hws hlen
    rw [hunf]
    exact (is_prime_rounds_prime n hn _ rn hs hsr (iters - 1) ws).2 hws hlen

theorem is_prime_no_false_negative_witness :
    (∀ tape rest : List Nat, is_prime 13 5 tape ≠ some (false, rest)) ∧
    is_prime 13 5 [2, 11, 7, 5, 9] = some (true, [9]) :=
  ⟨(is_prime_no_false_negative 13 (by norm_num) (by decide) 5).1,
   (is_prime_no_false_negative 13 (by norm_num) (by decide) 5).2 [2, 11, 7, 5, 9]
     (by decide) (by decide)⟩

/-- C8: on n = 2 with two or more iterations, is_prime never returns: start is 1,
mpz_urandomm (rand, state, 1) is always 0, and the witness loop waits for rand > 1.
Only with iters <= 1, where no round runs, does is_prime(2, iters) return true. -/
theorem is_prime_two_never_returns (k : Nat) (tape : List Nat) :
    is_prime 2 (k + 2) tape = none ∧
    is_prime 2 1 tape = some (true, tape) ∧ is_prime 2 0 tape = some (true, tape) := by
  have h1 : ((2 : Int) - 1) = 1 := by norm_num
  refine ⟨?_, ?_, ?_⟩
  · rw [is_prime_unfold 2 (by decide) (by decide) (by decide)]
    show is_prime_rounds 2 (2 - 1) _ _ (k + 1) tape = none
    simp only [is_prime_rounds, h1, is_prime_draw_one]
  · rw [is_prime_unfold 2 (by decide) (by decide) (by decide)]
    rfl
  · rw [is_prime_unfold 2 (by decide) (by decide) (by decide)]
    rfl

/-- C9: when make_prime(bits, iters) returns p, p has exactly bits bits, p is odd and
the call is_prime(p, iters) made on it returned true (p was not set aside by the trial
division either); and adding 1 to an even value never changes its number of bits. -/
theorem make_prime_returns (bits iters : Nat) (tape : List Nat) (p : Int) (rest : List Nat)
    (h : make_prime bits iters tape = some (p, rest)) :
    mpz_sizeinbase2 p = bits ∧ p % 2 = 1 ∧
    (∃ t : List Nat, is_prime p iters t = some (true, rest)) ∧
    (∀ x : Nat, x % 2 = 0 → mpz_sizeinbase2 ((x : Int) + 1) = mpz_sizeinbase2 (x : Int)) := by
  obtain ⟨h1, h2, -, h4⟩ := make_prime_spec bits iters tape p rest h
  exact ⟨h1, h2, h4, sizeinbase2_succ_of_even⟩

set_option maxRecDepth 100000 in
theorem make_prime_returns_witness :
    make_prime 3 3 [9, 4, 2, 3, 8] = some (5, [8]) ∧ mpz_sizeinbase2 5 = 3 ∧
      (5 : Int) % 2 = 1 := by
  have hs : mpz_sizeinbase2 (((4 % 2 ^ 3 : Nat)) : Int) = 3 :=
    sizeinbase2_eq 4 2 (by norm_num) (by norm_num)
  have hs1 : mpz_sizeinbase2 (((9 % 2 ^ 3 : Nat)) : Int) ≠ 3 := by
    rw [show (9 % 2 ^ 3 : Nat) = 1 by norm_num, sizeinbase2_eq 1 0 (by norm_num) (by norm_num)]
    norm_num
  have hc : make_prime_cont 5 = false := by decide
  have hp : is_prime 5 3 [2, 3, 8] = some (true, [8]) := by
    rw [is_prime_unfold 5 (by decide) (by decide) (by decide)]
    have h : is_prime_find_s (5 - 1) (by decide) 0 = 3 := by
      rw [is_prime_find_s_eq, if_pos (by norm_num), is_prime_find_s_eq, if_pos (by norm_num),
        is_prime_find_s_eq, if_pos (by norm_num), is_prime_find_s_eq, if_neg (by norm_num)]
    rw [h]
    simp [is_prime_rounds, is_prime_draw, pow_mod, pow_mod_loop, is_prime_square_loop, Int.fdiv]
  have hm : make_prime 3 3 [9, 4, 2, 3, 8] = some (5, [8]) := by
    rw [make_prime_cons_skip 3 3 9 _ hs1]
    exact make_prime_cons_true 3 3 4 _ _ 5 hs (by norm_num) hc hp
  have := make_prime_returns 3 3 [9, 4, 2, 3, 8] 5 [8] hm
  exact ⟨hm, this.1, this.2.1⟩

/-- C10: for distinct primes p and q, n = p * q, e >= 1 coprime to lambda(n) and
d = rsa_make_priv(e, p, q), every message m with 0 <= m < n satisfies
rsa_verify(m, rsa_sign(m, d, n), e, n) = true. -/
theorem rsa_sign_then_verify (p q e m : Nat) (hp : p.Prime) (hq : q.Prime) (hpq : p ≠ q)
    (he : 1 ≤ e) (hcop : Nat.gcd e ((p - 1) * (q - 1) / Nat.gcd (p - 1) (q - 1)) = 1)
    (hmn : m < p * q) :
    rsa_verify (m : Int)
      (rsa_sign (m : Int) (rsa_make_priv (e : Int) (p : Int) (q : Int)) ((p : Int) * (q : Int)))
      (e : Int) ((p : Int) * (q : Int)) = true := by
  obtain ⟨d, hd, hdpos, hkey⟩ := rsa_key_exists p q e hp hq hpq hcop
  have hn := one_lt_mul_primes p q hp hq
  have hcast : (p : Int) * (q : Int) = ((p * q : Nat) : Int) := by push_cast; rfl
  rw [hd, hcast, rsa_verify, rsa_sign, pow_mod_natCast m d (p * q) (Or.inl hn),
    pow_mod_natCast _ e (p * q) (Or.inl hn)]
  have h2 : (m ^ d % (p * q)) ^ e % (p * q) = m := by
    rw [← Nat.pow_mod, ← pow_mul, mul_comm d e]
    have := hkey m
    rw [Nat.ModEq, Nat.mod_eq_of_lt hmn] at this
    exact this
  simp [h2]

theorem rsa_sign_then_verify_witness :
    rsa_verify 0 (rsa_sign 0 (rsa_make_priv 5 17 19) (17 * 19)) 5 (17 * 19) = true := by
  exact_mod_cast rsa_sign_then_verify 17 19 5 0 (by norm_num) (by norm_num) (by decide)
    (by decide) (by decide) (by decide)

/-- C11 (amended): for a key pair generated from distinct primes p and q (n = p * q,
e >= 1 coprime to lambda(n), d = rsa_make_priv(e, p, q)) and a message m with
1 < m < n, with s = rsa_sign(m, d, n).  With the modulus n, rsa_verify(m, s, e1, n) is
true exactly when m ^ e1 and m ^ e are equal modulo n, for every exponent e1 >= 0, and
false for every e1 <= 0; so every exponent e + k * lambda(n), which differs from e for
k >= 1, is accepted.  With the exponent e, for a modulus n1 that divides n,
rsa_verify(m, s, e, n1) is true exactly when m < n1; so the altered modulus p is
accepted when m < p, and q when m < q. -/
theorem rsa_verify_altered_key (p q e m : Nat) (hp : p.Prime) (hq : q.Prime) (hpq : p ≠ q)
    (he : 1 ≤ e) (hcop : Nat.gcd e ((p - 1) * (q - 1) / Nat.gcd (p - 1) (q - 1)) = 1)
    (hm1 : 1 < m) (hmn : m < p * q) :
    (∀ e1 : Nat,
      rsa_verify (m : Int)
        (rsa_sign (m : Int) (rsa_make_priv (e : Int) (p : Int) (q : Int)) ((p : Int) * (q : Int)))
        (e1 : Int) ((p : Int) * (q : Int)) = true ↔
      m ^ e1 % (p * q) = m ^ e % (p * q)) ∧
    (∀ e1 : Int, e1 ≤ 0 →
      rsa_verify (m : Int)
        (rsa_sign (m : Int) (rsa_make_priv (e : Int) (p : Int) (q : Int)) ((p : Int) * (q : Int)))
        e1 ((p : Int) * (q : Int)) = false) ∧
    (∀ k : Nat,
      rsa_verify (m : Int)
        (rsa_sign (m : Int) (rsa_make_priv (e : Int) (p : Int) (q : Int)) ((p : Int) * (q : Int)))
        ((e : Int) + (k : Int) * ((Nat.lcm (p - 1) (q - 1) : Nat) : Int))
        ((p : Int) * (q : Int)) = true) ∧
    (∀ n1 : Nat, n1 ∣ p * q →
      (rsa_verify (m : Int)
        (rsa_sign (m : Int) (rsa_make_priv (e : Int) (p : Int) (q : Int)) ((p : Int) * (q : Int)))
        (e : Int) (n1 : Int) = true ↔ m < n1)) ∧
    (m < p →
      rsa_verify (m : Int)
        (rsa_sign (m : Int) (rsa_make_priv (e : Int) (p : Int) (q : Int)) ((p : Int) * (q : Int)))
        (e : Int) (p : Int) = true) ∧
    (m < q →
      rsa_verify (m : Int)
        (rsa_sign (m : Int) (rsa_make_priv (e : Int) (p : Int) (q : Int)) ((p : Int) * (q : Int)))
        (e : Int) (q : Int) = true) := by
  refine ⟨fun e1 => rsa_verify_exponent_iff p q e m hp hq hpq hcop hmn e1,
    fun e1 he1 => rsa_verify_nonpos_exponent _ _ _ _ (by exact_mod_cast hm1) he1, ?_,
    fun n1 hdvd => rsa_verify_divisor_iff p q e m hp hq hpq he hcop n1 hdvd,
    fun h => (rsa_verify_divisor_iff p q e m hp hq hpq he hcop p (dvd_mul_right p q)).mpr h,
    fun h => (rsa_verify_divisor_iff p q e m hp hq hpq he hcop q (dvd_mul_left q p)).mpr h⟩
  intro k
  obtain ⟨d, hd, hdpos, -⟩ := rsa_key_exists p q e hp hq hpq hcop
  have hlam := one_lt_lcm_pred p q hp hq hpq
  obtain ⟨d2, hd2, -, hed⟩ := mod_inverse_natCast e (Nat.lcm (p - 1) (q - 1)) hlam hcop
  have hdd : d = d2 := by
    have := rsa_make_priv_natCast e p q hp.one_le hq.one_le
    rw [hd, hd2] at this
    exact_mod_cast this
  subst hdd
  have hn := one_lt_mul_primes p q hp hq
  have hcast : (p : Int) * (q : Int) = ((p * q : Nat) : Int) := by push_cast; rfl
  have hecast : (e : Int) + (k : Int) * ((Nat.lcm (p - 1) (q - 1) : Nat) : Int)
      = ((e + k * Nat.lcm (p - 1) (q - 1) : Nat) : Int) := by push_cast; rfl
  rw [rsa_verify_iff, hd, hcast, hecast, rsa_sign, pow_mod_natCast m d (p * q) (Or.inl hn),
    pow_mod_natCast _ _ (p * q) (Or.inl hn)]
  congr 1
  rw [← Nat.pow_mod, ← pow_mul]
  have hk : (d * (e + k * Nat.lcm (p - 1) (q - 1))) % Nat.lcm (p - 1) (q - 1) = 1 := by
    rw [mul_add, ← mul_assoc, Nat.add_mul_mod_self_right, mul_comm]
    exact hed
  have := rsa_pow_modEq p q hp hq hpq _ m hk
  rw [Nat.ModEq, Nat.mod_eq_of_lt hmn] at this
  exact this

theorem rsa_verify_altered_key_witness :
    rsa_verify 2 (rsa_sign 2 (rsa_make_priv 5 17 19) (17 * 19))
      (5 + 1 * ((Nat.lcm (17 - 1) (19 - 1) : Nat) : Int)) (17 * 19) = true ∧
    rsa_verify 2 (rsa_sign 2 (rsa_make_priv 5 17 19) (17 * 19)) 5 17 = true ∧
    rsa_verify 2 (rsa_sign 2 (rsa_make_priv 5 17 19) (17 * 19)) 7 (17 * 19) = false := by
  have h := rsa_verify_altered_key 17 19 5 2 (by norm_num) (by norm_num) (by decide)
    (by decide) (by decide) (by decide) (by decide)
  refine ⟨?_, ?_, ?_⟩
  · exact_mod_cast h.2.2.1 1
  · exact_mod_cast h.2.2.2.2.1 (by decide)
  · have h7 := h.1 7
    have hne : ¬ (2 ^ 7 % (17 * 19) = 2 ^ 5 % (17 * 19)) := by decide
    rw [← h7, Bool.not_eq_true] at hne
    exact_mod_cast hne

/-- C11 (counterexample): for p = 17, q = 19, e = 5 (d = 29) and m = 2 the signature is
s = 15; rsa_verify(2, 15, e1, 323) is true for the altered exponent e1 = 149 = e + 144
and rsa_verify(2, 15, 5, n1) is true for the altered modulus n1 = 17. -/
theorem rsa_verify_accepts_altered_key :
    rsa_make_priv 5 17 19 = 29 ∧ rsa_sign 2 29 (17 * 19) = 15 ∧
    rsa_verify 2 15 5 (17 * 19) = true ∧
    rsa_verify 2 15 149 (17 * 19) = true ∧
    rsa_verify 2 15 5 17 = true := by
  refine ⟨rsa_make_priv_5_17_19, ?_, ?_, ?_, ?_⟩
  · have := pow_mod_natCast 2 29 (17 * 19) (Or.inl (by norm_num))
    rw [rsa_sign]
    norm_num at this ⊢
    exact this
  · rw [rsa_verify_iff]
    have := pow_mod_natCast 15 5 (17 * 19) (Or.inl (by norm_num))
    norm_num at this ⊢
    exact this
  · rw [rsa_verify_iff]
    have := pow_mod_natCast 15 149 (17 * 19) (Or.inl (by norm_num))
    norm_num at this ⊢
    exact this
  · rw [rsa_verify_iff]
    have := pow_mod_natCast 15 5 17 (Or.inl (by norm_num))
    norm_num at this ⊢
    exact this

/-- C12: for p, q >= 3 and e >= 1 the lambda computed by rsa_make_priv,
(p-1)(q-1) / gcd(p-1, q-1), is lcm(p-1, q-1) and the division is exact; and when
gcd(e, lambda) = 1 the returned d satisfies 0 < d < lambda and (e * d) mod lambda = 1. -/
theorem rsa_make_priv_carmichael_inverse (p q e : Nat) (hp : 3 ≤ p) (hq : 3 ≤ q)
    (he : 1 ≤ e) :
    gcd ((p : Int) - 1) ((q : Int) - 1) ∣ ((p : Int) - 1) * ((q : Int) - 1) ∧
    (((p : Int) - 1) * ((q : Int) - 1)).fdiv (gcd ((p : Int) - 1) ((q : Int) - 1))
      = ((Nat.lcm (p - 1) (q - 1) : Nat) : Int) ∧
    (Nat.gcd e (Nat.lcm (p - 1) (q - 1)) = 1 →
      0 < rsa_make_priv (e : Int) (p : Int) (q : Int) ∧
      rsa_make_priv (e : Int) (p : Int) (q : Int) < ((Nat.lcm (p - 1) (q - 1) : Nat) : Int) ∧
      ((e : Int) * rsa_make_priv (e : Int) (p : Int) (q : Int))
        % ((Nat.lcm (p - 1) (q - 1) : Nat) : Int) = 1) := by
  have e1 : (p : Int) - 1 = ((p - 1 : Nat) : Int) := by omega
  have e2 : (q : Int) - 1 = ((q - 1 : Nat) : Int) := by omega
  refine ⟨?_, ?_, ?_⟩
  · rw [e1, e2, gcd_natCast]
    exact_mod_cast (Nat.gcd_dvd_left (p - 1) (q - 1)).mul_right (q - 1)
  · rw [e1, e2, gcd_natCast, Int.fdiv_eq_ediv _ (Int.natCast_nonneg _)]
    norm_cast
  · intro hcop
    have hlam : 1 < Nat.lcm (p - 1) (q - 1) := by
      have hpos : 0 < Nat.lcm (p - 1) (q - 1) := Nat.lcm_pos (by omega) (by omega)
      have h1 := Nat.le_of_dvd hpos (Nat.dvd_lcm_left (p - 1) (q - 1))
      omega
    obtain ⟨d, hd, hdlt, hmul⟩ := mod_inverse_natCast e (Nat.lcm (p - 1) (q - 1)) hlam hcop
    rw [rsa_make_priv_natCast e p q (by omega) (by omega), hd]
    refine ⟨?_, by exact_mod_cast hdlt, by exact_mod_cast hmul⟩
    rcases Nat.eq_zero_or_pos d with h0 | h0
    · rw [h0, mul_zero, Nat.zero_mod] at hmul
      exact absurd hmul (by norm_num)
    · exact_mod_cast h0

theorem rsa_make_priv_carmichael_inverse_witness :
    rsa_make_priv 5 17 19 < ((Nat.lcm (17 - 1) (19 - 1) : Nat) : Int) ∧
    ((5 : Int) * rsa_make_priv 5 17 19) % ((Nat.lcm (17 - 1) (19 - 1) : Nat) : Int) = 1 := by
  have h := (rsa_make_priv_carmichael_inverse 17 19 5 (by decide) (by decide) (by decide)).2.2
    (by decide)
  exact ⟨by exact_mod_cast h.2.1, by exact_mod_cast h.2.2⟩

/-- C13: whenever rsa_make_pub(nbits, iters) returns (p, q, n, e), whatever is drawn,
n = p * q, e has exactly nbits bits, and gcd(e, (p-1)(q-1) / gcd(p-1, q-1)) = 1, both
as computed by the gcd of the program and as the greatest common divisor; the gcd
value that was stored in e has been replaced by the accepted draw. -/
theorem rsa_make_pub_invariant (nbits iters : Nat) (rtape tape rtape1 tape3 : List Nat)
    (p q n e : Int)
    (h : rsa_make_pub nbits iters rtape tape = some ((p, q, n, e), rtape1, tape3)) :
    n = p * q ∧ mpz_sizeinbase2 e = nbits ∧
    gcd e (((p - 1) * (q - 1)).fdiv (gcd (p - 1) (q - 1))) = 1 ∧
    Int.gcd e (((p - 1) * (q - 1)).fdiv (gcd (p - 1) (q - 1))) = 1 := by
  obtain ⟨pbits, t1, t2, -, -, hp, hq, hn, he⟩ :=
    rsa_make_pub_inv nbits iters rtape tape rtape1 tape3 p q n e h
  obtain ⟨hsize, hgcd, x, hx⟩ := rsa_make_pub_e_spec _ _ _ _ _ he
  refine ⟨hn, hsize, hgcd, ?_⟩
  obtain ⟨v, hv⟩ := make_prime_natCast _ _ _ _ _ hp
  obtain ⟨w, hw⟩ := make_prime_natCast _ _ _ _ _ hq
  have hvodd := (make_prime_spec _ _ _ _ _ hp).2.1
  have hwodd := (make_prime_spec _ _ _ _ _ hq).2.1
  have e1 : p - 1 = ((v - 1 : Nat) : Int) := by omega
  have e2 : q - 1 = ((w - 1 : Nat) : Int) := by omega
  have hlam : ((p - 1) * (q - 1)).fdiv (gcd (p - 1) (q - 1))
      = ((Nat.lcm (v - 1) (w - 1) : Nat) : Int) := by
    rw [e1, e2, gcd_natCast, Int.fdiv_eq_ediv _ (Int.natCast_nonneg _)]
    norm_cast
  rw [hlam, hx, gcd_natCast] at hgcd
  rw [hlam, hx, Int.gcd_natCast_natCast]
  exact_mod_cast hgcd

theorem rsa_make_pub_invariant_witness :
    mpz_sizeinbase2 562949953421313 = 50 ∧
    Int.gcd 562949953421313
      ((((16777259 : Int) - 1) * (16777289 - 1)).fdiv (gcd (16777259 - 1) (16777289 - 1))) = 1 :=
  ⟨(rsa_make_pub_invariant 50 1 [25] [16777259, 16777289, 562949953421313] [] []
      16777259 16777289 (16777259 * 16777289) 562949953421313 rsa_make_pub_run_50).2.1,
   (rsa_make_pub_invariant 50 1 [25] [16777259, 16777289, 562949953421313] [] []
      16777259 16777289 (16777259 * 16777289) 562949953421313 rsa_make_pub_run_50).2.2.2⟩

/-- C14: for a modulus n >= 1 and k = (mpz_sizeinbase (n, 2) - 1) / 8, every value
below 256 ^ k is below n, so the integer imported from at most k bytes, most
significant first, is strictly less than n; the same holds for the k the code stores. -/
theorem block_capacity_bound (n : Nat) (hn : 1 ≤ n) :
    (∀ v : Nat, v < 256 ^ ((mpz_sizeinbase2 (n : Int) - 1) / 8) → v < n) ∧
    (∀ bytes : List Nat, (∀ b ∈ bytes, b < 256) →
      bytes.length ≤ (mpz_sizeinbase2 (n : Int) - 1) / 8 → mpz_import bytes < (n : Int)) ∧
    rsa_block_size (n : Int) ≤ (mpz_sizeinbase2 (n : Int) - 1) / 8 := by
  have hcap := block_capacity_le_plain n hn
  refine ⟨fun v hv => lt_of_lt_of_le hv hcap, ?_, Nat.mod_le _ _⟩
  intro bytes hb hlen
  obtain ⟨v, hv, hlt⟩ := mpz_import_lt bytes hb
  rw [hv]
  have : v < n := lt_of_lt_of_le hlt ((Nat.pow_le_pow_right (by norm_num) hlen).trans hcap)
  exact_mod_cast this

theorem block_capacity_bound_witness :
    mpz_import [255, 255] < ((257 * 263 : Nat) : Int) := by
  have hk : (mpz_sizeinbase2 ((257 * 263 : Nat) : Int) - 1) / 8 = 2 := by
    rw [sizeinbase2_eq (257 * 263) 16 (by norm_num) (by norm_num)]
  exact (block_capacity_bound (257 * 263) (by norm_num)).2.1 [255, 255] (by decide)
    (by rw [hk]; decide)

/-- C15 (amended): for non-negative n, e, signature and d, and an identity string that
is not empty and holds no white space, rsa_read_pub on the text written by
rsa_write_pub gives back n, e, signature and the identity, and rsa_read_priv on the
text written by rsa_write_priv gives back n and d, whatever the variables held
before. -/
theorem rsa_key_file_round_trip (n e s d : Nat) (username : List Char)
    (hne : username ≠ []) (hw : ∀ c ∈ username, c_isspace c = false)
    (n0 e0 s0 d0 : Int) (username0 : List Char) :
    rsa_read_pub (rsa_write_pub (n : Int) (e : Int) (s : Int) username) n0 e0 s0 username0
      = ((n : Int), (e : Int), (s : Int), username) ∧
    rsa_read_priv (rsa_write_priv (n : Int) (d : Int)) n0 d0 = ((n : Int), (d : Int)) := by
  constructor
  · have hfile : rsa_write_pub (n : Int) (e : Int) (s : Int) username
        = gmp_printf_Zx (n : Int) ++ '\n' :: (gmp_printf_Zx (e : Int) ++ '\n' ::
            (gmp_printf_Zx (s : Int) ++ '\n' :: (username ++ '\n' :: []))) := by
      simp [rsa_write_pub]
    rw [hfile]
    unfold rsa_read_pub
    simp only [gmp_scanf_Zx_printf, dropWhile_newline_printf,
      dropWhile_newline_append username _ hne hw, scanf_s_word username [] hne hw]
  · have hfile : rsa_write_priv (n : Int) (d : Int)
        = gmp_printf_Zx (n : Int) ++ '\n' :: (gmp_printf_Zx (d : Int) ++ '\n' :: []) := by
      simp [rsa_write_priv]
    rw [hfile]
    unfold rsa_read_priv
    simp only [gmp_scanf_Zx_printf, dropWhile_newline_printf]

theorem rsa_key_file_round_trip_witness :
    rsa_read_pub (rsa_write_pub 323 5 15 ['u', 's', 'e', 'r', '1']) 0 0 0 []
      = (323, 5, 15, ['u', 's', 'e', 'r', '1']) ∧
    rsa_read_priv (rsa_write_priv 323 29) 0 0 = (323, 29) := by
  exact_mod_cast rsa_key_file_round_trip 323 5 15 29 ['u', 's', 'e', 'r', '1'] (by simp)
    (by decide) 0 0 0 0 []

/-- C15 (counterexample): the identity "a b" is written as it is, and the conversion
%s of rsa_read_pub reads back only "a"; the empty identity is not read at all, the
buffer keeps what it held. -/
theorem rsa_read_pub_loses_identity :
    rsa_write_pub 1 1 1 ['a', ' ', 'b'] = ['1', '\n', '1', '\n', '1', '\n', 'a', ' ', 'b', '\n'] ∧
    rsa_read_pub (rsa_write_pub 1 1 1 ['a', ' ', 'b']) 0 0 0 [] = (1, 1, 1, ['a']) ∧
    rsa_read_pub (rsa_write_pub 1 1 1 []) 0 0 0 ['o', 'l', 'd'] = (1, 1, 1, ['o', 'l', 'd']) := by
  have hp : gmp_printf_Zx 1 = ['1'] := by
    simp [gmp_printf_Zx, hex_digit_char]
  have hw1 : rsa_write_pub 1 1 1 ['a', ' ', 'b']
      = ['1', '\n', '1', '\n', '1', '\n', 'a', ' ', 'b', '\n'] := by
    simp [rsa_write_pub, hp]
  have hw2 : rsa_write_pub 1 1 1 [] = ['1', '\n', '1', '\n', '1', '\n', '\n'] := by
    simp [rsa_write_pub, hp]
  refine ⟨hw1, ?_, ?_⟩
  · rw [hw1]; decide
  · rw [hw2]; decide

/-- C16: with -b 50 accepted by keygen, the split pbits = qbits = 25 and the 25-bit
primes 16777259 and 16777289, rsa_make_pub returns a modulus of 49 bits, one bit short
of the 50 bits the usage text promises. -/
theorem rsa_make_pub_modulus_one_bit_short :
    keygen_case_b 50 = some 50 ∧
    rsa_make_pub 50 1 [25] [16777259, 16777289, 562949953421313]
      = some ((16777259, 16777289, 16777259 * 16777289, 562949953421313), [], []) ∧
    Nat.Prime 16777259 ∧ Nat.Prime 16777289 ∧
    mpz_sizeinbase2 16777259 = 25 ∧ mpz_sizeinbase2 16777289 = 25 ∧
    mpz_sizeinbase2 (16777259 * 16777289) = 49 := by
  refine ⟨by decide, rsa_make_pub_run_50, by norm_num, by norm_num, ?_, ?_, ?_⟩
  · exact_mod_cast sizeinbase2_eq 16777259 24 (by norm_num) (by norm_num)
  · exact_mod_cast sizeinbase2_eq 16777289 24 (by norm_num) (by norm_num)
  · have := sizeinbase2_eq (16777259 * 16777289) 48 (by norm_num) (by norm_num)
    exact_mod_cast this

/-- C17: the check of option -i tests nbits, not mr_iters, against 500: the result is
the error exactly when the value is below 1 or the current nbits exceeds 500.  With the
default nbits = 1024 the valid count 50 is refused; with nbits = 100 the count 501 is
taken. -/
theorem keygen_case_i_checks_nbits :
    (∀ nbits v : Nat, keygen_case_i nbits v = none ↔ v < 1 ∨ nbits > 500) ∧
    keygen_case_i 1024 50 = none ∧ keygen_case_b 100 = some 100 ∧
    keygen_case_i 100 501 = some 501 := by
  refine ⟨?_, by decide, by decide, by decide⟩
  intro nbits v
  unfold keygen_case_i
  simp only []
  split_ifs with h
  · exact ⟨fun _ => h, fun _ => rfl⟩
  · exact ⟨fun hc => absurd hc (by simp), fun hc => absurd hc h⟩

/-- C18 (amended): for n > 3 with n - 1 = 2 ^ s * r, r odd, and a tape of witnesses in
[2, n - 2], is_prime returns true exactly when every witness of the iters - 1 rounds
passes the strong probable prime test or has a ^ r mod n = n - 1 (for s >= 1, that is
for odd n, this is the strong probable prime test itself); and it returns false at the
first witness that fails, without drawing another one. -/
theorem is_prime_iff_witnesses_pass (n s r : Nat) (h3 : 3 < n) (hdec : n - 1 = 2 ^ s * r)
    (hodd : r % 2 = 1) (iters : Nat) (ws : List Nat) (hws : ∀ w ∈ ws, 2 ≤ w ∧ w ≤ n - 2)
    (hlen : iters - 1 ≤ ws.length) :
    (is_prime (n : Int) iters ws = some (true, ws.drop (iters - 1)) ↔
      ∀ a ∈ ws.take (iters - 1),
        spec_strong_probable_prime n s r a ∨ a ^ r % n = n - 1) ∧
    (∀ (pre : List Nat) (a : Nat) (post : List Nat), ws = pre ++ a :: post →
      pre.length < iters - 1 →
      (∀ b ∈ pre, spec_strong_probable_prime n s r b ∨ b ^ r % n = n - 1) →
      ¬ (spec_strong_probable_prime n s r a ∨ a ^ r % n = n - 1) →
      is_prime (n : Int) iters ws = some (false, post)) ∧
    (1 ≤ s → ∀ a : Nat,
      (spec_strong_probable_prime n s r a ∨ a ^ r % n = n - 1) ↔
        spec_strong_probable_prime n s r a) := by
  have hunf := is_prime_unfold_decomposition n s r h3 hdec hodd iters
  refine ⟨?_, ?_, ?_⟩
  · rw [hunf]
    exact is_prime_rounds_true_iff n s r h3 (iters - 1) ws hws hlen
  · intro pre a post hsplit hpre hpass hfail
    rw [hunf, hsplit]
    exact is_prime_rounds_first_failure n s r h3 pre (iters - 1) a post hpre
      (by rw [← hsplit]; exact hws) hpass hfail
  · intro hs a
    constructor
    · rintro (h | h)
      · exact h
      · right
        exact ⟨0, by omega, by simpa using h⟩
    · intro h; exact Or.inl h

theorem is_prime_iff_witnesses_pass_witness :
    (is_prime 13 3 [2, 5] = some (true, []) ↔
      ∀ a ∈ [2, 5], spec_strong_probable_prime 13 2 3 a ∨ a ^ 3 % 13 = 13 - 1) ∧
    is_prime 9 3 [2, 7] = some (false, [7]) := by
  have h1 := (is_prime_iff_witnesses_pass 13 2 3 (by decide) (by decide) (by decide)
    3 [2, 5] (by decide) (by decide)).1
  have h2 := (is_prime_iff_witnesses_pass 9 3 1 (by decide) (by decide) (by decide)
    3 [2, 7] (by decide) (by decide)).2.1 [] 2 [7] rfl (by decide)
    (by simp) (by
      unfold spec_strong_probable_prime
      simp
      intro j hj
      interval_cases j <;> norm_num)
  exact ⟨by simpa using h1, by exact_mod_cast h2⟩

/-- C18 (counterexample): n = 28 has n - 1 = 2 ^ 0 * 27; the witness 3 has
3 ^ 27 mod 28 = 27 = n - 1, which is not 1, and there is no j with 0 <= j < 0, so 3
fails the strong probable prime test; yet is_prime(28, 2) with this witness returns
true, because the round accepts y = n - 1 before it looks at s. -/
theorem is_prime_even_accepts_failed_base :
    28 - 1 = 2 ^ 0 * 27 ∧ 3 ^ 27 % 28 = 27 ∧ ¬ spec_strong_probable_prime 28 0 27 3 ∧
    is_prime 28 2 [3] = some (true, []) := by
  refine ⟨by norm_num, by norm_num, ?_, ?_⟩
  · unfold spec_strong_probable_prime
    norm_num
  · have hunf := is_prime_unfold_decomposition 28 0 27 (by decide) (by norm_num) (by decide)
      2 [3]
    have hc := is_prime_rounds_cons 28 0 27 0 3 [] (by decide) (by decide)
    have hp : is_prime_round_passes 28 0 27 3 := Or.inr (by norm_num)
    rw [if_pos hp] at hc
    have : is_prime ((28 : Nat) : Int) 2 [3] = some (true, []) := by
      rw [hunf]
      exact hc
    exact_mod_cast this

/-- C19: for n > 3, is_prime(n, 0) and is_prime(n, 1) return true without drawing,
composite n included; and on a tape of witnesses in [2, n - 2] a call that returns has
taken at most iters - 1 of them, exactly iters - 1 when it returns true. -/
theorem is_prime_round_count (n : Nat) (h3 : 3 < n) :
    (∀ tape : List Nat, is_prime (n : Int) 0 tape = some (true, tape) ∧
      is_prime (n : Int) 1 tape = some (true, tape)) ∧
    (∀ (iters : Nat) (ws : List Nat) (b : Bool) (rest : List Nat),
      (∀ w ∈ ws, 2 ≤ w ∧ w ≤ n - 2) → is_prime (n : Int) iters ws = some (b, rest) →
      ∃ c, c ≤ iters - 1 ∧ rest = ws.drop c ∧ (b = true → c = iters - 1)) := by
  have hstart : (n : Int) - 1 ≠ 0 := by omega
  have hunf := is_prime_unfold (n : Int) (by omega) (by omega) hstart
  constructor
  · intro tape
    rw [hunf, hunf]
    exact ⟨rfl, rfl⟩
  · intro iters ws b rest hws h
    rw [hunf] at h
    exact is_prime_rounds_consumed n _ _ _ ws b rest hws h

theorem is_prime_round_count_witness :
    is_prime 4 0 [] = some (true, []) ∧ is_prime 4 1 [2, 2] = some (true, [2, 2]) :=
  ⟨((is_prime_round_count 4 (by decide)).1 []).1,
   ((is_prime_round_count 4 (by decide)).1 [2, 2]).2⟩

/-- C20: for n >= 2 the exponent search of is_prime on start = n - 1 ends (it is a total
function), it ends at an exponent of at least 1, so that s after the decrement is not
negative, and with r = start / 2 ^ s: n - 1 = 2 ^ s * r and r is odd. -/
theorem is_prime_two_adic_decomposition (n : Nat) (hn : 2 ≤ n)
    (hstart : (n : Int) - 1 ≠ 0) :
    1 ≤ is_prime_find_s ((n : Int) - 1) hstart 0 ∧
    ∃ r : Nat,
      ((n : Int) - 1).fdiv (1 * 2 ^ (is_prime_find_s ((n : Int) - 1) hstart 0 - 1)) = (r : Int) ∧
      n - 1 = 2 ^ (is_prime_find_s ((n : Int) - 1) hstart 0 - 1) * r ∧ r % 2 = 1 := by
  obtain ⟨rn, h1, h2, h3, h4⟩ := is_prime_decomposition n hn hstart
  exact ⟨h4, rn, h1, h2.symm, h3⟩

theorem is_prime_two_adic_decomposition_witness :
    is_prime_find_s ((13 : Int) - 1) (by decide) 0 = 3 ∧
    ∃ r : Nat,
      ((13 : Int) - 1).fdiv (1 * 2 ^ (is_prime_find_s ((13 : Int) - 1) (by decide) 0 - 1))
        = (r : Int) ∧
      13 - 1 = 2 ^ (is_prime_find_s ((13 : Int) - 1) (by decide) 0 - 1) * r ∧ r % 2 = 1 := by
  refine ⟨?_, (is_prime_two_adic_decomposition 13 (by decide) (by decide)).2⟩
  rw [is_prime_find_s_eq, if_pos (by norm_num), is_prime_find_s_eq, if_pos (by norm_num),
    is_prime_find_s_eq, if_pos (by norm_num), is_prime_find_s_eq, if_neg (by norm_num)]

/-- C21: the trial division of make_prime only sets aside composites.  A candidate
(a draw forced odd) for which it sets cont is a product i * k with i odd,
3 <= i <= 541, and k >= 2; so for no prime p, the primes 3 to 541 included, is cont
set; and on a draw whose candidate is a prime p, make_prime and the same loop without
the trial division do the same: both return p with the tape is_prime leaves, or
neither returns when the tape ends inside is_prime. -/
theorem make_prime_trial_division_is_optimisation :
    (∀ bits x : Nat,
      make_prime_cont (if ((x % 2 ^ bits : Nat) : Int) % 2 = 0
        then ((x % 2 ^ bits : Nat) : Int) + 1 else ((x % 2 ^ bits : Nat) : Int)) = true →
      ∃ i k : Nat, 3 ≤ i ∧ i ≤ 541 ∧ i % 2 = 1 ∧ 2 ≤ k ∧
        (if ((x % 2 ^ bits : Nat) : Int) % 2 = 0 then ((x % 2 ^ bits : Nat) : Int) + 1
          else ((x % 2 ^ bits : Nat) : Int)) = ((i * k : Nat) : Int)) ∧
    (∀ p : Nat, p.Prime → make_prime_cont (p : Int) = false) ∧
    (∀ (bits iters x : Nat) (tape : List Nat) (p : Nat), p.Prime →
      mpz_sizeinbase2 ((x % 2 ^ bits : Nat) : Int) = bits →
      (if ((x % 2 ^ bits : Nat) : Int) % 2 = 0 then ((x % 2 ^ bits : Nat) : Int) + 1
        else ((x % 2 ^ bits : Nat) : Int)) = (p : Int) →
      make_prime bits iters (x :: tape) = spec_make_prime_unfiltered bits iters (x :: tape) ∧
      make_prime bits iters (x :: tape)
        = (is_prime (p : Int) iters tape).map fun bt => ((p : Int), bt.2)) := by
  refine ⟨fun bits x h => make_prime_cont_factors _ (make_prime_candidate_pos bits x).1 h,
    make_prime_cont_prime, ?_⟩
  intro bits iters x tape p hp hsize hc
  have hodd : p % 2 = 1 := by
    split_ifs at hc with h0 <;> omega
  have hnf : ∀ rest, is_prime (p : Int) iters tape ≠ some (false, rest) :=
    fun rest => is_prime_odd_prime_not_false p hp hodd iters tape rest
  rw [make_prime_cons bits iters x tape p hsize hc (make_prime_cont_prime p hp) hnf,
    spec_make_prime_unfiltered_cons bits iters x tape p hsize hc hnf]
  exact ⟨rfl, rfl⟩

theorem make_prime_trial_division_is_optimisation_witness :
    (∃ i k : Nat, 3 ≤ i ∧ i ≤ 541 ∧ i % 2 = 1 ∧ 2 ≤ k ∧ (9 : Int) = ((i * k : Nat) : Int)) ∧
    make_prime_cont 541 = false ∧
    make_prime 4 3 [12, 2, 5] = spec_make_prime_unfiltered 4 3 [12, 2, 5] ∧
    make_prime 4 3 [12, 2, 5] = (is_prime 13 3 [2, 5]).map fun bt => (13, bt.2) :=
  have hs : mpz_sizeinbase2 ((12 % 2 ^ 4 : Nat) : Int) = 4 :=
    sizeinbase2_eq 12 3 (by norm_num) (by norm_num)
  ⟨make_prime_trial_division_is_optimisation.1 4 9 (by decide),
   make_prime_trial_division_is_optimisation.2.1 541 (by norm_num),
   (make_prime_trial_division_is_optimisation.2.2 4 3 12 [2, 5] 13 (by norm_num) hs
      (by norm_num)).1,
   (make_prime_trial_division_is_optimisation.2.2 4 3 12 [2, 5] 13 (by norm_num) hs
      (by norm_num)).2⟩

/-- C22: for a block of k bytes and a chunk of j bytes, 1 <= j <= k - 1, whatever
its leading bytes, mpz_export of the integer that mpz_import makes of 0xFF followed
by the chunk gives back the j + 1 bytes 0xFF followed by the chunk; dropping the first
gives the chunk, which is what rsa_decrypt_file writes for a line that decrypts to
this integer; and two chunks with the same framed integer are equal. -/
theorem sentinel_framing_round_trip (k : Nat) (hk64 : k < 2 ^ 64) (chunk : List Nat)
    (hb : ∀ b ∈ chunk, b < 256) (hj1 : 1 ≤ chunk.length) (hjk : chunk.length ≤ k - 1) :
    mpz_export (mpz_import (0xFF :: chunk)) = 0xFF :: chunk ∧
    (mpz_export (mpz_import (0xFF :: chunk))).length = chunk.length + 1 ∧
    (mpz_export (mpz_import (0xFF :: chunk))).drop 1 = chunk ∧
    (∀ c d n : Int, rsa_decrypt c d n = mpz_import (0xFF :: chunk) →
      rsa_decrypt_file_block k c d n = some chunk) ∧
    (∀ chunk2 : List Nat, (∀ b ∈ chunk2, b < 256) →
      mpz_import (0xFF :: chunk) = mpz_import (0xFF :: chunk2) → chunk = chunk2) := by
  have h := mpz_export_import chunk hb
  refine ⟨h, ?_, ?_, ?_, ?_⟩
  · rw [h]; rfl
  · rw [h]; rfl
  · intro c d n hm
    exact rsa_decrypt_file_block_of_import k hk64 chunk hb (by omega) c d n hm
  · intro chunk2 hb2 heq
    exact mpz_import_sentinel_inj chunk chunk2 hb hb2 heq

theorem sentinel_framing_round_trip_witness :
    mpz_export (mpz_import [0xFF, 0, 0, 7]) = [0xFF, 0, 0, 7] ∧
    (mpz_export (mpz_import [0xFF, 0, 0, 7])).drop 1 = [0, 0, 7] :=
  ⟨(sentinel_framing_round_trip 6 (by norm_num) [0, 0, 7] (by decide) (by decide)
      (by decide)).1,
   (sentinel_framing_round_trip 6 (by norm_num) [0, 0, 7] (by decide) (by decide)
      (by decide)).2.2.1⟩

/-- C23: for n > 1 and a >= 0 with gcd(a, n) = 1, the loop of mod_inverse ends with
r = 1 and a coefficient t with -n < t < n, so that adding n once when t is negative
is enough: the output of mod_inverse(a, n) is that t or t + n, and lies in [0, n). -/
theorem mod_inverse_result_range (a n : Int) (hn : 1 < n) (ha : 0 ≤ a)
    (hg : Int.gcd a n = 1) :
    (mod_inverse_loop n a 0 1).1 = 1 ∧
    -n < (mod_inverse_loop n a 0 1).2 ∧ (mod_inverse_loop n a 0 1).2 < n ∧
    mod_inverse a n
      = (if (mod_inverse_loop n a 0 1).2 < 0 then (mod_inverse_loop n a 0 1).2 + n
         else (mod_inverse_loop n a 0 1).2) ∧
    0 ≤ mod_inverse a n ∧ mod_inverse a n < n := by
  have hg1 : Int.gcd n a = 1 := by rw [Int.gcd_comm]; exact hg
  obtain ⟨h1, -, h3⟩ :=
    mod_inverse_loop_spec n a hn _ n a 0 1 rfl (ModInvInv.init n a hn ha)
  rw [hg1, Nat.cast_one] at h1
  have hb := abs_lt.mp h3
  obtain ⟨h4, h5, -⟩ := mod_inverse_coprime a n hn ha hg1
  refine ⟨h1, hb.1, hb.2, ?_, h4, h5⟩
  unfold mod_inverse
  simp only [h1, gt_iff_lt, lt_self_iff_false, if_false]

theorem mod_inverse_result_range_witness :
    (mod_inverse_loop 7 3 0 1).1 = 1 ∧
    -7 < (mod_inverse_loop 7 3 0 1).2 ∧ (mod_inverse_loop 7 3 0 1).2 < 7 ∧
    mod_inverse 3 7
      = (if (mod_inverse_loop 7 3 0 1).2 < 0 then (mod_inverse_loop 7 3 0 1).2 + 7
         else (mod_inverse_loop 7 3 0 1).2) ∧
    0 ≤ mod_inverse 3 7 ∧ mod_inverse 3 7 < 7 :=
  mod_inverse_result_range 3 7 (by norm_num) (by norm_num) (by decide)

/-- C24: in rsa_make_pub, for 2 <= nbits < 2 ^ 64 with upper = (nbits * 3) / 4, as
computed on uint64_t, not 0, whatever random returns, the accepted pbits has
nbits / 4 <= pbits < (3 * nbits) / 4, and with qbits = nbits - pbits,
pbits + qbits = nbits; for nbits >= 50 both are at least 12; and these are the sizes
of the p and q of any result of rsa_make_pub. -/
theorem rsa_make_pub_prime_size_split (nbits : Nat) (hn : 2 ≤ nbits) (h64 : nbits < 2 ^ 64)
    (rtape rtape1 : List Nat) (pbits : Nat)
    (h : rsa_make_pub_pbits (nbits / 4) ((nbits * 3) % 2 ^ 64 / 4) rtape = some (pbits, rtape1))
    (hupper : (nbits * 3) % 2 ^ 64 / 4 ≠ 0) :
    nbits / 4 ≤ pbits ∧ pbits < (3 * nbits) / 4 ∧ pbits + (nbits - pbits) = nbits ∧
    (50 ≤ nbits → 12 ≤ pbits ∧ 12 ≤ nbits - pbits) ∧
    (∀ (iters : Nat) (tape rt t3 : List Nat) (p q n e : Int),
      rsa_make_pub nbits iters rtape tape = some ((p, q, n, e), rt, t3) →
      mpz_sizeinbase2 p = pbits ∧ mpz_sizeinbase2 q = nbits - pbits) := by
  obtain ⟨h1, h2, -, -⟩ := rsa_make_pub_pbits_spec _ _ _ _ _ h
  have h3 := h2 (Nat.pos_of_ne_zero hupper)
  have h4 : (nbits * 3) % 2 ^ 64 / 4 ≤ (3 * nbits) / 4 := by
    have := Nat.mod_le (nbits * 3) (2 ^ 64)
    omega
  refine ⟨h1, by omega, by omega, fun h50 => by omega, ?_⟩
  intro iters tape rt t3 p q n e hrun
  obtain ⟨pb, t1, t2, -, hpb, hp, hq, -, -⟩ := rsa_make_pub_inv _ _ _ _ _ _ _ _ _ _ hrun
  rw [h] at hpb
  simp only [Option.some.injEq, Prod.mk.injEq] at hpb
  obtain ⟨rfl, -⟩ := hpb
  exact ⟨(make_prime_spec _ _ _ _ _ hp).1, (make_prime_spec _ _ _ _ _ hq).1⟩

theorem rsa_make_pub_prime_size_split_witness :
    50 / 4 ≤ 25 ∧ 25 < (3 * 50) / 4 ∧ 25 + (50 - 25) = 50 ∧
    mpz_sizeinbase2 16777259 = 25 ∧ mpz_sizeinbase2 16777289 = 50 - 25 :=
  have h := rsa_make_pub_prime_size_split 50 (by norm_num) (by norm_num) [25] [] 25
    (by decide) (by norm_num)
  ⟨h.1, h.2.1, h.2.2.1,
    (h.2.2.2.2 1 [16777259, 16777289, 562949953421313] [] [] 16777259 16777289
      (16777259 * 16777289) 562949953421313 rsa_make_pub_run_50).1,
    (h.2.2.2.2 1 [16777259, 16777289, 562949953421313] [] [] 16777259 16777289
      (16777259 * 16777289) 562949953421313 rsa_make_pub_run_50).2⟩

/-- C25: for a modulus n with block size k >= 2, the integer m that mpz_import makes
of 0xFF followed by a chunk of j >= 1 bytes is at least 0xFF00, so it is neither 0
nor 1: the loop of rsa_encrypt_file never takes the branch that skips a block, and
rsa_encrypt_file writes one line for every chunk of up to k - 1 bytes of the input. -/
theorem rsa_encrypt_file_never_skips (n e : Int) (hk : 2 ≤ rsa_block_size n) :
    (∀ chunk : List Nat, 1 ≤ chunk.length →
      0xFF00 ≤ mpz_import (0xFF :: chunk) ∧
      ¬ (mpz_import (0xFF :: chunk) = 0 ∨ mpz_import (0xFF :: chunk) = 1)) ∧
    (∀ (infile : List Nat) (eof : Bool),
      rsa_encrypt_file_loop (rsa_block_size n) n e infile eof
        = if eof = true then []
          else if (infile.take (rsa_block_size n - 1)).length = 0 then []
          else rsa_encrypt (mpz_import (0xFF :: infile.take (rsa_block_size n - 1))) e n ::
            rsa_encrypt_file_loop (rsa_block_size n) n e (infile.drop (rsa_block_size n - 1))
              (decide ((infile.take (rsa_block_size n - 1)).length < rsa_block_size n - 1))) ∧
    (∀ infile : List Nat, ∃ lines : List Int, rsa_encrypt_file infile n e = some lines ∧
      lines.length = (infile.length + (rsa_block_size n - 2)) / (rsa_block_size n - 1)) := by
  refine ⟨?_, fun infile eof => rsa_encrypt_file_loop_no_skip _ n e infile eof, ?_⟩
  · intro chunk hj
    refine ⟨?_, mpz_import_sentinel_gt_one chunk⟩
    have h := mpz_import_sentinel_ge chunk
    have h1 : 256 ^ 1 ≤ 256 ^ chunk.length := Nat.pow_le_pow_right (by norm_num) hj
    have h2 : ((0xFF00 : Nat) : Int) ≤ ((0xFF * 256 ^ chunk.length : Nat) : Int) := by
      exact_mod_cast (by omega : 0xFF00 ≤ 0xFF * 256 ^ chunk.length)
    exact le_trans (by exact_mod_cast h2) h
  · intro infile
    refine ⟨rsa_encrypt_file_loop (rsa_block_size n) n e infile false, ?_,
      rsa_encrypt_file_loop_length _ hk n e _ infile rfl⟩
    unfold rsa_encrypt_file
    simp only []
    rw [if_neg (by omega)]

theorem rsa_encrypt_file_never_skips_witness :
    0xFF00 ≤ mpz_import [0xFF, 0] ∧
    ∃ lines : List Int, rsa_encrypt_file [0, 0, 1] 65536 3 = some lines ∧ lines.length = 3 := by
  have h := rsa_encrypt_file_never_skips 65536 3 (by rw [rsa_block_size_65536])
  obtain ⟨lines, h1, h2⟩ := h.2.2 [0, 0, 1]
  rw [rsa_block_size_65536] at h2
  exact ⟨(h.1 [0] (by decide)).1, lines, h1, h2⟩

/-- C26: rsa_make_pub can return p = q: the run of rsa_make_pub(50, 50) in which
random gives 25 and both calls of make_prime draw 16777259.  And equal primes break
decryption: for every odd prime p and every e >= 2 coprime to p - 1, which is the
lambda the code computes for q = p, with n = p * p and d = rsa_make_priv(e, p, p), the
message m = p has 1 < m < n and rsa_decrypt(rsa_encrypt(m, e, n), d, n) is 0, not m. -/
theorem rsa_equal_primes_break_decryption (p e : Nat) (hp : p.Prime) (hodd : p % 2 = 1)
    (he : 2 ≤ e) (hcop : Nat.gcd e (p - 1) = 1) :
    rsa_make_pub 50 50 [25]
      (16777259 :: (List.replicate 49 2 ++
        (16777259 :: (List.replicate 49 2 ++ [562949953421313]))))
      = some ((16777259, 16777259, 16777259 * 16777259, 562949953421313), [], []) ∧
    ((((p : Int) - 1) * ((p : Int) - 1)).fdiv (gcd ((p : Int) - 1) ((p : Int) - 1)))
      = (p : Int) - 1 ∧
    (1 : Int) < (p : Int) ∧ (p : Int) < (p : Int) * (p : Int) ∧
    rsa_decrypt (rsa_encrypt (p : Int) (e : Int) ((p : Int) * (p : Int)))
      (rsa_make_priv (e : Int) (p : Int) (p : Int)) ((p : Int) * (p : Int)) = 0 ∧
    rsa_decrypt (rsa_encrypt (p : Int) (e : Int) ((p : Int) * (p : Int)))
      (rsa_make_priv (e : Int) (p : Int) (p : Int)) ((p : Int) * (p : Int)) ≠ (p : Int) := by
  have h2 := hp.two_le
  have h3 : 3 ≤ p := by omega
  obtain ⟨d, hd, hd1, -, -⟩ := rsa_make_priv_equal_primes p e h3 hcop
  have hdec : rsa_decrypt (rsa_encrypt (p : Int) (e : Int) ((p : Int) * (p : Int)))
      (rsa_make_priv (e : Int) (p : Int) (p : Int)) ((p : Int) * (p : Int)) = 0 := by
    rw [rsa_encrypt_prime_square p e h2 he, hd, rsa_decrypt_zero d hd1]
  refine ⟨rsa_make_pub_run_equal_primes, rsa_lambda_equal_primes p h2, by omega, ?_, hdec, ?_⟩
  · have : (p : Int) * 1 < (p : Int) * (p : Int) :=
      Int.mul_lt_mul_of_pos_left (by omega) (by omega)
    omega
  · rw [hdec]; omega

theorem rsa_equal_primes_break_decryption_witness :
    rsa_decrypt
      (rsa_encrypt ((16777259 : Nat) : Int) ((562949953421313 : Nat) : Int)
        (((16777259 : Nat) : Int) * ((16777259 : Nat) : Int)))
      (rsa_make_priv ((562949953421313 : Nat) : Int) ((16777259 : Nat) : Int)
        ((16777259 : Nat) : Int))
      (((16777259 : Nat) : Int) * ((16777259 : Nat) : Int)) = 0 ∧
    rsa_decrypt (rsa_encrypt 5 3 (5 * 5)) (rsa_make_priv 3 5 5) (5 * 5) = 0 :=
  ⟨(rsa_equal_primes_break_decryption 16777259 562949953421313 (by norm_num) (by norm_num)
      (by norm_num) (by norm_num)).2.2.2.2.1,
   (rsa_equal_primes_break_decryption 5 3 (by norm_num) (by norm_num) (by norm_num)
      (by decide)).2.2.2.2.1⟩

/-- C27: for n >= 1 and e >= 1, pow_mod(s, e, n) lies in [0, n) for every s, so for
every m >= n rsa_verify(m, s, e, n) is false; in particular for the signature
s = rsa_sign(m, d, n) of m itself, whatever the private exponent d. -/
theorem rsa_verify_message_not_below_modulus (n e s m d : Int) (hn : 1 ≤ n) (he : 1 ≤ e)
    (hm : n ≤ m) :
    0 ≤ pow_mod s e n ∧ pow_mod s e n < n ∧
    rsa_verify m s e n = false ∧ rsa_verify m (rsa_sign m d n) e n = false := by
  have hrange : ∀ t : Int, 0 ≤ pow_mod t e n ∧ pow_mod t e n < n := by
    intro t
    obtain ⟨k, rfl⟩ := Int.eq_ofNat_of_zero_le (by omega : 0 ≤ e)
    rw [pow_mod_pos t n k (by omega)]
    exact ⟨Int.emod_nonneg _ (by omega), Int.emod_lt_of_pos _ (by omega)⟩
  have hv : ∀ t : Int, rsa_verify m t e n = false := by
    intro t
    rw [← Bool.not_eq_true, rsa_verify_iff]
    have := hrange t
    omega
  exact ⟨(hrange s).1, (hrange s).2, hv s, hv _⟩

theorem rsa_verify_message_not_below_modulus_witness :
    rsa_verify 325 15 5 323 = false ∧ rsa_verify 325 (rsa_sign 325 29 323) 5 323 = false :=
  ⟨(rsa_verify_message_not_below_modulus 323 5 15 325 29 (by norm_num) (by norm_num)
      (by norm_num)).2.2.1,
   (rsa_verify_message_not_below_modulus 323 5 15 325 29 (by norm_num) (by norm_num)
      (by norm_num)).2.2.2⟩

end RSA
